import Mathlib

/-!
# Bit-banged I2C master (`project/stm32f407/interface/src/iic.c`)

A shallow embedding of the software I2C master of the MAX30102 driver port.
The C code talks to the world through five macros (`SDA_IN`, `SDA_OUT`,
`IIC_SCL = v`, `IIC_SDA = v`, `READ_SDA`) and `delay_us`.  The embedding keeps
a log of these accesses, in program order, and threads it through every
function.  The only input the code ever takes from the world is the level
`READ_SDA` returns, so a peer is the sequence of levels it presents at the
successive polls of `READ_SDA`.

Machine integers are natural numbers; where the C type can wrap the
reduction modulo `2 ^ w` is written out.

The file also embeds `max30102_interface_debug_print` of
`project/raspberrypi4b/driver/src/raspberrypi4b_driver_max30102_interface.c`,
with the C library's `printf` as a parameter.
-/

namespace IIC

/-! ## Line accesses -/

/-- One access of the master to the two lines, or one busy-wait. -/
inductive Ev where
  /-- The macro `SDA_OUT()`: SDA pin switched to output mode. -/
  | sdaOut : Ev
  /-- The macro `SDA_IN()`: SDA pin switched to input mode. -/
  | sdaIn : Ev
  /-- The assignment `IIC_SCL = v`. -/
  | scl : Bool → Ev
  /-- The assignment `IIC_SDA = v`. -/
  | sda : Bool → Ev
  /-- The call `delay_us(n)`. -/
  | delay : Nat → Ev
  /-- One evaluation of `READ_SDA`, with the level it returned. -/
  | readSda : Bool → Ev
  deriving DecidableEq, Repr

/-- The world as the master sees it: the peer (level returned by the `n`-th
evaluation of `READ_SDA`), how many evaluations have happened, and the log of
line accesses so far, oldest first. -/
structure Bus where
  peer : Nat → Bool
  polls : Nat
  trace : List Ev

/-- Append one access to the log. -/
def emit (e : Ev) (s : Bus) : Bus :=
  { s with trace := s.trace ++ [e] }

/-- The macro `SDA_IN()`. -/
def SDA_IN (s : Bus) : Bus := emit Ev.sdaIn s

/-- The macro `SDA_OUT()`. -/
def SDA_OUT (s : Bus) : Bus := emit Ev.sdaOut s

/-- The assignment `IIC_SCL = v`; the bit-band alias stores bit 0 of `v`. -/
def IIC_SCL (v : Nat) (s : Bus) : Bus := emit (Ev.scl (v % 2 == 1)) s

/-- The assignment `IIC_SDA = v`; the bit-band alias stores bit 0 of `v`. -/
def IIC_SDA (v : Nat) (s : Bus) : Bus := emit (Ev.sda (v % 2 == 1)) s

/-- The call `delay_us(n)`. -/
def delay_us (n : Nat) (s : Bus) : Bus := emit (Ev.delay n) s

/-- The macro `READ_SDA`: the level the peer presents at this poll. -/
def READ_SDA (s : Bus) : Bool × Bus :=
  (s.peer s.polls,
   { s with polls := s.polls + 1, trace := s.trace ++ [Ev.readSda (s.peer s.polls)] })

/-! ## Bus lifecycle -/

/-- The function `iic_init`.  `HAL_GPIO_Init` configures PB8 and PB9 as
push-pull outputs; of that only the SDA direction is a line access the rest of
the file can undo, and it is logged as such. -/
def iic_init (s : Bus) : Nat × Bus :=
  let s := SDA_OUT s
  let s := IIC_SDA 1 s
  let s := IIC_SCL 1 s
  (0, s)

/-! ## Bit-level transaction engine -/

/-- The function `_iic_start`. -/
def _iic_start (s : Bus) : Bus :=
  let s := SDA_OUT s
  let s := IIC_SCL 1 s
  let s := delay_us 15 s
  let s := IIC_SDA 0 s
  let s := delay_us 15 s
  let s := IIC_SCL 0 s
  let s := delay_us 15 s
  let s := IIC_SDA 1 s
  let s := delay_us 15 s
  s

/-- The function `_iic_stop`. -/
def _iic_stop (s : Bus) : Bus :=
  let s := SDA_OUT s
  let s := IIC_SDA 0 s
  let s := delay_us 15 s
  let s := IIC_SCL 1 s
  let s := delay_us 15 s
  let s := IIC_SDA 1 s
  let s := delay_us 15 s
  s

/-- The loop `while (READ_SDA) { uc_err_time++; if (uc_err_time > 500) ... }`
of `_iic_wait_ack` together with what follows it; `uc_err_time` is a
`uint16_t`. -/
def wait_ack_loop (uc_err_time : Nat) (s : Bus) : Nat × Bus :=
  let r := READ_SDA s
  if r.1 then
    let uc_err_time := (uc_err_time + 1) % 65536
    if 500 < uc_err_time then
      (1, _iic_stop r.2)
    else
      wait_ack_loop uc_err_time r.2
  else
    let s := IIC_SCL 0 r.2
    let s := delay_us 20 s
    (0, s)
termination_by if uc_err_time ≤ 500 then 501 - uc_err_time else 502
decreasing_by
  simp_wf
  split <;> split <;> omega

/-- The function `_iic_wait_ack`: 0 is "got ack", 1 is "no ack". -/
def _iic_wait_ack (s : Bus) : Nat × Bus :=
  let s := SDA_IN s
  let s := IIC_SDA 1 s
  let s := delay_us 20 s
  let s := IIC_SCL 1 s
  let s := delay_us 20 s
  wait_ack_loop 0 s

/-- The function `_iic_ack`. -/
def _iic_ack (s : Bus) : Bus :=
  let s := IIC_SCL 0 s
  let s := delay_us 20 s
  let s := SDA_OUT s
  let s := IIC_SDA 0 s
  let s := delay_us 20 s
  let s := IIC_SCL 1 s
  let s := delay_us 20 s
  let s := IIC_SCL 0 s
  let s := delay_us 20 s
  s

/-- The function `_iic_nack`. -/
def _iic_nack (s : Bus) : Bus :=
  let s := IIC_SCL 0 s
  let s := delay_us 20 s
  let s := SDA_OUT s
  let s := IIC_SDA 1 s
  let s := delay_us 20 s
  let s := IIC_SCL 1 s
  let s := delay_us 20 s
  let s := IIC_SCL 0 s
  let s := delay_us 20 s
  s

/-- The loop `for (t = 0; t < 8; t++)` of `_iic_send_byte`; `txd` is a
`uint8_t`. -/
def send_byte_loop (t : Nat) (txd : Nat) (s : Bus) : Bus :=
  if t < 8 then
    let s := IIC_SDA ((txd &&& 0x80) >>> 7) s
    let txd := (txd <<< 1) % 256
    let s := delay_us 10 s
    let s := IIC_SCL 1 s
    let s := delay_us 10 s
    let s := IIC_SCL 0 s
    let s := delay_us 10 s
    send_byte_loop (t + 1) txd s
  else
    s
termination_by 8 - t

/-- The function `_iic_send_byte`. -/
def _iic_send_byte (txd : Nat) (s : Bus) : Bus :=
  let s := SDA_OUT s
  let s := IIC_SCL 0 s
  send_byte_loop 0 txd s

/-- The loop `for (i = 0; i < 8; i++)` of `_iic_read_byte`; `receive` is a
`uint8_t`. -/
def read_byte_loop (i : Nat) (receive : Nat) (s : Bus) : Nat × Bus :=
  if i < 8 then
    let s := IIC_SCL 0 s
    let s := delay_us 10 s
    let s := IIC_SCL 1 s
    let receive := (receive <<< 1) % 256
    let r := READ_SDA s
    let receive := if r.1 then (receive + 1) % 256 else receive
    let s := delay_us 10 r.2
    read_byte_loop (i + 1) receive s
  else
    (receive, s)
termination_by 8 - i

/-- The function `_iic_read_byte`. -/
def _iic_read_byte (ack : Nat) (s : Bus) : Nat × Bus :=
  let s := SDA_IN s
  let r := read_byte_loop 0 0 s
  let s := if ack = 0 then _iic_nack r.2 else _iic_ack r.2
  (r.1, s)

/-! ## Register protocol layer -/

/-- The data loop shared by the three write operations,
`for (i = 0; i < len; i++) { _iic_send_byte(buf[i]); if (_iic_wait_ack()) { _iic_stop(); return 1; } }`.
Status 1 means the function returned from inside the loop. -/
def write_loop (buf : List Nat) (len : Nat) (i : Nat) (s : Bus) : Nat × Bus :=
  if i < len then
    let s := _iic_send_byte (buf.getD i 0) s
    let r := _iic_wait_ack s
    if r.1 ≠ 0 then
      (1, _iic_stop r.2)
    else
      write_loop buf len (i + 1) r.2
  else
    (0, s)
termination_by len - i

/-- The data loop shared by the three read operations,
`while (len) { *buf = _iic_read_byte(len == 1 ? 0 : 1); len--; buf++; }`.
The caller's buffer is `mem`; `ptr` is the offset `buf` has reached. -/
def read_loop : (len : Nat) → (ptr : Nat) → (mem : List Nat) → Bus → List Nat × Bus
  | 0, _, mem, s => (mem, s)
  | len + 1, ptr, mem, s =>
    let r := if len + 1 = 1 then _iic_read_byte 0 s else _iic_read_byte 1 s
    read_loop len (ptr + 1) (mem.set ptr r.1) r.2

/-- The function `iic_write_cmd`. -/
def iic_write_cmd (addr : Nat) (buf : List Nat) (len : Nat) (s : Bus) : Nat × Bus :=
  let s := _iic_start s
  let s := _iic_send_byte addr s
  let r := _iic_wait_ack s
  if r.1 ≠ 0 then (1, _iic_stop r.2) else
  let r := write_loop buf len 0 r.2
  if r.1 ≠ 0 then (1, r.2) else
  (0, _iic_stop r.2)

/-- The function `iic_write`. -/
def iic_write (addr reg : Nat) (buf : List Nat) (len : Nat) (s : Bus) : Nat × Bus :=
  let s := _iic_start s
  let s := _iic_send_byte addr s
  let r := _iic_wait_ack s
  if r.1 ≠ 0 then (1, _iic_stop r.2) else
  let s := _iic_send_byte reg r.2
  let r := _iic_wait_ack s
  if r.1 ≠ 0 then (1, _iic_stop r.2) else
  let r := write_loop buf len 0 r.2
  if r.1 ≠ 0 then (1, r.2) else
  (0, _iic_stop r.2)

/-- The function `iic_write_address16`; `reg` is a `uint16_t`. -/
def iic_write_address16 (addr reg : Nat) (buf : List Nat) (len : Nat) (s : Bus) : Nat × Bus :=
  let s := _iic_start s
  let s := _iic_send_byte addr s
  let r := _iic_wait_ack s
  if r.1 ≠ 0 then (1, _iic_stop r.2) else
  let s := _iic_send_byte ((reg >>> 8) &&& 0xFF) r.2
  let r := _iic_wait_ack s
  if r.1 ≠ 0 then (1, _iic_stop r.2) else
  let s := _iic_send_byte (reg &&& 0xFF) r.2
  let r := _iic_wait_ack s
  if r.1 ≠ 0 then (1, _iic_stop r.2) else
  let r := write_loop buf len 0 r.2
  if r.1 ≠ 0 then (1, r.2) else
  (0, _iic_stop r.2)

/-- The function `iic_read`.  The result is the status, the caller's buffer
afterwards, and the bus.  The argument `addr + 1` is converted to `uint8_t`. -/
def iic_read (addr reg : Nat) (buf : List Nat) (len : Nat) (s : Bus) : Nat × List Nat × Bus :=
  let s := _iic_start s
  let s := _iic_send_byte addr s
  let r := _iic_wait_ack s
  if r.1 ≠ 0 then (1, buf, _iic_stop r.2) else
  let s := _iic_send_byte reg r.2
  let r := _iic_wait_ack s
  if r.1 ≠ 0 then (1, buf, _iic_stop r.2) else
  let s := _iic_start r.2
  let s := _iic_send_byte ((addr + 1) % 256) s
  let r := _iic_wait_ack s
  if r.1 ≠ 0 then (1, buf, _iic_stop r.2) else
  let m := read_loop len 0 buf r.2
  (0, m.1, _iic_stop m.2)

/-- The function `iic_read_address16`; `reg` is a `uint16_t`. -/
def iic_read_address16 (addr reg : Nat) (buf : List Nat) (len : Nat) (s : Bus) :
    Nat × List Nat × Bus :=
  let s := _iic_start s
  let s := _iic_send_byte addr s
  let r := _iic_wait_ack s
  if r.1 ≠ 0 then (1, buf, _iic_stop r.2) else
  let s := _iic_send_byte ((reg >>> 8) &&& 0xFF) r.2
  let r := _iic_wait_ack s
  if r.1 ≠ 0 then (1, buf, _iic_stop r.2) else
  let s := _iic_send_byte (reg &&& 0xFF) r.2
  let r := _iic_wait_ack s
  if r.1 ≠ 0 then (1, buf, _iic_stop r.2) else
  let s := _iic_start r.2
  let s := _iic_send_byte ((addr + 1) % 256) s
  let r := _iic_wait_ack s
  if r.1 ≠ 0 then (1, buf, _iic_stop r.2) else
  let m := read_loop len 0 buf r.2
  (0, m.1, _iic_stop m.2)

/-- The function `iic_read_cmd`. -/
def iic_read_cmd (addr : Nat) (buf : List Nat) (len : Nat) (s : Bus) : Nat × List Nat × Bus :=
  let s := _iic_start s
  let s := _iic_send_byte ((addr + 1) % 256) s
  let r := _iic_wait_ack s
  if r.1 ≠ 0 then (1, buf, _iic_stop r.2) else
  let m := read_loop len 0 buf r.2
  (0, m.1, _iic_stop m.2)

/-! ## The accesses each function makes, in closed form -/

/-- Append accesses to the log and advance the poll counter. -/
def Bus.adv (s : Bus) (k : Nat) (es : List Ev) : Bus :=
  { s with polls := s.polls + k, trace := s.trace ++ es }

/-- Accesses of `_iic_start`. -/
def startEv : List Ev :=
  [Ev.sdaOut, Ev.scl true, Ev.delay 15, Ev.sda false, Ev.delay 15, Ev.scl false, Ev.delay 15,
   Ev.sda true, Ev.delay 15]

/-- Accesses of `_iic_stop`. -/
def stopEv : List Ev :=
  [Ev.sdaOut, Ev.sda false, Ev.delay 15, Ev.scl true, Ev.delay 15, Ev.sda true, Ev.delay 15]

/-- Accesses of `_iic_ack`. -/
def ackEv : List Ev :=
  [Ev.scl false, Ev.delay 20, Ev.sdaOut, Ev.sda false, Ev.delay 20, Ev.scl true, Ev.delay 20,
   Ev.scl false, Ev.delay 20]

/-- Accesses of `_iic_nack`. -/
def nackEv : List Ev :=
  [Ev.scl false, Ev.delay 20, Ev.sdaOut, Ev.sda true, Ev.delay 20, Ev.scl true, Ev.delay 20,
   Ev.scl false, Ev.delay 20]

/-- Level `_iic_send_byte` puts on SDA for the current most significant bit. -/
def msb (txd : Nat) : Bool := ((txd &&& 0x80) >>> 7) % 2 == 1

/-- Accesses of `n` rounds of the bit loop of `_iic_send_byte`. -/
def sendBits : Nat → Nat → List Ev
  | 0, _ => []
  | n + 1, txd =>
    [Ev.sda (msb txd), Ev.delay 10, Ev.scl true, Ev.delay 10, Ev.scl false, Ev.delay 10]
      ++ sendBits n ((txd <<< 1) % 256)

/-- Accesses of `_iic_send_byte`. -/
def sendEv (txd : Nat) : List Ev :=
  [Ev.sdaOut, Ev.scl false] ++ sendBits 8 txd

/-- Accesses of `_iic_wait_ack` before its first poll. -/
def waitPre : List Ev :=
  [Ev.sdaIn, Ev.sda true, Ev.delay 20, Ev.scl true, Ev.delay 20]

/-- Number of polls reading high before the first poll reading low, among the
`n` polls starting at poll `p`; `none` when all `n` read high. -/
def firstLow (peer : Nat → Bool) : Nat → Nat → Option Nat
  | _, 0 => none
  | p, n + 1 => if peer p then (firstLow peer (p + 1) n).map Nat.succ else some 0

/-- Accesses of `_iic_wait_ack` from its first poll on, when the first low
level comes after `j` high ones. -/
def ackedEv (j : Nat) : List Ev :=
  List.replicate j (Ev.readSda true) ++ [Ev.readSda false, Ev.scl false, Ev.delay 20]

/-- Accesses of `_iic_wait_ack` from its first poll on, when `n` polls in a
row read high and the function gives up. -/
def timeoutEv (n : Nat) : List Ev :=
  List.replicate n (Ev.readSda true) ++ stopEv

/-- Accesses of `n` rounds of the bit loop of `_iic_read_byte`, polls starting
at poll `p`. -/
def readBits (peer : Nat → Bool) : Nat → Nat → List Ev
  | _, 0 => []
  | p, n + 1 =>
    [Ev.scl false, Ev.delay 10, Ev.scl true, Ev.readSda (peer p), Ev.delay 10]
      ++ readBits peer (p + 1) n

/-- Value of `receive` after `n` more rounds of the bit loop of
`_iic_read_byte`. -/
def readVal (peer : Nat → Bool) : Nat → Nat → Nat → Nat
  | _, 0, receive => receive
  | p, n + 1, receive =>
    readVal peer (p + 1) n
      (if peer p then ((receive <<< 1) % 256 + 1) % 256 else (receive <<< 1) % 256)

/-- Accesses of `_iic_read_byte`. -/
def readEv (peer : Nat → Bool) (p : Nat) (ack : Nat) : List Ev :=
  [Ev.sdaIn] ++ readBits peer p 8 ++ (if ack = 0 then nackEv else ackEv)

/-! ### The register protocol layer in closed form -/

/-- The bytes `buf[i], ..., buf[i + n - 1]` the data loop of a write sends. -/
def dataBytes (buf : List Nat) (i n : Nat) : List Nat :=
  (List.range' i n).map (fun k => buf.getD k 0)

/-- Sending the bytes `bs` one after another, each followed by
`_iic_wait_ack`, up to and including the first byte that is not acknowledged:
whether all were acknowledged, the polls made, and the accesses. -/
def xmit (peer : Nat → Bool) : Nat → List Nat → Bool × Nat × List Ev
  | _, [] => (true, 0, [])
  | p, b :: bs =>
    match firstLow peer p 501 with
    | none => (false, 501, sendEv b ++ (waitPre ++ timeoutEv 501))
    | some j =>
      let r := xmit peer (p + (j + 1)) bs
      (r.1, (j + 1) + r.2.1, sendEv b ++ (waitPre ++ ackedEv j) ++ r.2.2)

/-- Accesses of the data loop of a read of `n` bytes, polls starting at `p`. -/
def recvEv (peer : Nat → Bool) : Nat → Nat → List Ev
  | _, 0 => []
  | p, n + 1 => readEv peer p (if n + 1 = 1 then 0 else 1) ++ recvEv peer (p + 8) n

/-- The caller's buffer after the data loop of a read of `n` bytes. -/
def recvMem (peer : Nat → Bool) : Nat → Nat → Nat → List Nat → List Nat
  | _, 0, _, mem => mem
  | p, n + 1, ptr, mem => recvMem peer (p + 8) n (ptr + 1) (mem.set ptr (readVal peer p 8 0))

/-- Status code of an operation whose acknowledge checks gave `ok`. -/
def status (ok : Bool) : Nat := if ok then 0 else 1

/-- What the read operations do once the bytes `pre` have been sent and
acknowledged up to poll `p`: the read address `rd`, the data loop, STOP.
Components: status, buffer afterwards, polls made, accesses. -/
def readTail (peer : Nat → Bool) (p : Nat) (rd : Nat) (buf : List Nat) (len : Nat) :
    Nat × List Nat × Nat × List Ev :=
  let r := xmit peer p [rd]
  if r.1 then
    (0, recvMem peer (p + r.2.1) len 0 buf, r.2.1 + 8 * len,
      startEv ++ r.2.2 ++ recvEv peer (p + r.2.1) len ++ stopEv)
  else
    (1, buf, r.2.1, startEv ++ r.2.2 ++ stopEv)

/-- Closed form of a read with register phase `pre`: components as in
`readTail`. -/
def readForm (peer : Nat → Bool) (p : Nat) (pre : List Nat) (rd : Nat) (buf : List Nat)
    (len : Nat) : Nat × List Nat × Nat × List Ev :=
  let r := xmit peer p pre
  if r.1 then
    let t := readTail peer (p + r.2.1) rd buf len
    (t.1, t.2.1, r.2.1 + t.2.2.1, startEv ++ r.2.2 ++ t.2.2.2)
  else
    (1, buf, r.2.1, startEv ++ r.2.2 ++ stopEv)

/-! ## Observing the lines -/

/-- Levels of the SCL and SDA output latches and the direction of the SDA
pin (`out` is output mode). -/
structure Line where
  scl : Bool
  sda : Bool
  out : Bool
  deriving DecidableEq, Repr

/-- The bus at rest: both latches high, SDA in output mode. -/
def Line.idle : Line := ⟨true, true, true⟩

/-- Effect of one access on the lines. -/
def Line.step (l : Line) : Ev → Line
  | Ev.sdaOut => { l with out := true }
  | Ev.sdaIn => { l with out := false }
  | Ev.scl v => { l with scl := v }
  | Ev.sda v => { l with sda := v }
  | Ev.delay _ => l
  | Ev.readSda _ => l

/-- The lines after a run of accesses. -/
def replay (l : Line) (es : List Ev) : Line := es.foldl Line.step l

/-- A STOP emission: the master drives SDA from low to high while SCL is
high. -/
def isStop (l : Line) : Ev → Bool
  | Ev.sda true => l.out && l.scl && !l.sda
  | _ => false

/-- A START emission: the master drives SDA from high to low while SCL is
high. -/
def isStart (l : Line) : Ev → Bool
  | Ev.sda false => l.out && l.scl && l.sda
  | _ => false

/-- Number of STOP emissions in a run of accesses that begins with the lines
at `l`. -/
def stopCount : Line → List Ev → Nat
  | _, [] => 0
  | l, e :: es => (if isStop l e then 1 else 0) + stopCount (l.step e) es

/-- The accesses made between two states of the same log. -/
def produced (s s2 : Bus) : List Ev := s2.trace.drop s.trace.length

/-! ## Sequences of operations -/

/-- One call of a register-protocol operation, with its arguments. -/
inductive Call where
  | write_cmd (addr : Nat) (buf : List Nat) (len : Nat) : Call
  | write (addr reg : Nat) (buf : List Nat) (len : Nat) : Call
  | write_address16 (addr reg : Nat) (buf : List Nat) (len : Nat) : Call
  | read (addr reg : Nat) (buf : List Nat) (len : Nat) : Call
  | read_address16 (addr reg : Nat) (buf : List Nat) (len : Nat) : Call
  | read_cmd (addr : Nat) (buf : List Nat) (len : Nat) : Call

/-- The bus after one call. -/
def Call.run : Call → Bus → Bus
  | Call.write_cmd addr buf len, s => (iic_write_cmd addr buf len s).2
  | Call.write addr reg buf len, s => (iic_write addr reg buf len s).2
  | Call.write_address16 addr reg buf len, s => (iic_write_address16 addr reg buf len s).2
  | Call.read addr reg buf len, s => (iic_read addr reg buf len s).2.2
  | Call.read_address16 addr reg buf len, s => (iic_read_address16 addr reg buf len s).2.2
  | Call.read_cmd addr buf len, s => (iic_read_cmd addr buf len s).2.2

/-- The bus after a sequence of calls, first call first. -/
def runCalls (cs : List Call) (s : Bus) : Bus := cs.foldl (fun s c => c.run s) s

/-- An access that raises SCL from low to high. -/
def isRise (l : Line) : Ev → Bool
  | Ev.scl true => !l.scl
  | _ => false

/-- What a peer sampling SDA at every SCL rising edge sees of the master, in
order: `some v` when the master drives SDA at level `v`, `none` when the
master has released SDA (input mode). -/
def risingSamples : Line → List Ev → List (Option Bool)
  | _, [] => []
  | l, e :: es =>
    if isRise l e then
      (if l.out then some l.sda else none) :: risingSamples (l.step e) es
    else
      risingSamples (l.step e) es

/-- The number a receiver assembles from bits that arrive most significant
bit first. -/
def assemble (bits : List Bool) : Nat :=
  bits.foldl (fun acc b => 2 * acc + b.toNat) 0

/-- The eight bits of a byte, most significant first. -/
def bitsMsbFirst (b : Nat) : List Bool :=
  [b.testBit 7, b.testBit 6, b.testBit 5, b.testBit 4, b.testBit 3, b.testBit 2, b.testBit 1,
   b.testBit 0]

/-! ## A bus analyser

The analyser watches the accesses the way an I2C receiver watches the wires:
a START or STOP emission resets its bit counter, every SCL rising edge clocks
one bit, and the ninth clock of a group closes a byte. -/

/-- What the analyser reports. -/
inductive Frame where
  /-- A START emission. -/
  | start : Frame
  /-- A STOP emission. -/
  | stop : Frame
  /-- A byte whose eight bits the master drove, closed by the acknowledge
  clock. -/
  | tx (byte : Nat) : Frame
  /-- A byte the master sampled with SDA released, closed by the ninth clock;
  `ack` tells whether the master drove SDA low at that clock. -/
  | rx (byte : Nat) (ack : Bool) : Frame
  deriving DecidableEq, Repr

/-- State of the analyser: the lines, the clocks seen in the current group of
nine, the bits assembled so far, whether the master drove all of them, and the
report so far. -/
structure Mon where
  line : Line
  nbits : Nat
  cur : Nat
  master : Bool
  frames : List Frame

/-- The analyser at the beginning of a run, lines at `l`. -/
def Mon.init (l : Line) : Mon := ⟨l, 0, 0, true, []⟩

/-- The analyser after one access. -/
def Mon.step (m : Mon) (e : Ev) : Mon :=
  if isStart m.line e then
    ⟨m.line.step e, 0, 0, true, m.frames ++ [Frame.start]⟩
  else if isStop m.line e then
    ⟨m.line.step e, 0, 0, true, m.frames ++ [Frame.stop]⟩
  else if isRise m.line e then
    if m.nbits < 8 then
      ⟨m.line.step e, m.nbits + 1,
        2 * m.cur + (if m.line.out then m.line.sda.toNat else 0),
        m.master && m.line.out, m.frames⟩
    else
      ⟨m.line.step e, 0, 0, true,
        m.frames ++ [if m.master then Frame.tx m.cur
                     else Frame.rx m.cur (m.line.out && !m.line.sda)]⟩
  else
    match e with
    | Ev.readSda v =>
      if !m.line.out && m.line.scl && decide (0 < m.nbits) then
        { m with cur := 2 * (m.cur / 2) + v.toNat }
      else m
    | _ => { m with line := m.line.step e }

/-- The analyser after a run of accesses. -/
def Mon.run (m : Mon) (es : List Ev) : Mon := es.foldl Mon.step m

/-- The report of the analyser on a run of accesses that begins with the
lines at `l`. -/
def decode (l : Line) (es : List Ev) : List Frame := ((Mon.init l).run es).frames

/-- The bytes the master sent, in order. -/
def sentBytes (fs : List Frame) : List Nat :=
  fs.filterMap (fun f => match f with | Frame.tx b => some b | _ => none)

/-- The bytes the master received, each with the acknowledge it answered, in
order. -/
def receivedBytes (fs : List Frame) : List (Nat × Bool) :=
  fs.filterMap (fun f => match f with | Frame.rx b a => some (b, a) | _ => none)

/-- Shift bits into an accumulator, most significant first. -/
def shiftIn (acc : Nat) (bits : List Bool) : Nat :=
  bits.foldl (fun acc b => 2 * acc + b.toNat) acc

/-- Among `n` bytes sent one after another, the polls of the first starting at
poll `p`, the number of bytes acknowledged before the first that is not.  A
byte is acknowledged when one of the 501 polls of its `_iic_wait_ack` reads
low; the polls of the next byte start right after that poll. -/
def ackedCount (peer : Nat → Bool) : Nat → Nat → Nat
  | _, 0 => 0
  | p, n + 1 =>
    match firstLow peer p 501 with
    | none => 0
    | some j => 1 + ackedCount peer (p + (j + 1)) n

/-- The poll reached once `n` bytes sent one after another have all been
acknowledged, the polls of the first starting at poll `p`. -/
def pollsAfter (peer : Nat → Bool) : Nat → Nat → Nat
  | p, 0 => p
  | p, n + 1 =>
    match firstLow peer p 501 with
    | none => p
    | some j => pollsAfter peer (p + (j + 1)) n

/-- The report on `xmit`. -/
def xmitFrames (peer : Nat → Bool) : Nat → List Nat → List Frame
  | _, [] => []
  | p, b :: bs =>
    match firstLow peer p 501 with
    | none => [Frame.tx (b % 256), Frame.start, Frame.stop]
    | some j => Frame.tx (b % 256) :: xmitFrames peer (p + (j + 1)) bs

/-- The report on the data loop of a read of `n` bytes. -/
def recvFrames (peer : Nat → Bool) : Nat → Nat → List Frame
  | _, 0 => []
  | p, n + 1 =>
    Frame.rx (readVal peer p 8 0) (decide (n + 1 ≠ 1)) :: recvFrames peer (p + 8) n

/-- The abort policy for an operation whose send sequence is `seq`, whose
status code is `st` and on whose accesses the analyser reports `frames`: the
status is 0 exactly when every byte of `seq` is acknowledged; and when the
first byte not acknowledged is the one after `ackedCount` acknowledged ones,
the status is 1, the bytes sent are `seq` up to and including that byte, and
no byte is received. -/
def AbortsAtFirstNack (peer : Nat → Bool) (p : Nat) (seq : List Nat) (st : Nat)
    (frames : List Frame) : Prop :=
  (st = 0 ∨ st = 1) ∧
  (st = 0 ↔ ackedCount peer p seq.length = seq.length) ∧
  (ackedCount peer p seq.length < seq.length →
    st = 1 ∧ sentBytes frames = seq.take (ackedCount peer p seq.length + 1) ∧
      receivedBytes frames = [])

/-! ## Example peers -/

/-- A bus with nothing logged yet, facing `peer`. -/
def Bus.fresh (peer : Nat → Bool) : Bus := ⟨peer, 0, []⟩

/-- A peer that pulls SDA low at the first poll only. -/
def peerAckFirstOnly : Nat → Bool := fun n => decide (0 < n)

/-- A peer that pulls SDA low at every poll. -/
def peerAckAlways : Nat → Bool := fun _ => false

/-- A peer that never pulls SDA low. -/
def peerNever : Nat → Bool := fun _ => true

/-- A peer that pulls SDA low at the first three polls, as an acknowledge to
each of three bytes, and then presents the bytes of `d` bit by bit, most
significant bit first, one bit a poll. -/
def peerServing (d : List Nat) : Nat → Bool :=
  fun n => if n < 3 then false else (d.getD ((n - 3) / 8) 0).testBit (7 - (n - 3) % 8)

/-! ## Debug print (`project/raspberrypi4b/driver/src/raspberrypi4b_driver_max30102_interface.c`) -/

/-- The C library's `strlen` on a buffer that ends in a terminating zero:
the number of characters before the first zero. -/
def strlen (str : List Nat) : Nat := (str.takeWhile (fun c => c != 0)).length

/-- The function `max30102_interface_debug_print`.  `msg` is the text
`vsnprintf` produces from `fmt` and the arguments, of which at most 255
characters fit in `str` before the terminating zero; `printf` is the C
library's `printf`, taken as given, called with `str` as its format and `len`
as its argument and returning the number of characters it wrote or a negative
value; `len` is a `uint8_t`. -/
def max30102_interface_debug_print (printf : List Nat → Nat → Int) (msg : List Nat) : Nat :=
  let str := msg.take 255
  let len := strlen str % 256
  if printf str len ≠ 0 then
    0
  else
    len

/-- A `printf` that writes its whole format and reports the number of
characters written. -/
def printfWritesAll : List Nat → Nat → Int := fun str _ => (str.length : Int)

/-! ## Timing and write order -/

/-- Sum of the durations, in microseconds, of the `delay_us` calls in a run
of accesses. -/
def delaySum : List Ev → Nat
  | [] => 0
  | Ev.delay n :: es => n + delaySum es
  | _ :: es => delaySum es

/-- The levels written to the SDA latch in a run of accesses, in order. -/
def sdaWrites : List Ev → List Bool
  | [] => []
  | Ev.sda v :: es => v :: sdaWrites es
  | _ :: es => sdaWrites es

/-- Number of START emissions in a run of accesses that begins with the lines
at `l`. -/
def startCount : Line → List Ev → Nat
  | _, [] => 0
  | l, e :: es => (if isStart l e then 1 else 0) + startCount (l.step e) es

/-- Number of polls of SDA that read high in a run of accesses. -/
def highPolls : List Ev → Nat
  | [] => 0
  | Ev.readSda true :: es => 1 + highPolls es
  | _ :: es => highPolls es

/-! ## Changes of SDA while SCL is high -/

/-- Whether a write of SDA low is a transition or is made while SCL is low
or SDA is released: a write of low to a latch that is already low, made in
output mode with SCL high, is the one thing excluded. -/
def dropAllowed (l : Line) : Ev → Bool
  | Ev.sda false => !(l.out && l.scl) || l.sda
  | _ => true

/-- Whether every write of SDA low in a run of accesses is allowed. -/
def dropsGenuine : Line → List Ev → Bool
  | _, [] => true
  | l, e :: es => dropAllowed l e && dropsGenuine (l.step e) es

/-- A change of what the master drives on SDA, made while SCL is high. -/
inductive HighChange where
  /-- The driven level goes from high to low: a START condition. -/
  | fall : HighChange
  /-- The driven level goes from low to high: a STOP condition. -/
  | rise : HighChange
  /-- The master stops driving SDA (switch to input mode). -/
  | release : HighChange
  /-- The master starts driving SDA (switch to output mode). -/
  | engage : HighChange
  deriving DecidableEq, Repr

/-- The change an access makes to what the master drives on SDA while SCL is
high, if any. -/
def highChange (l : Line) : Ev → Option HighChange
  | Ev.sda v =>
    if l.scl && l.out && (v != l.sda) then
      some (if v then HighChange.rise else HighChange.fall)
    else none
  | Ev.sdaIn => if l.scl && l.out then some HighChange.release else none
  | Ev.sdaOut => if l.scl && !l.out then some HighChange.engage else none
  | _ => none

/-- The changes of what the master drives on SDA made while SCL is high, in
a run of accesses that begins with the lines at `l`, in order. -/
def highChanges : Line → List Ev → List HighChange
  | _, [] => []
  | l, e :: es =>
    match highChange l e with
    | some c => c :: highChanges (l.step e) es
    | none => highChanges (l.step e) es

/-! ## Direction discipline -/

/-- Direction of the SDA pin. -/
inductive Dir where
  /-- Input mode: the master has released SDA and can sample it. -/
  | input : Dir
  /-- Output mode: the master drives SDA with the level of its latch. -/
  | output : Dir
  deriving DecidableEq, Repr

/-- Effect of one access on the direction of SDA: only `SDA_IN()` and
`SDA_OUT()` change it. -/
def Dir.step (d : Dir) : Ev → Dir
  | Ev.sdaIn => Dir.input
  | Ev.sdaOut => Dir.output
  | _ => d

/-- The direction of SDA after a run of accesses. -/
def Dir.run (d : Dir) (es : List Ev) : Dir := es.foldl Dir.step d

/-- Whether an access respects the strict discipline when SDA has direction
`d`: `READ_SDA` in input mode only, `IIC_SDA = v` in output mode only. -/
def strictAllowed (d : Dir) : Ev → Bool
  | Ev.readSda _ => decide (d = Dir.input)
  | Ev.sda _ => decide (d = Dir.output)
  | _ => true

/-- Whether every access of a run respects the strict discipline, SDA having
direction `d` when the run begins. -/
def dirStrict : Dir → List Ev → Bool
  | _, [] => true
  | d, e :: es => strictAllowed d e && dirStrict (d.step e) es

/-- Whether the master samples SDA next: the accesses that follow reach a
`READ_SDA` through nothing but delays and raising SCL, that is before the
master lowers SCL, writes SDA again or switches its direction. -/
def sampledNext : List Ev → Bool
  | Ev.readSda _ :: _ => true
  | Ev.delay _ :: es => sampledNext es
  | Ev.scl true :: es => sampledNext es
  | _ => false

/-- Whether an access respects the discipline when SDA has direction `d` and
the accesses `rest` follow.  `READ_SDA` needs input mode.  `IIC_SDA = v` needs
output mode whenever the master drives the level it writes: the only write
let through in input mode is a 1, the level of a released line, in a clock
period in which the master goes on to sample SDA, so that the bit of that
period is the peer's and not the master's. -/
def accessAllowed (d : Dir) (rest : List Ev) : Ev → Bool
  | Ev.readSda _ => decide (d = Dir.input)
  | Ev.sda v => decide (d = Dir.output) || (v && sampledNext rest)
  | _ => true

/-- Whether every access of a run respects the discipline, SDA having
direction `d` when the run begins. -/
def dirOk : Dir → List Ev → Bool
  | _, [] => true
  | d, e :: es => accessAllowed d es e && dirOk (d.step e) es

/-! # Theorems -/

/-! ### Basic facts -/

@[simp] theorem adv_peer (s : Bus) (k : Nat) (es : List Ev) : (s.adv k es).peer = s.peer := rfl

@[simp] theorem adv_polls (s : Bus) (k : Nat) (es : List Ev) :
    (s.adv k es).polls = s.polls + k := rfl

@[simp] theorem adv_trace (s : Bus) (k : Nat) (es : List Ev) :
    (s.adv k es).trace = s.trace ++ es := rfl

@[simp] theorem adv_adv (s : Bus) (k k2 : Nat) (es es2 : List Ev) :
    (s.adv k es).adv k2 es2 = s.adv (k + k2) (es ++ es2) := by
  simp [Bus.adv, Nat.add_assoc]

theorem adv_zero_nil (s : Bus) : s.adv 0 [] = s := by
  simp [Bus.adv]

theorem emit_eq (e : Ev) (s : Bus) : emit e s = s.adv 0 [e] := rfl

theorem READ_SDA_eq (s : Bus) :
    READ_SDA s = (s.peer s.polls, s.adv 1 [Ev.readSda (s.peer s.polls)]) := rfl

theorem iic_start_eq (s : Bus) : _iic_start s = s.adv 0 startEv := by
  simp [_iic_start, SDA_OUT, IIC_SCL, IIC_SDA, delay_us, emit_eq, startEv]

theorem iic_stop_eq (s : Bus) : _iic_stop s = s.adv 0 stopEv := by
  simp [_iic_stop, SDA_OUT, IIC_SCL, IIC_SDA, delay_us, emit_eq, stopEv]

theorem iic_ack_eq (s : Bus) : _iic_ack s = s.adv 0 ackEv := by
  simp [_iic_ack, SDA_OUT, IIC_SCL, IIC_SDA, delay_us, emit_eq, ackEv]

theorem iic_nack_eq (s : Bus) : _iic_nack s = s.adv 0 nackEv := by
  simp [_iic_nack, SDA_OUT, IIC_SCL, IIC_SDA, delay_us, emit_eq, nackEv]

theorem iic_init_eq (s : Bus) :
    iic_init s = (0, s.adv 0 [Ev.sdaOut, Ev.sda true, Ev.scl true]) := by
  simp [iic_init, SDA_OUT, IIC_SCL, IIC_SDA, emit_eq]

theorem send_byte_loop_eq (n : Nat) : ∀ (t txd : Nat) (s : Bus), t + n = 8 →
    send_byte_loop t txd s = s.adv 0 (sendBits n txd) := by
  induction n with
  | zero =>
    intro t txd s h
    rw [send_byte_loop]
    simp [show ¬ t < 8 by omega, sendBits, adv_zero_nil]
  | succ n ih =>
    intro t txd s h
    rw [send_byte_loop]
    simp only [show t < 8 by omega, if_true]
    rw [ih (t + 1) _ _ (by omega)]
    simp [IIC_SCL, IIC_SDA, delay_us, emit_eq, sendBits, msb]

theorem iic_send_byte_eq (txd : Nat) (s : Bus) : _iic_send_byte txd s = s.adv 0 (sendEv txd) := by
  simp [_iic_send_byte, send_byte_loop_eq 8 0 _ _ rfl, SDA_OUT, IIC_SCL, emit_eq, sendEv]

theorem wait_ack_loop_eq (n : Nat) : ∀ (u : Nat) (s : Bus), u + n = 500 →
    wait_ack_loop u s =
      match firstLow s.peer s.polls (n + 1) with
      | some j => (0, s.adv (j + 1) (ackedEv j))
      | none => (1, s.adv (n + 1) (timeoutEv (n + 1))) := by
  induction n with
  | zero =>
    intro u s h
    rw [wait_ack_loop]
    cases hp : s.peer s.polls <;>
      simp [READ_SDA_eq, hp, firstLow, show u = 500 by omega, iic_stop_eq, IIC_SCL, delay_us,
        emit_eq, ackedEv, timeoutEv]
  | succ n ih =>
    intro u s h
    rw [wait_ack_loop]
    cases hp : s.peer s.polls
    · simp [READ_SDA_eq, hp, firstLow, IIC_SCL, delay_us, emit_eq, ackedEv]
    · have h1 : (u + 1) % 65536 = u + 1 := by omega
      have h2 : ¬ 500 < u + 1 := by omega
      simp only [READ_SDA_eq, hp, if_true, h1, h2, if_false]
      rw [ih (u + 1) _ (by omega)]
      rw [firstLow.eq_2 s.peer s.polls (n + 1)]
      simp only [hp, if_true, adv_peer, adv_polls]
      cases firstLow s.peer (s.polls + 1) (n + 1) with
      | none =>
        simp only [Option.map_none', adv_adv]
        rw [Nat.add_comm 1 (n + 1)]
        simp [timeoutEv, List.replicate_succ]
      | some j =>
        simp only [Option.map_some', adv_adv]
        rw [Nat.add_comm 1 (j + 1)]
        simp [ackedEv, List.replicate_succ]

/-- Closed form of `_iic_wait_ack`. -/
theorem iic_wait_ack_eq (s : Bus) :
    _iic_wait_ack s =
      match firstLow s.peer s.polls 501 with
      | some j => (0, s.adv (j + 1) (waitPre ++ ackedEv j))
      | none => (1, s.adv 501 (waitPre ++ timeoutEv 501)) := by
  simp only [_iic_wait_ack, SDA_IN, IIC_SCL, IIC_SDA, delay_us, emit_eq, adv_adv]
  rw [wait_ack_loop_eq 500 0 _ rfl]
  simp only [adv_peer, adv_polls, Nat.add_zero]
  cases firstLow s.peer s.polls 501 <;> simp [waitPre]

theorem read_byte_loop_eq (n : Nat) : ∀ (i receive : Nat) (s : Bus), i + n = 8 →
    read_byte_loop i receive s =
      (readVal s.peer s.polls n receive, s.adv n (readBits s.peer s.polls n)) := by
  induction n with
  | zero =>
    intro i receive s h
    rw [read_byte_loop]
    simp [show ¬ i < 8 by omega, readBits, readVal, adv_zero_nil]
  | succ n ih =>
    intro i receive s h
    rw [read_byte_loop]
    simp only [show i < 8 by omega, if_true]
    rw [ih (i + 1) _ _ (by omega)]
    cases hp : s.peer s.polls <;>
      simp [READ_SDA_eq, hp, IIC_SCL, delay_us, emit_eq, readBits, readVal, Nat.add_comm]

/-- Closed form of `_iic_read_byte`. -/
theorem iic_read_byte_eq (ack : Nat) (s : Bus) :
    _iic_read_byte ack s =
      (readVal s.peer s.polls 8 0, s.adv 8 (readEv s.peer s.polls ack)) := by
  simp only [_iic_read_byte, SDA_IN, emit_eq]
  rw [read_byte_loop_eq 8 0 0 _ rfl]
  by_cases h : ack = 0 <;> simp [h, iic_nack_eq, iic_ack_eq, readEv]

theorem write_loop_eq (buf : List Nat) (len : Nat) (n : Nat) : ∀ (i : Nat) (s : Bus),
    i + n = len →
    write_loop buf len i s =
      (if (xmit s.peer s.polls (dataBytes buf i n)).1 then
        (0, s.adv (xmit s.peer s.polls (dataBytes buf i n)).2.1
          (xmit s.peer s.polls (dataBytes buf i n)).2.2)
      else
        (1, s.adv (xmit s.peer s.polls (dataBytes buf i n)).2.1
          ((xmit s.peer s.polls (dataBytes buf i n)).2.2 ++ stopEv))) := by
  induction n with
  | zero =>
    intro i s h
    rw [write_loop]
    simp [show ¬ i < len by omega, dataBytes, xmit, adv_zero_nil]
  | succ n ih =>
    intro i s h
    rw [write_loop]
    simp only [show i < len by omega, if_true, iic_send_byte_eq, iic_wait_ack_eq, adv_peer,
      adv_polls, Nat.add_zero, dataBytes, List.range'_succ, List.map_cons, xmit]
    cases hf : firstLow s.peer s.polls 501 with
    | none => simp [iic_stop_eq]
    | some j =>
      simp only [ne_eq, not_true_eq_false, if_false]
      rw [ih (i + 1) _ (by omega)]
      simp only [adv_peer, adv_polls, Nat.add_zero, dataBytes, adv_adv, Nat.zero_add]
      split <;> simp [List.append_assoc]

theorem read_loop_eq (n : Nat) : ∀ (ptr : Nat) (mem : List Nat) (s : Bus),
    read_loop n ptr mem s =
      (recvMem s.peer s.polls n ptr mem, s.adv (8 * n) (recvEv s.peer s.polls n)) := by
  induction n with
  | zero =>
    intro ptr mem s
    simp [read_loop, recvMem, recvEv, adv_zero_nil]
  | succ n ih =>
    intro ptr mem s
    rw [read_loop]
    by_cases h : n + 1 = 1
    · have h0 : n = 0 := by omega
      subst h0
      simp [iic_read_byte_eq, read_loop, recvMem, recvEv]
    · simp only [h, if_false, iic_read_byte_eq]
      rw [ih]
      simp [recvMem, recvEv, h, Nat.mul_add, Nat.add_comm]

/-- Closed form of `iic_write_cmd`. -/
theorem iic_write_cmd_eq (addr : Nat) (buf : List Nat) (len : Nat) (s : Bus) :
    iic_write_cmd addr buf len s =
      (status (xmit s.peer s.polls (addr :: dataBytes buf 0 len)).1,
       s.adv (xmit s.peer s.polls (addr :: dataBytes buf 0 len)).2.1
         (startEv ++ (xmit s.peer s.polls (addr :: dataBytes buf 0 len)).2.2 ++ stopEv)) := by
  simp only [iic_write_cmd, iic_start_eq, iic_send_byte_eq, iic_wait_ack_eq, adv_peer,
    adv_polls, Nat.add_zero, xmit, adv_adv, Nat.zero_add]
  cases hf : firstLow s.peer s.polls 501 with
  | none => simp [iic_stop_eq, status]
  | some j =>
    simp only [ne_eq, not_true_eq_false, if_false, adv_adv]
    rw [write_loop_eq buf len len 0 _ (by omega)]
    simp only [adv_peer, adv_polls, adv_adv, Nat.zero_add]
    split <;> simp_all [iic_stop_eq, status, List.append_assoc]

/-- Closed form of `iic_write`. -/
theorem iic_write_eq (addr reg : Nat) (buf : List Nat) (len : Nat) (s : Bus) :
    iic_write addr reg buf len s =
      (status (xmit s.peer s.polls (addr :: reg :: dataBytes buf 0 len)).1,
       s.adv (xmit s.peer s.polls (addr :: reg :: dataBytes buf 0 len)).2.1
         (startEv ++ (xmit s.peer s.polls (addr :: reg :: dataBytes buf 0 len)).2.2
           ++ stopEv)) := by
  simp only [iic_write, iic_start_eq, iic_send_byte_eq, iic_wait_ack_eq, adv_peer,
    adv_polls, Nat.add_zero, xmit, adv_adv, Nat.zero_add]
  cases hf : firstLow s.peer s.polls 501 with
  | none => simp [iic_stop_eq, status]
  | some j =>
    simp only [ne_eq, not_true_eq_false, if_false, adv_adv, adv_peer, adv_polls,
      iic_send_byte_eq, iic_wait_ack_eq, Nat.add_zero]
    cases hg : firstLow s.peer (s.polls + (j + 1)) 501 with
    | none => simp [iic_stop_eq, status, Nat.add_assoc]
    | some k =>
      simp only [ne_eq, not_true_eq_false, if_false, adv_adv]
      rw [write_loop_eq buf len len 0 _ (by omega)]
      simp only [adv_peer, adv_polls, adv_adv, Nat.zero_add]
      split <;> simp_all [iic_stop_eq, status, List.append_assoc, Nat.add_assoc]

/-- Closed form of `iic_write_address16`. -/
theorem iic_write_address16_eq (addr reg : Nat) (buf : List Nat) (len : Nat) (s : Bus) :
    iic_write_address16 addr reg buf len s =
      (status (xmit s.peer s.polls
          (addr :: ((reg >>> 8) &&& 0xFF) :: (reg &&& 0xFF) :: dataBytes buf 0 len)).1,
       s.adv (xmit s.peer s.polls
          (addr :: ((reg >>> 8) &&& 0xFF) :: (reg &&& 0xFF) :: dataBytes buf 0 len)).2.1
         (startEv ++ (xmit s.peer s.polls
          (addr :: ((reg >>> 8) &&& 0xFF) :: (reg &&& 0xFF) :: dataBytes buf 0 len)).2.2
           ++ stopEv)) := by
  simp only [iic_write_address16, iic_start_eq, iic_send_byte_eq, iic_wait_ack_eq, adv_peer,
    adv_polls, Nat.add_zero, xmit, adv_adv, Nat.zero_add]
  cases hf : firstLow s.peer s.polls 501 with
  | none => simp [iic_stop_eq, status]
  | some j =>
    simp only [ne_eq, not_true_eq_false, if_false, adv_adv, adv_peer, adv_polls,
      iic_send_byte_eq, iic_wait_ack_eq, Nat.add_zero]
    cases hg : firstLow s.peer (s.polls + (j + 1)) 501 with
    | none => simp [iic_stop_eq, status, Nat.add_assoc]
    | some k =>
      simp only [ne_eq, not_true_eq_false, if_false, adv_adv, adv_peer, adv_polls,
        iic_send_byte_eq, iic_wait_ack_eq, Nat.add_zero, Nat.add_assoc]
      cases hh : firstLow s.peer (s.polls + (j + (1 + (k + 1)))) 501 with
      | none => simp [iic_stop_eq, status, Nat.add_assoc]
      | some m =>
        simp only [ne_eq, not_true_eq_false, if_false, adv_adv]
        rw [write_loop_eq buf len len 0 _ (by omega)]
        simp only [adv_peer, adv_polls, adv_adv, Nat.zero_add]
        split <;> simp_all [iic_stop_eq, status, List.append_assoc, Nat.add_assoc]

/-- Closed form of `iic_read_cmd`. -/
theorem iic_read_cmd_eq (addr : Nat) (buf : List Nat) (len : Nat) (s : Bus) :
    iic_read_cmd addr buf len s =
      ((readTail s.peer s.polls ((addr + 1) % 256) buf len).1,
       (readTail s.peer s.polls ((addr + 1) % 256) buf len).2.1,
       s.adv (readTail s.peer s.polls ((addr + 1) % 256) buf len).2.2.1
         (readTail s.peer s.polls ((addr + 1) % 256) buf len).2.2.2) := by
  simp only [iic_read_cmd, readTail, iic_start_eq, iic_send_byte_eq, iic_wait_ack_eq, adv_peer,
    adv_polls, Nat.add_zero, xmit, adv_adv, Nat.zero_add]
  cases hf : firstLow s.peer s.polls 501 with
  | none => simp [iic_stop_eq]
  | some j =>
    simp [iic_stop_eq, read_loop_eq, List.append_assoc]

/-- Closed form of `iic_read`. -/
theorem iic_read_eq (addr reg : Nat) (buf : List Nat) (len : Nat) (s : Bus) :
    iic_read addr reg buf len s =
      ((readForm s.peer s.polls [addr, reg] ((addr + 1) % 256) buf len).1,
       (readForm s.peer s.polls [addr, reg] ((addr + 1) % 256) buf len).2.1,
       s.adv (readForm s.peer s.polls [addr, reg] ((addr + 1) % 256) buf len).2.2.1
         (readForm s.peer s.polls [addr, reg] ((addr + 1) % 256) buf len).2.2.2) := by
  simp only [iic_read, readForm, readTail, iic_start_eq, iic_send_byte_eq, iic_wait_ack_eq,
    adv_peer, adv_polls, Nat.add_zero, xmit, adv_adv, Nat.zero_add]
  cases hf : firstLow s.peer s.polls 501 with
  | none => simp [iic_stop_eq]
  | some j =>
    simp only [ne_eq, not_true_eq_false, if_false, adv_adv, adv_peer, adv_polls,
      iic_send_byte_eq, iic_wait_ack_eq, Nat.add_zero]
    cases hg : firstLow s.peer (s.polls + (j + 1)) 501 with
    | none => simp [iic_stop_eq, Nat.add_assoc]
    | some k =>
      simp only [ne_eq, not_true_eq_false, if_false, adv_adv, adv_peer, adv_polls,
        iic_start_eq, iic_send_byte_eq, iic_wait_ack_eq, Nat.add_zero, if_true, Nat.add_assoc]
      cases hh : firstLow s.peer (s.polls + (j + (1 + (k + 1)))) 501 with
      | none => simp [iic_stop_eq, Nat.add_assoc]
      | some m =>
        simp [iic_stop_eq, read_loop_eq, List.append_assoc, Nat.add_assoc]

/-- Closed form of `iic_read_address16`. -/
theorem iic_read_address16_eq (addr reg : Nat) (buf : List Nat) (len : Nat) (s : Bus) :
    iic_read_address16 addr reg buf len s =
      ((readForm s.peer s.polls [addr, (reg >>> 8) &&& 0xFF, reg &&& 0xFF]
          ((addr + 1) % 256) buf len).1,
       (readForm s.peer s.polls [addr, (reg >>> 8) &&& 0xFF, reg &&& 0xFF]
          ((addr + 1) % 256) buf len).2.1,
       s.adv (readForm s.peer s.polls [addr, (reg >>> 8) &&& 0xFF, reg &&& 0xFF]
          ((addr + 1) % 256) buf len).2.2.1
         (readForm s.peer s.polls [addr, (reg >>> 8) &&& 0xFF, reg &&& 0xFF]
          ((addr + 1) % 256) buf len).2.2.2) := by
  simp only [iic_read_address16, readForm, readTail, iic_start_eq, iic_send_byte_eq,
    iic_wait_ack_eq, adv_peer, adv_polls, Nat.add_zero, xmit, adv_adv, Nat.zero_add]
  cases hf : firstLow s.peer s.polls 501 with
  | none => simp [iic_stop_eq]
  | some j =>
    simp only [ne_eq, not_true_eq_false, if_false, adv_adv, adv_peer, adv_polls,
      iic_send_byte_eq, iic_wait_ack_eq, Nat.add_zero]
    cases hg : firstLow s.peer (s.polls + (j + 1)) 501 with
    | none => simp [iic_stop_eq, Nat.add_assoc]
    | some k =>
      simp only [ne_eq, not_true_eq_false, if_false, adv_adv, adv_peer, adv_polls,
        iic_start_eq, iic_send_byte_eq, iic_wait_ack_eq, Nat.add_zero, if_true, Nat.add_assoc]
      cases hh : firstLow s.peer (s.polls + (j + (1 + (k + 1)))) 501 with
      | none => simp [iic_stop_eq, Nat.add_assoc]
      | some m =>
        simp only [ne_eq, not_true_eq_false, if_false, adv_adv, adv_peer, adv_polls,
          iic_start_eq, iic_send_byte_eq, iic_wait_ack_eq, Nat.add_zero, if_true, Nat.add_assoc]
        cases hi : firstLow s.peer (s.polls + (j + (1 + (k + (1 + (m + 1)))))) 501 with
        | none => simp [iic_stop_eq, Nat.add_assoc]
        | some n =>
          simp [iic_stop_eq, read_loop_eq, List.append_assoc, Nat.add_assoc]

@[simp] theorem produced_adv (s : Bus) (k : Nat) (es : List Ev) : produced s (s.adv k es) = es := by
  simp [produced]

theorem replay_append (l : Line) (a b : List Ev) :
    replay l (a ++ b) = replay (replay l a) b := by
  simp [replay, List.foldl_append]

theorem stopCount_append (a b : List Ev) : ∀ l : Line,
    stopCount l (a ++ b) = stopCount l a + stopCount (replay l a) b := by
  induction a with
  | nil => intro l; simp [stopCount, replay]
  | cons e es ih =>
    intro l
    simp [stopCount, replay, ih, Nat.add_assoc]

theorem replay_replicate_read (l : Line) (n : Nat) (v : Bool) :
    replay l (List.replicate n (Ev.readSda v)) = l := by
  induction n with
  | zero => rfl
  | succ n ih => simpa [List.replicate_succ, replay, Line.step] using ih

theorem stopCount_replicate_read (l : Line) (n : Nat) (v : Bool) :
    stopCount l (List.replicate n (Ev.readSda v)) = 0 := by
  induction n with
  | zero => rfl
  | succ n ih => simpa [List.replicate_succ, stopCount, isStop, Line.step] using ih

theorem replay_startEv (l : Line) : replay l startEv = ⟨false, true, true⟩ := by
  rcases l with ⟨a, b, c⟩
  cases a <;> cases b <;> cases c <;> rfl

theorem stopCount_startEv (l : Line) : stopCount l startEv = 0 := by
  rcases l with ⟨a, b, c⟩
  cases a <;> cases b <;> cases c <;> rfl

theorem replay_stopEv (l : Line) : replay l stopEv = Line.idle := by
  rcases l with ⟨a, b, c⟩
  cases a <;> cases b <;> cases c <;> rfl

theorem stopCount_stopEv (l : Line) : stopCount l stopEv = 1 := by
  rcases l with ⟨a, b, c⟩
  cases a <;> cases b <;> cases c <;> rfl

theorem replay_sendBits (n : Nat) : ∀ (txd : Nat) (l : Line), l.scl = false →
    (replay l (sendBits n txd)).scl = false ∧ (replay l (sendBits n txd)).out = l.out := by
  induction n with
  | zero => intro txd l h; simp [sendBits, replay, h]
  | succ n ih =>
    intro txd l h
    rw [sendBits, replay_append]
    have := ih ((txd <<< 1) % 256)
      (replay l [Ev.sda (msb txd), Ev.delay 10, Ev.scl true, Ev.delay 10, Ev.scl false,
        Ev.delay 10]) (by simp [replay, Line.step])
    simpa [replay, Line.step] using this

theorem stopCount_sendBits (n : Nat) : ∀ (txd : Nat) (l : Line), l.scl = false →
    stopCount l (sendBits n txd) = 0 := by
  induction n with
  | zero => intro txd l _; rfl
  | succ n ih =>
    intro txd l h
    rw [sendBits, stopCount_append]
    rw [ih _ _ (by simp [replay, Line.step])]
    cases hm : msb txd <;> simp [stopCount, isStop, Line.step, h]

theorem replay_sendEv_scl (txd : Nat) (l : Line) : (replay l (sendEv txd)).scl = false := by
  rw [sendEv, replay_append]
  exact (replay_sendBits 8 txd _ (by simp [replay, Line.step])).1

theorem stopCount_sendEv (txd : Nat) (l : Line) : stopCount l (sendEv txd) = 0 := by
  rw [sendEv, stopCount_append, stopCount_sendBits 8 txd _ (by simp [replay, Line.step])]
  simp [stopCount, isStop]

theorem stopCount_waitPre (l : Line) : stopCount l waitPre = 0 := by
  rcases l with ⟨a, b, c⟩
  cases a <;> cases b <;> cases c <;> rfl

theorem stopCount_ackedEv (j : Nat) (l : Line) : stopCount l (ackedEv j) = 0 := by
  rw [ackedEv, stopCount_append, stopCount_replicate_read]
  simp [stopCount, isStop]

theorem stopCount_timeoutEv (n : Nat) (l : Line) : stopCount l (timeoutEv n) = 1 := by
  rw [timeoutEv, stopCount_append, stopCount_replicate_read, stopCount_stopEv]

theorem stopCount_readBits (peer : Nat → Bool) (n : Nat) : ∀ (p : Nat) (l : Line),
    stopCount l (readBits peer p n) = 0 := by
  induction n with
  | zero => intro p l; rfl
  | succ n ih =>
    intro p l
    rw [readBits, stopCount_append, ih]
    simp [stopCount, isStop]

theorem stopCount_ackEv (l : Line) : stopCount l ackEv = 0 := by
  rcases l with ⟨a, b, c⟩
  cases a <;> cases b <;> cases c <;> rfl

theorem stopCount_nackEv (l : Line) : stopCount l nackEv = 0 := by
  rcases l with ⟨a, b, c⟩
  cases a <;> cases b <;> cases c <;> rfl

theorem stopCount_readEv (peer : Nat → Bool) (p ack : Nat) (l : Line) :
    stopCount l (readEv peer p ack) = 0 := by
  rw [readEv, stopCount_append, stopCount_append, stopCount_readBits]
  by_cases h : ack = 0 <;> simp [h, stopCount, isStop, stopCount_ackEv, stopCount_nackEv]

theorem stopCount_recvEv (peer : Nat → Bool) (n : Nat) : ∀ (p : Nat) (l : Line),
    stopCount l (recvEv peer p n) = 0 := by
  induction n with
  | zero => intro p l; rfl
  | succ n ih =>
    intro p l
    rw [recvEv, stopCount_append, ih, stopCount_readEv]

theorem stopCount_xmit (peer : Nat → Bool) (bs : List Nat) : ∀ (p : Nat) (l : Line),
    stopCount l (xmit peer p bs).2.2 = status (xmit peer p bs).1 := by
  induction bs with
  | nil => intro p l; rfl
  | cons b bs ih =>
    intro p l
    rw [xmit]
    cases hf : firstLow peer p 501 with
    | none =>
      simp [stopCount_append, stopCount_sendEv, stopCount_waitPre, stopCount_timeoutEv, status]
    | some j =>
      simp [stopCount_append, stopCount_sendEv, stopCount_waitPre, stopCount_ackedEv, ih]

theorem status_le (ok : Bool) : status ok = 0 ∨ status ok = 1 := by
  cases ok <;> simp [status]

/-- STOP emissions of a write in closed form. -/
theorem stopCount_write_form (peer : Nat → Bool) (p : Nat) (bs : List Nat) (l : Line) :
    stopCount l (startEv ++ (xmit peer p bs).2.2 ++ stopEv)
      = if status (xmit peer p bs).1 = 0 then 1 else 2 := by
  rw [stopCount_append, stopCount_append, stopCount_startEv, stopCount_xmit, stopCount_stopEv]
  cases (xmit peer p bs).1 <;> simp [status]

/-- STOP emissions of a read in closed form, from the read address on. -/
theorem stopCount_readTail (peer : Nat → Bool) (p rd : Nat) (buf : List Nat) (len : Nat)
    (l : Line) :
    stopCount l (readTail peer p rd buf len).2.2.2
      = if (readTail peer p rd buf len).1 = 0 then 1 else 2 := by
  unfold readTail
  have hx := stopCount_xmit peer [rd] p
  cases h : (xmit peer p [rd]).1 <;>
    simp [h, stopCount_append, stopCount_startEv, stopCount_stopEv, stopCount_recvEv, hx, status]

/-- STOP emissions of a read in closed form. -/
theorem stopCount_readForm (peer : Nat → Bool) (p : Nat) (pre : List Nat) (rd : Nat)
    (buf : List Nat) (len : Nat) (l : Line) :
    stopCount l (readForm peer p pre rd buf len).2.2.2
      = if (readForm peer p pre rd buf len).1 = 0 then 1 else 2 := by
  unfold readForm
  have hx := stopCount_xmit peer pre p
  cases h : (xmit peer p pre).1
  · simp [h, stopCount_append, stopCount_startEv, stopCount_stopEv, hx, status]
  · simp only [h, if_true, stopCount_append, stopCount_startEv, hx, status, Nat.zero_add]
    exact stopCount_readTail _ _ _ _ _ _

/-! ### The acknowledge poll -/

theorem firstLow_eq_none_iff (peer : Nat → Bool) (n : Nat) : ∀ p : Nat,
    firstLow peer p n = none ↔ ∀ j, j < n → peer (p + j) = true := by
  induction n with
  | zero => intro p; simp [firstLow]
  | succ n ih =>
    intro p
    rw [firstLow]
    cases hp : peer p
    · simp only [Bool.false_eq_true, if_false, reduceCtorEq, false_iff, not_forall]
      exact ⟨0, by omega, by simp [hp]⟩
    · simp only [if_true, Option.map_eq_none', ih]
      constructor
      · intro h j hj
        cases j with
        | zero => simpa using hp
        | succ j =>
          have := h j (by omega)
          rwa [Nat.add_assoc, Nat.add_comm 1 j] at this
      · intro h j hj
        have := h (j + 1) (by omega)
        rwa [Nat.add_assoc, Nat.add_comm 1 j]

theorem firstLow_eq_some_iff (peer : Nat → Bool) (n : Nat) : ∀ p j : Nat,
    firstLow peer p n = some j ↔
      j < n ∧ peer (p + j) = false ∧ ∀ i, i < j → peer (p + i) = true := by
  induction n with
  | zero => intro p j; simp [firstLow]
  | succ n ih =>
    intro p j
    rw [firstLow]
    cases hp : peer p
    · simp only [Bool.false_eq_true, if_false, Option.some.injEq]
      constructor
      · intro h
        subst h
        exact ⟨by omega, by simpa using hp, by intro i hi; omega⟩
      · rintro ⟨_, _, h3⟩
        cases j with
        | zero => rfl
        | succ j =>
          have := h3 0 (by omega)
          simp [hp] at this
    · simp only [if_true, Option.map_eq_some']
      constructor
      · rintro ⟨a, ha, rfl⟩
        obtain ⟨h1, h2, h3⟩ := (ih (p + 1) a).1 ha
        refine ⟨by omega, ?_, ?_⟩
        · rwa [Nat.add_assoc, Nat.add_comm 1 a] at h2
        · intro i hi
          cases i with
          | zero => simpa using hp
          | succ i =>
            have := h3 i (by omega)
            rwa [Nat.add_assoc, Nat.add_comm 1 i] at this
      · rintro ⟨h1, h2, h3⟩
        cases j with
        | zero => simp [hp] at h2
        | succ j =>
          refine ⟨j, (ih (p + 1) j).2 ⟨by omega, ?_, ?_⟩, rfl⟩
          · rwa [Nat.add_assoc, Nat.add_comm 1 j]
          · intro i hi
            have := h3 (i + 1) (by omega)
            rwa [Nat.add_assoc, Nat.add_comm 1 i]

/-! ### Claims -/

/-- C1 (amended): for each of the six register-protocol operations, every
input, every peer and every level of the lines at entry, the accesses the
operation makes contain exactly one STOP emission when it returns 0 and
exactly two when it returns 1 (the `_iic_stop` inside `_iic_wait_ack` on
timeout, then the caller's own `_iic_stop`). -/
theorem stop_emissions_per_operation (s : Bus) (l : Line) (addr reg len : Nat)
    (buf : List Nat) :
    (stopCount l (produced s (iic_write_cmd addr buf len s).2)
        = if (iic_write_cmd addr buf len s).1 = 0 then 1 else 2) ∧
    (stopCount l (produced s (iic_write addr reg buf len s).2)
        = if (iic_write addr reg buf len s).1 = 0 then 1 else 2) ∧
    (stopCount l (produced s (iic_write_address16 addr reg buf len s).2)
        = if (iic_write_address16 addr reg buf len s).1 = 0 then 1 else 2) ∧
    (stopCount l (produced s (iic_read addr reg buf len s).2.2)
        = if (iic_read addr reg buf len s).1 = 0 then 1 else 2) ∧
    (stopCount l (produced s (iic_read_address16 addr reg buf len s).2.2)
        = if (iic_read_address16 addr reg buf len s).1 = 0 then 1 else 2) ∧
    (stopCount l (produced s (iic_read_cmd addr buf len s).2.2)
        = if (iic_read_cmd addr buf len s).1 = 0 then 1 else 2) := by
  refine ⟨?_, ?_, ?_, ?_, ?_, ?_⟩
  · rw [iic_write_cmd_eq]; simp only [produced_adv]; exact stopCount_write_form _ _ _ _
  · rw [iic_write_eq]; simp only [produced_adv]; exact stopCount_write_form _ _ _ _
  · rw [iic_write_address16_eq]; simp only [produced_adv]; exact stopCount_write_form _ _ _ _
  · rw [iic_read_eq]; simp only [produced_adv]; exact stopCount_readForm _ _ _ _ _ _ _
  · rw [iic_read_address16_eq]; simp only [produced_adv]; exact stopCount_readForm _ _ _ _ _ _ _
  · rw [iic_read_cmd_eq]; simp only [produced_adv]; exact stopCount_readTail _ _ _ _ _ _

/-- C1 as stated fails: `iic_write_cmd(0x50, buf, 0)` from the idle bus, with
a peer that never pulls SDA low, returns 1 and its accesses contain two STOP
emissions, not one. -/
theorem stop_emissions_abort_twice :
    (iic_write_cmd 0x50 [] 0 (Bus.fresh peerNever)).1 = 1 ∧
    stopCount Line.idle
      (produced (Bus.fresh peerNever) (iic_write_cmd 0x50 [] 0 (Bus.fresh peerNever)).2) = 2 ∧
    stopCount Line.idle
      (produced (Bus.fresh peerNever) (iic_write_cmd 0x50 [] 0 (Bus.fresh peerNever)).2)
        ≠ 1 := by
  have hf : firstLow peerNever 0 501 = none :=
    (firstLow_eq_none_iff _ _ _).2 (fun _ _ => rfl)
  have hx : xmit (Bus.fresh peerNever).peer (Bus.fresh peerNever).polls
      (0x50 :: dataBytes [] 0 0) = (false, 501, sendEv 0x50 ++ (waitPre ++ timeoutEv 501)) := by
    show xmit peerNever 0 [0x50] = _
    rw [xmit, hf]
  rw [iic_write_cmd_eq]
  simp only [hx, produced_adv]
  have h2 : stopCount Line.idle
      (startEv ++ (sendEv 0x50 ++ (waitPre ++ timeoutEv 501)) ++ stopEv) = 2 := by
    simp [stopCount_append, stopCount_startEv, stopCount_sendEv, stopCount_waitPre,
      stopCount_timeoutEv, stopCount_stopEv]
  refine ⟨rfl, h2, ?_⟩
  rw [h2]
  decide

/-- C8 (amended): `_iic_wait_ack` makes at most 501 polls of the SDA input
level.  It returns 1 exactly when SDA reads high at each of 501 consecutive
polls, and it has then made 501 polls; otherwise it returns 0 at the first
poll that reads low and makes no poll after that one. -/
theorem wait_ack_poll_budget (s : Bus) :
    ((_iic_wait_ack s).1 = 1 ↔ ∀ j, j < 501 → s.peer (s.polls + j) = true) ∧
    ((_iic_wait_ack s).1 = 0 ∨ (_iic_wait_ack s).1 = 1) ∧
    ((_iic_wait_ack s).1 = 1 → (_iic_wait_ack s).2.polls = s.polls + 501) ∧
    (∀ j, j < 501 → s.peer (s.polls + j) = false →
      (∀ i, i < j → s.peer (s.polls + i) = true) →
        (_iic_wait_ack s).1 = 0 ∧ (_iic_wait_ack s).2.polls = s.polls + (j + 1)) := by
  rw [iic_wait_ack_eq]
  cases hf : firstLow s.peer s.polls 501 with
  | none =>
    have hn := (firstLow_eq_none_iff _ _ _).1 hf
    refine ⟨by simpa using hn, by simp, by simp, ?_⟩
    intro j hj hlow _
    rw [hn j hj] at hlow
    cases hlow
  | some k =>
    obtain ⟨hk, hlow, hhigh⟩ := (firstLow_eq_some_iff _ _ _ _).1 hf
    refine ⟨?_, by simp, by simp, ?_⟩
    · simp only [zero_ne_one, false_iff, not_forall]
      exact ⟨k, hk, by simp [hlow]⟩
    · intro j hj hjlow hjhigh
      have hjk : j = k := by
        rcases Nat.lt_trichotomy j k with h | h | h
        · rw [hhigh j h] at hjlow; cases hjlow
        · exact h
        · rw [hjhigh k h] at hlow; cases hlow
      subst hjk
      simp

/-- Instance of C8: SDA high at two polls and low at the third gives
"acknowledged" after exactly three polls. -/
theorem wait_ack_poll_budget_witness :
    (_iic_wait_ack ⟨fun n => decide (n < 2), 0, []⟩).1 = 0 ∧
    (_iic_wait_ack ⟨fun n => decide (n < 2), 0, []⟩).2.polls = 0 + (2 + 1) :=
  (wait_ack_poll_budget ⟨fun n => decide (n < 2), 0, []⟩).2.2.2 2 (by decide) (by decide)
    (by decide)

/-- C8 as stated fails: with SDA high at each of the first 500 polls and low
at the next one, `_iic_wait_ack` does not report "not acknowledged"; it makes
a 501st poll and returns 0. -/
theorem wait_ack_500_highs_acknowledged :
    (∀ j, j < 500 → (fun n => decide (n < 500)) (0 + j) = true) ∧
    (_iic_wait_ack ⟨fun n => decide (n < 500), 0, []⟩).1 = 0 ∧
    (_iic_wait_ack ⟨fun n => decide (n < 500), 0, []⟩).1 ≠ 1 ∧
    (_iic_wait_ack ⟨fun n => decide (n < 500), 0, []⟩).2.polls = 501 := by
  have hf : firstLow (fun n => decide (n < 500)) 0 501 = some 500 :=
    (firstLow_eq_some_iff _ _ _ _).2
      ⟨by decide, by decide, fun i hi => by simpa using hi⟩
  rw [iic_wait_ack_eq, hf]
  exact ⟨fun j hj => by simpa using hj, rfl, by decide, rfl⟩

/-! ### Idle bus -/

theorem write_form_idle (peer : Nat → Bool) (p : Nat) (bs : List Nat) (l : Line) :
    replay l (startEv ++ (xmit peer p bs).2.2 ++ stopEv) = Line.idle := by
  rw [replay_append, replay_stopEv]

theorem readTail_idle (peer : Nat → Bool) (p rd : Nat) (buf : List Nat) (len : Nat)
    (l : Line) : replay l (readTail peer p rd buf len).2.2.2 = Line.idle := by
  unfold readTail
  cases h : (xmit peer p [rd]).1 <;> simp [h, replay_append, replay_stopEv]

theorem readForm_idle (peer : Nat → Bool) (p : Nat) (pre : List Nat) (rd : Nat)
    (buf : List Nat) (len : Nat) (l : Line) :
    replay l (readForm peer p pre rd buf len).2.2.2 = Line.idle := by
  unfold readForm
  cases h : (xmit peer p pre).1
  · simp [h, replay_append, replay_stopEv]
  · simp [h, replay_append, readTail_idle]

/-- Every call appends accesses that leave the lines idle, whatever their
levels at entry. -/
theorem call_run_idle (c : Call) (s : Bus) :
    ∃ k es, c.run s = s.adv k es ∧ ∀ l, replay l es = Line.idle := by
  cases c with
  | write_cmd addr buf len =>
    exact ⟨_, _, by rw [Call.run, iic_write_cmd_eq], fun l => write_form_idle _ _ _ l⟩
  | write addr reg buf len =>
    exact ⟨_, _, by rw [Call.run, iic_write_eq], fun l => write_form_idle _ _ _ l⟩
  | write_address16 addr reg buf len =>
    exact ⟨_, _, by rw [Call.run, iic_write_address16_eq], fun l => write_form_idle _ _ _ l⟩
  | read addr reg buf len =>
    exact ⟨_, _, by rw [Call.run, iic_read_eq], fun l => readForm_idle _ _ _ _ _ _ l⟩
  | read_address16 addr reg buf len =>
    exact ⟨_, _, by rw [Call.run, iic_read_address16_eq], fun l => readForm_idle _ _ _ _ _ _ l⟩
  | read_cmd addr buf len =>
    exact ⟨_, _, by rw [Call.run, iic_read_cmd_eq], fun l => readTail_idle _ _ _ _ _ l⟩

theorem runCalls_idle (l : Line) (s : Bus) (cs : List Call) : ∀ (s0 : Bus),
    (∃ k es, s0 = s.adv k es ∧ replay l es = Line.idle) →
    ∃ k es, runCalls cs s0 = s.adv k es ∧ replay l es = Line.idle := by
  induction cs with
  | nil => intro s0 h; simpa [runCalls] using h
  | cons c cs ih =>
    intro s0 h
    obtain ⟨k, es, hs0, _⟩ := h
    obtain ⟨k2, es2, hc, hidle⟩ := call_run_idle c s0
    have : runCalls (c :: cs) s0 = runCalls cs (c.run s0) := rfl
    rw [this]
    apply ih
    refine ⟨k + k2, es ++ es2, ?_, ?_⟩
    · rw [hc, hs0, adv_adv]
    · rw [replay_append, hidle]

/-- C10: `iic_init` returns 0 and leaves SCL and SDA high with SDA in output
mode; each of the six register-protocol operations, whatever it returns and
whatever the levels of the lines at entry, finishes with SDA in output mode
and SCL and SDA both high; so after `iic_init` and any sequence of calls the
bus is idle. -/
theorem bus_idle_invariant (s : Bus) (l : Line) (addr reg len : Nat) (buf : List Nat)
    (cs : List Call) :
    (iic_init s).1 = 0 ∧
    replay l (produced s (iic_init s).2) = Line.idle ∧
    replay l (produced s (iic_write_cmd addr buf len s).2) = Line.idle ∧
    replay l (produced s (iic_write addr reg buf len s).2) = Line.idle ∧
    replay l (produced s (iic_write_address16 addr reg buf len s).2) = Line.idle ∧
    replay l (produced s (iic_read addr reg buf len s).2.2) = Line.idle ∧
    replay l (produced s (iic_read_address16 addr reg buf len s).2.2) = Line.idle ∧
    replay l (produced s (iic_read_cmd addr buf len s).2.2) = Line.idle ∧
    replay l (produced s (runCalls cs (iic_init s).2)) = Line.idle := by
  have hinit : replay l [Ev.sdaOut, Ev.sda true, Ev.scl true] = Line.idle := by
    rcases l with ⟨a, b, c⟩
    cases a <;> cases b <;> cases c <;> rfl
  refine ⟨rfl, ?_, ?_, ?_, ?_, ?_, ?_, ?_, ?_⟩
  · rw [iic_init_eq]; simpa using hinit
  · rw [iic_write_cmd_eq]; simp only [produced_adv]; exact write_form_idle _ _ _ _
  · rw [iic_write_eq]; simp only [produced_adv]; exact write_form_idle _ _ _ _
  · rw [iic_write_address16_eq]; simp only [produced_adv]; exact write_form_idle _ _ _ _
  · rw [iic_read_eq]; simp only [produced_adv]; exact readForm_idle _ _ _ _ _ _ _
  · rw [iic_read_address16_eq]; simp only [produced_adv]; exact readForm_idle _ _ _ _ _ _ _
  · rw [iic_read_cmd_eq]; simp only [produced_adv]; exact readTail_idle _ _ _ _ _ _
  · obtain ⟨k, es, h, hidle⟩ := runCalls_idle l s cs (iic_init s).2
      ⟨0, [Ev.sdaOut, Ev.sda true, Ev.scl true], by rw [iic_init_eq], hinit⟩
    rw [h, produced_adv, hidle]

/-! ### Bit order -/

theorem msb_eq_testBit (txd : Nat) : msb txd = txd.testBit 7 := by
  have h : ((txd &&& 0x80) >>> 7).testBit 0 = txd.testBit 7 := by
    rw [Nat.testBit_shiftRight, Nat.testBit_and]
    simp
    intro _
    decide
  rw [← h, Nat.testBit_zero, msb]
  cases h2 : ((txd &&& 0x80) >>> 7) % 2 == 1 <;> simp_all

theorem testBit_shl_byte (txd k : Nat) (hk : k + 1 < 8) :
    ((txd <<< 1) % 256).testBit (k + 1) = txd.testBit k := by
  have : (256 : Nat) = 2 ^ 8 := rfl
  rw [this, Nat.testBit_mod_two_pow, Nat.testBit_shiftLeft]
  simp [hk]

theorem risingSamples_append (a b : List Ev) : ∀ l : Line,
    risingSamples l (a ++ b) = risingSamples l a ++ risingSamples (replay l a) b := by
  induction a with
  | nil => intro l; simp [risingSamples, replay]
  | cons e es ih =>
    intro l
    by_cases h : isRise l e <;> simp [risingSamples, replay, ih, h]

theorem risingSamples_sendBits (n : Nat) : ∀ (txd : Nat) (l : Line), n ≤ 8 →
    l.scl = false → l.out = true →
    risingSamples l (sendBits n txd)
      = (List.range n).map (fun k => some (txd.testBit (7 - k))) := by
  induction n with
  | zero => intro txd l _ _ _; rfl
  | succ n ih =>
    intro txd l hn hscl hout
    rw [sendBits, risingSamples_append, ih _ _ (by omega) (by simp [replay, Line.step])
      (by simp [replay, Line.step, hout]), List.range_succ_eq_map, List.map_cons, List.map_map]
    have h1 : risingSamples l [Ev.sda (msb txd), Ev.delay 10, Ev.scl true, Ev.delay 10,
        Ev.scl false, Ev.delay 10] = [some (txd.testBit 7)] := by
      simp [risingSamples, isRise, Line.step, hscl, hout, msb_eq_testBit]
    rw [h1]
    simp only [List.singleton_append, Nat.sub_zero, List.cons.injEq, true_and]
    apply List.map_congr_left
    intro k hk
    have hk : k < n := List.mem_range.1 hk
    simp only [Function.comp, Option.some.injEq]
    have e1 : 7 - k = (6 - k) + 1 := by omega
    have e2 : 7 - Nat.succ k = 6 - k := by omega
    rw [e1, e2, testBit_shl_byte _ _ (by omega)]

theorem risingSamples_sendEv (txd : Nat) (l : Line) :
    risingSamples l (sendEv txd) = (bitsMsbFirst txd).map some := by
  rw [sendEv, risingSamples_append,
    risingSamples_sendBits 8 txd _ (by omega) (by simp [replay, Line.step])
      (by simp [replay, Line.step])]
  rcases l with ⟨a, b, c⟩
  cases a <;> simp [risingSamples, isRise, Line.step, bitsMsbFirst, List.range_succ]

theorem assemble_bitsMsbFirst (b : Nat) (hb : b < 256) : assemble (bitsMsbFirst b) = b := by
  have h : ∀ (x : Nat), (decide (x % 2 = 1)).toNat = x % 2 := by
    intro x
    rcases Nat.mod_two_eq_zero_or_one x with h | h <;> simp [h]
  simp only [assemble, bitsMsbFirst, List.foldl, Nat.testBit_to_div_mod, h]
  norm_num
  omega

theorem readVal_eight (peer : Nat → Bool) (p : Nat) :
    readVal peer p 8 0
      = assemble [peer p, peer (p + 1), peer (p + 2), peer (p + 3), peer (p + 4), peer (p + 5),
          peer (p + 6), peer (p + 7)] := by
  simp only [readVal, Nat.add_assoc, Nat.reduceAdd]
  generalize peer p = b0
  generalize peer (p + 1) = b1
  generalize peer (p + 2) = b2
  generalize peer (p + 3) = b3
  generalize peer (p + 4) = b4
  generalize peer (p + 5) = b5
  generalize peer (p + 6) = b6
  generalize peer (p + 7) = b7
  revert b0 b1 b2 b3 b4 b5 b6 b7
  decide

/-- C6: for every byte value `b`, whatever the levels of the lines at entry,
`_iic_send_byte(b)` raises SCL exactly eight times, and at those rising edges
the master drives SDA at bit 7, bit 6, ..., bit 0 of `b` in this order; the
number assembled from these samples, most significant bit first, is `b`. -/
theorem send_byte_msb_first (b : Nat) (hb : b < 256) (s : Bus) (l : Line) :
    risingSamples l (produced s (_iic_send_byte b s))
      = [some (b.testBit 7), some (b.testBit 6), some (b.testBit 5), some (b.testBit 4),
         some (b.testBit 3), some (b.testBit 2), some (b.testBit 1), some (b.testBit 0)] ∧
    (risingSamples l (produced s (_iic_send_byte b s))).length = 8 ∧
    assemble ((risingSamples l (produced s (_iic_send_byte b s))).map (fun v => v.getD true))
      = b := by
  rw [iic_send_byte_eq, produced_adv, risingSamples_sendEv]
  refine ⟨rfl, rfl, ?_⟩
  rw [List.map_map]
  have : (fun v : Option Bool => v.getD true) ∘ some = id := rfl
  rw [this, List.map_id]
  exact assemble_bitsMsbFirst b hb

/-- Instance of C6 at `b = 0xA5`. -/
theorem send_byte_msb_first_witness :
    risingSamples Line.idle (produced ⟨fun _ => false, 0, []⟩
        (_iic_send_byte 0xA5 ⟨fun _ => false, 0, []⟩))
      = [some true, some false, some true, some false, some false, some true, some false,
         some true] :=
  (send_byte_msb_first 0xA5 (by decide) ⟨fun _ => false, 0, []⟩ Line.idle).1

/-- C7: `_iic_read_byte` returns the sum of the eight levels it samples,
weighted `2 ^ 7` down to `2 ^ 0` in sampling order, nothing being lost in the
8-bit accumulator; so if those eight levels are, in order, the levels
`_iic_send_byte(b)` drives at its SCL rising edges, `_iic_read_byte` returns
`b`. -/
theorem read_byte_round_trip (ack : Nat) (s : Bus) :
    (_iic_read_byte ack s).1
      = (s.peer s.polls).toNat * 128 + (s.peer (s.polls + 1)).toNat * 64
        + (s.peer (s.polls + 2)).toNat * 32 + (s.peer (s.polls + 3)).toNat * 16
        + (s.peer (s.polls + 4)).toNat * 8 + (s.peer (s.polls + 5)).toNat * 4
        + (s.peer (s.polls + 6)).toNat * 2 + (s.peer (s.polls + 7)).toNat ∧
    (∀ (b : Nat) (s0 : Bus) (l : Line), b < 256 →
      risingSamples l (produced s0 (_iic_send_byte b s0))
        = (List.range 8).map (fun j => some (s.peer (s.polls + j))) →
      (_iic_read_byte ack s).1 = b) := by
  rw [iic_read_byte_eq, readVal_eight]
  constructor
  · simp only [assemble, List.foldl]
    omega
  · intro b s0 l hb hloop
    rw [iic_send_byte_eq, produced_adv, risingSamples_sendEv] at hloop
    simp only [bitsMsbFirst, List.map_cons, List.map_nil, List.range_succ, List.range_zero,
      List.nil_append, List.cons_append, List.cons.injEq, Option.some.injEq, Nat.add_zero,
      and_true] at hloop
    obtain ⟨h7, h6, h5, h4, h3, h2, h1, h0⟩ := hloop
    rw [← h7, ← h6, ← h5, ← h4, ← h3, ← h2, ← h1, ← h0]
    exact assemble_bitsMsbFirst b hb

/-- Instance of C7: the levels of `0xA5` sent most significant bit first are
read back as `0xA5`. -/
theorem read_byte_round_trip_witness :
    (_iic_read_byte 0 ⟨fun j => Nat.testBit 0xA5 (7 - j), 0, []⟩).1 = 0xA5 :=
  (read_byte_round_trip 0 ⟨fun j => Nat.testBit 0xA5 (7 - j), 0, []⟩).2 0xA5
    ⟨fun _ => false, 0, []⟩ Line.idle (by decide)
    (by rw [iic_send_byte_eq, produced_adv, risingSamples_sendEv]; decide)

/-! ### The analyser on the accesses of each function -/

theorem run_append (m : Mon) (a b : List Ev) : m.run (a ++ b) = (m.run a).run b := by
  simp [Mon.run, List.foldl_append]

theorem run_replicate_read (l : Line) (fr : List Frame) (n : Nat) (v : Bool) :
    Mon.run ⟨l, 0, 0, true, fr⟩ (List.replicate n (Ev.readSda v)) = ⟨l, 0, 0, true, fr⟩ := by
  induction n with
  | zero => rfl
  | succ n ih =>
    rw [List.replicate_succ]
    simpa [Mon.run, Mon.step, isStart, isStop, isRise] using ih

theorem run_startEv (l : Line) (fr : List Frame) (h : l.sda = true) :
    Mon.run ⟨l, 0, 0, true, fr⟩ startEv = ⟨⟨false, true, true⟩, 0, 0, true, fr ++ [Frame.start]⟩ := by
  rcases l with ⟨a, b, c⟩
  simp only at h
  subst h
  cases a <;> cases c <;>
    simp [Mon.run, Mon.step, startEv, isStart, isStop, isRise, Line.step]

theorem run_stopEv_low (d o : Bool) (fr : List Frame) :
    Mon.run ⟨⟨false, d, o⟩, 0, 0, true, fr⟩ stopEv = ⟨Line.idle, 0, 0, true, fr ++ [Frame.stop]⟩ := by
  cases d <;> cases o <;>
    simp [Mon.run, Mon.step, stopEv, isStart, isStop, isRise, Line.step, Line.idle]

theorem run_stopEv_high (o : Bool) (fr : List Frame) :
    Mon.run ⟨⟨true, true, o⟩, 0, 0, true, fr⟩ stopEv
      = ⟨Line.idle, 0, 0, true, fr ++ [Frame.start, Frame.stop]⟩ := by
  cases o <;>
    simp [Mon.run, Mon.step, stopEv, isStart, isStop, isRise, Line.step, Line.idle]

theorem shiftIn_range_succ (c : Nat) (n : Nat) (f : Nat → Bool) :
    shiftIn c ((List.range (n + 1)).map f)
      = shiftIn (2 * c + (f 0).toNat) ((List.range n).map (fun i => f (i + 1))) := by
  rw [List.range_succ_eq_map, List.map_cons, List.map_map]
  rfl

theorem run_sendBits (n : Nat) : ∀ (txd : Nat) (d : Bool) (k c : Nat) (fr : List Frame),
    k + n ≤ 8 →
    ∃ d2, Mon.run ⟨⟨false, d, true⟩, k, c, true, fr⟩ (sendBits n txd)
      = ⟨⟨false, d2, true⟩, k + n,
          shiftIn c ((List.range n).map (fun i => txd.testBit (7 - i))), true, fr⟩ := by
  induction n with
  | zero => intro txd d k c fr _; exact ⟨d, rfl⟩
  | succ n ih =>
    intro txd d k c fr h
    obtain ⟨d2, h2⟩ := ih ((txd <<< 1) % 256) (msb txd) (k + 1)
      (2 * c + (msb txd).toNat) fr (by omega)
    refine ⟨d2, ?_⟩
    rw [sendBits, run_append]
    have h1 : Mon.run ⟨⟨false, d, true⟩, k, c, true, fr⟩
        [Ev.sda (msb txd), Ev.delay 10, Ev.scl true, Ev.delay 10, Ev.scl false, Ev.delay 10]
        = ⟨⟨false, msb txd, true⟩, k + 1, 2 * c + (msb txd).toNat, true, fr⟩ := by
      have hk : k < 8 := by omega
      cases hm : msb txd <;>
        simp [Mon.run, Mon.step, isStart, isStop, isRise, Line.step, hk]
    rw [h1, h2, shiftIn_range_succ, msb_eq_testBit]
    have e : (List.range n).map (fun i => ((txd <<< 1) % 256).testBit (7 - i))
        = (List.range n).map (fun i => txd.testBit (7 - (i + 1))) := by
      apply List.map_congr_left
      intro i hi
      have hi : i < n := List.mem_range.1 hi
      have e1 : 7 - i = (6 - i) + 1 := by omega
      have e2 : 7 - (i + 1) = 6 - i := by omega
      rw [e1, e2, testBit_shl_byte _ _ (by omega)]
    rw [e]
    simp [Nat.add_assoc, Nat.add_comm 1 n]

theorem shiftIn_bits_byte (txd : Nat) :
    shiftIn 0 ((List.range 8).map (fun i => txd.testBit (7 - i))) = txd % 256 := by
  have h := assemble_bitsMsbFirst (txd % 256) (Nat.mod_lt _ (by decide))
  have e : ∀ i, i < 8 → (txd % 256).testBit i = txd.testBit i := by
    intro i hi
    have : (256 : Nat) = 2 ^ 8 := rfl
    rw [this, Nat.testBit_mod_two_pow]
    simp [hi]
  simp only [assemble, bitsMsbFirst, e 7 (by decide), e 6 (by decide), e 5 (by decide),
    e 4 (by decide), e 3 (by decide), e 2 (by decide), e 1 (by decide), e 0 (by decide)] at h
  simpa [shiftIn, List.range_succ] using h

/-- The analyser on `_iic_send_byte`: eight bits clocked in, byte assembled. -/
theorem run_sendEv (txd : Nat) (d o : Bool) (fr : List Frame) :
    ∃ d2, Mon.run ⟨⟨false, d, o⟩, 0, 0, true, fr⟩ (sendEv txd)
      = ⟨⟨false, d2, true⟩, 8, txd % 256, true, fr⟩ := by
  obtain ⟨d2, h⟩ := run_sendBits 8 txd d 0 0 fr (by omega)
  refine ⟨d2, ?_⟩
  rw [sendEv, run_append]
  have h1 : Mon.run ⟨⟨false, d, o⟩, 0, 0, true, fr⟩ [Ev.sdaOut, Ev.scl false]
      = ⟨⟨false, d, true⟩, 0, 0, true, fr⟩ := by
    cases d <;> cases o <;> simp [Mon.run, Mon.step, isStart, isStop, isRise, Line.step]
  rw [h1, h, shiftIn_bits_byte]

/-- The analyser on an acknowledged `_iic_wait_ack`: the byte is closed. -/
theorem run_wait_acked (d : Bool) (c j : Nat) (fr : List Frame) :
    Mon.run ⟨⟨false, d, true⟩, 8, c, true, fr⟩ (waitPre ++ ackedEv j)
      = ⟨⟨false, true, false⟩, 0, 0, true, fr ++ [Frame.tx c]⟩ := by
  have h1 : Mon.run ⟨⟨false, d, true⟩, 8, c, true, fr⟩ waitPre
      = ⟨⟨true, true, false⟩, 0, 0, true, fr ++ [Frame.tx c]⟩ := by
    cases d <;> simp [Mon.run, Mon.step, waitPre, isStart, isStop, isRise, Line.step]
  rw [run_append, h1, ackedEv, run_append, run_replicate_read]
  simp [Mon.run, Mon.step, isStart, isStop, isRise, Line.step]

/-- The analyser on a `_iic_wait_ack` that times out: the byte is closed, then
the `_iic_stop` inside shows as a START and a STOP. -/
theorem run_wait_timeout (d : Bool) (c n : Nat) (fr : List Frame) :
    Mon.run ⟨⟨false, d, true⟩, 8, c, true, fr⟩ (waitPre ++ timeoutEv n)
      = ⟨Line.idle, 0, 0, true, fr ++ [Frame.tx c, Frame.start, Frame.stop]⟩ := by
  have h1 : Mon.run ⟨⟨false, d, true⟩, 8, c, true, fr⟩ waitPre
      = ⟨⟨true, true, false⟩, 0, 0, true, fr ++ [Frame.tx c]⟩ := by
    cases d <;> simp [Mon.run, Mon.step, waitPre, isStart, isStop, isRise, Line.step]
  rw [run_append, h1, timeoutEv, run_append, run_replicate_read, run_stopEv_high]
  simp

/-- The analyser on `xmit`, entered with SCL low and no bit pending. -/
theorem run_xmit (peer : Nat → Bool) (bs : List Nat) : ∀ (p : Nat) (d o : Bool)
    (fr : List Frame),
    Mon.run ⟨⟨false, d, o⟩, 0, 0, true, fr⟩ (xmit peer p bs).2.2
      = if (xmit peer p bs).1 then
          ⟨if bs = [] then ⟨false, d, o⟩ else ⟨false, true, false⟩, 0, 0, true,
            fr ++ xmitFrames peer p bs⟩
        else
          ⟨Line.idle, 0, 0, true, fr ++ xmitFrames peer p bs⟩ := by
  induction bs with
  | nil => intro p d o fr; simp [xmit, xmitFrames, Mon.run]
  | cons b bs ih =>
    intro p d o fr
    obtain ⟨d2, hs⟩ := run_sendEv b d o fr
    rw [xmit, xmitFrames]
    cases hf : firstLow peer p 501 with
    | none =>
      simp only [Bool.false_eq_true, if_false]
      rw [run_append, hs, run_wait_timeout]
    | some j =>
      simp only [reduceCtorEq, if_false]
      rw [run_append _ (sendEv b ++ (waitPre ++ ackedEv j)), run_append _ (sendEv b), hs,
        run_wait_acked, ih]
      by_cases hb : bs = []
      · subst hb
        simp [xmit, xmitFrames]
      · cases hx : (xmit peer (p + (j + 1)) bs).1 <;> simp [hb, List.append_assoc]
theorem run_readBits (peer : Nat → Bool) (n : Nat) : ∀ (p : Nat) (sc d : Bool) (k c : Nat)
    (ms : Bool) (fr : List Frame), k + (n + 1) ≤ 8 →
    Mon.run ⟨⟨sc, d, false⟩, k, c, ms, fr⟩ (readBits peer p (n + 1))
      = ⟨⟨true, d, false⟩, k + (n + 1),
          shiftIn c ((List.range (n + 1)).map (fun i => peer (p + i))), false, fr⟩ := by
  have one : ∀ (p : Nat) (sc d : Bool) (k c : Nat) (ms : Bool) (fr : List Frame), k < 8 →
      Mon.run ⟨⟨sc, d, false⟩, k, c, ms, fr⟩
        [Ev.scl false, Ev.delay 10, Ev.scl true, Ev.readSda (peer p), Ev.delay 10]
        = ⟨⟨true, d, false⟩, k + 1, 2 * c + (peer p).toNat, false, fr⟩ := by
    intro p sc d k c ms fr hk
    cases sc <;> cases ms <;>
      simp [Mon.run, Mon.step, isStart, isStop, isRise, Line.step, hk]
  induction n with
  | zero =>
    intro p sc d k c ms fr h
    rw [readBits, readBits, List.append_nil, one _ _ _ _ _ _ _ (by omega)]
    simp [shiftIn, List.range_succ]
  | succ n ih =>
    intro p sc d k c ms fr h
    rw [readBits, run_append, one _ _ _ _ _ _ _ (by omega), ih _ _ _ _ _ _ _ (by omega),
      shiftIn_range_succ c (n + 1) (fun i => peer (p + i))]
    simp [Nat.add_assoc, Nat.add_comm 1]

/-- The analyser on `_iic_read_byte`: one received byte, with the answer the
master gave at the ninth clock. -/
theorem run_readEv (peer : Nat → Bool) (p ack : Nat) (d o : Bool) (fr : List Frame) :
    Mon.run ⟨⟨false, d, o⟩, 0, 0, true, fr⟩ (readEv peer p ack)
      = ⟨⟨false, decide (ack = 0), true⟩, 0, 0, true,
          fr ++ [Frame.rx (readVal peer p 8 0) (decide (ack ≠ 0))]⟩ := by
  have h0 : Mon.run ⟨⟨false, d, o⟩, 0, 0, true, fr⟩ [Ev.sdaIn]
      = ⟨⟨false, d, false⟩, 0, 0, true, fr⟩ := by
    cases d <;> cases o <;> simp [Mon.run, Mon.step, isStart, isStop, isRise, Line.step]
  have hv : shiftIn 0 ((List.range 8).map (fun i => peer (p + i))) = readVal peer p 8 0 := by
    rw [readVal_eight]
    simp [shiftIn, assemble, List.range_succ]
  rw [readEv, run_append, run_append, h0, run_readBits peer 7 p false d 0 0 true fr (by omega),
    hv]
  by_cases h : ack = 0
  · cases d <;>
      simp [h, Mon.run, Mon.step, nackEv, isStart, isStop, isRise, Line.step]
  · cases d <;>
      simp [h, Mon.run, Mon.step, ackEv, isStart, isStop, isRise, Line.step]

/-- The analyser on the data loop of a read. -/
theorem run_recvEv (peer : Nat → Bool) (n : Nat) : ∀ (p : Nat) (d o : Bool) (fr : List Frame),
    ∃ d2 o2, Mon.run ⟨⟨false, d, o⟩, 0, 0, true, fr⟩ (recvEv peer p n)
      = ⟨⟨false, d2, o2⟩, 0, 0, true, fr ++ recvFrames peer p n⟩ := by
  induction n with
  | zero => intro p d o fr; exact ⟨d, o, by simp [recvEv, recvFrames, Mon.run]⟩
  | succ n ih =>
    intro p d o fr
    rw [recvEv, run_append, run_readEv]
    obtain ⟨d2, o2, h⟩ := ih (p + 8) (decide ((if n + 1 = 1 then 0 else 1) = 0)) true
      (fr ++ [Frame.rx (readVal peer p 8 0) (decide ((if n + 1 = 1 then 0 else 1) ≠ 0))])
    refine ⟨d2, o2, ?_⟩
    rw [h, recvFrames]
    by_cases hn : n + 1 = 1 <;> simp [hn]

/-- The report on a write in closed form, entered with SDA high. -/
theorem run_write_form (peer : Nat → Bool) (p : Nat) (b : Nat) (bs : List Nat) (l : Line)
    (fr : List Frame) (h : l.sda = true) :
    Mon.run ⟨l, 0, 0, true, fr⟩ (startEv ++ (xmit peer p (b :: bs)).2.2 ++ stopEv)
      = ⟨Line.idle, 0, 0, true,
          fr ++ [Frame.start] ++ xmitFrames peer p (b :: bs)
            ++ (if (xmit peer p (b :: bs)).1 then [Frame.stop]
                else [Frame.start, Frame.stop])⟩ := by
  rw [run_append, run_append, run_startEv l fr h, run_xmit]
  cases hx : (xmit peer p (b :: bs)).1
  · simp only [Bool.false_eq_true, if_false]
    exact run_stopEv_high _ _
  · simp only [if_true, reduceCtorEq, if_false]
    exact run_stopEv_low _ _ _

/-- The report on a read in closed form from the read address on, entered
with SDA high. -/
theorem run_readTail (peer : Nat → Bool) (p rd : Nat) (buf : List Nat) (len : Nat) (l : Line)
    (fr : List Frame) (h : l.sda = true) :
    Mon.run ⟨l, 0, 0, true, fr⟩ (readTail peer p rd buf len).2.2.2
      = ⟨Line.idle, 0, 0, true,
          fr ++ [Frame.start] ++ xmitFrames peer p [rd]
            ++ (if (xmit peer p [rd]).1 then
                  recvFrames peer (p + (xmit peer p [rd]).2.1) len ++ [Frame.stop]
                else [Frame.start, Frame.stop])⟩ := by
  unfold readTail
  cases hx : (xmit peer p [rd]).1
  · simp only [hx, Bool.false_eq_true, if_false]
    rw [run_append, run_append, run_startEv l fr h, run_xmit]
    simp only [hx, Bool.false_eq_true, if_false]
    exact run_stopEv_high _ _
  · simp only [hx, if_true]
    rw [run_append, run_append, run_append, run_startEv l fr h, run_xmit]
    simp only [hx, if_true, reduceCtorEq, if_false]
    obtain ⟨d2, o2, hr⟩ := run_recvEv peer len (p + (xmit peer p [rd]).2.1) true false
      (fr ++ [Frame.start] ++ xmitFrames peer p [rd])
    rw [hr, run_stopEv_low]
    simp [List.append_assoc]

/-- The report on a read in closed form, entered with SDA high. -/
theorem run_readForm (peer : Nat → Bool) (p : Nat) (b : Nat) (pre : List Nat) (rd : Nat)
    (buf : List Nat) (len : Nat) (l : Line) (fr : List Frame) (h : l.sda = true) :
    Mon.run ⟨l, 0, 0, true, fr⟩ (readForm peer p (b :: pre) rd buf len).2.2.2
      = ⟨Line.idle, 0, 0, true,
          fr ++ [Frame.start] ++ xmitFrames peer p (b :: pre)
            ++ (if (xmit peer p (b :: pre)).1 then
                  [Frame.start] ++ xmitFrames peer (p + (xmit peer p (b :: pre)).2.1) [rd]
                  ++ (if (xmit peer (p + (xmit peer p (b :: pre)).2.1) [rd]).1 then
                        recvFrames peer (p + (xmit peer p (b :: pre)).2.1
                          + (xmit peer (p + (xmit peer p (b :: pre)).2.1) [rd]).2.1) len
                          ++ [Frame.stop]
                      else [Frame.start, Frame.stop])
                else [Frame.start, Frame.stop])⟩ := by
  unfold readForm
  cases hx : (xmit peer p (b :: pre)).1
  · simp only [hx, Bool.false_eq_true, if_false]
    rw [run_append, run_append, run_startEv l fr h, run_xmit]
    simp only [hx, Bool.false_eq_true, if_false]
    exact run_stopEv_high _ _
  · simp only [hx, if_true]
    rw [run_append, run_append, run_startEv l fr h, run_xmit]
    simp only [hx, if_true, reduceCtorEq, if_false]
    rw [run_readTail _ _ _ _ _ _ _ rfl]
    simp [List.append_assoc]

/-! ### Acknowledged prefix -/

theorem ackedCount_le (peer : Nat → Bool) (n : Nat) : ∀ p, ackedCount peer p n ≤ n := by
  induction n with
  | zero => intro p; simp [ackedCount]
  | succ n ih =>
    intro p
    rw [ackedCount]
    cases firstLow peer p 501 with
    | none => simp
    | some j => have := ih (p + (j + 1)); simp only; omega

theorem xmit_ok_iff (peer : Nat → Bool) (bs : List Nat) : ∀ p,
    (xmit peer p bs).1 = true ↔ ackedCount peer p bs.length = bs.length := by
  induction bs with
  | nil => intro p; simp [xmit, ackedCount]
  | cons b bs ih =>
    intro p
    rw [xmit, List.length_cons, ackedCount]
    cases firstLow peer p 501 with
    | none => simp
    | some j =>
      simp only [ih]
      omega

theorem xmit_polls (peer : Nat → Bool) (bs : List Nat) : ∀ p, (xmit peer p bs).1 = true →
    p + (xmit peer p bs).2.1 = pollsAfter peer p bs.length := by
  induction bs with
  | nil => intro p _; simp [xmit, pollsAfter]
  | cons b bs ih =>
    intro p
    rw [xmit, List.length_cons, pollsAfter]
    cases firstLow peer p 501 with
    | none => simp
    | some j =>
      intro h
      simp only at h ⊢
      rw [← ih _ h]
      omega

theorem xmit_append_ok (peer : Nat → Bool) (a b : List Nat) : ∀ p,
    (xmit peer p (a ++ b)).1
      = ((xmit peer p a).1 && (xmit peer (p + (xmit peer p a).2.1) b).1) := by
  induction a with
  | nil => intro p; simp [xmit]
  | cons x a ih =>
    intro p
    rw [List.cons_append, xmit, xmit]
    cases firstLow peer p 501 with
    | none => simp
    | some j => simp only [ih, Nat.add_assoc]

theorem xmitFrames_append (peer : Nat → Bool) (a b : List Nat) : ∀ p,
    xmitFrames peer p (a ++ b)
      = if (xmit peer p a).1 then
          xmitFrames peer p a ++ xmitFrames peer (p + (xmit peer p a).2.1) b
        else xmitFrames peer p a := by
  induction a with
  | nil => intro p; simp [xmit, xmitFrames]
  | cons x a ih =>
    intro p
    rw [List.cons_append, xmitFrames, xmitFrames, xmit]
    cases firstLow peer p 501 with
    | none => simp
    | some j =>
      simp only [ih, Nat.add_assoc]
      split <;> simp

theorem sentBytes_append (a b : List Frame) : sentBytes (a ++ b) = sentBytes a ++ sentBytes b := by
  simp [sentBytes, List.filterMap_append]

theorem receivedBytes_append (a b : List Frame) :
    receivedBytes (a ++ b) = receivedBytes a ++ receivedBytes b := by
  simp [receivedBytes, List.filterMap_append]

theorem sentBytes_xmitFrames (peer : Nat → Bool) (bs : List Nat) : ∀ p,
    sentBytes (xmitFrames peer p bs)
      = (bs.take (ackedCount peer p bs.length + 1)).map (fun b => b % 256) := by
  induction bs with
  | nil => intro p; simp [xmitFrames, sentBytes]
  | cons b bs ih =>
    intro p
    rw [xmitFrames, List.length_cons, ackedCount]
    cases firstLow peer p 501 with
    | none => simp [sentBytes]
    | some j =>
      have := ih (p + (j + 1))
      simp only [sentBytes, List.filterMap_cons] at this ⊢
      rw [this, Nat.add_comm 1, List.take_succ_cons]
      simp

theorem receivedBytes_xmitFrames (peer : Nat → Bool) (bs : List Nat) : ∀ p,
    receivedBytes (xmitFrames peer p bs) = [] := by
  induction bs with
  | nil => intro p; simp [xmitFrames, receivedBytes]
  | cons b bs ih =>
    intro p
    rw [xmitFrames]
    cases firstLow peer p 501 with
    | none => simp [receivedBytes]
    | some j =>
      have := ih (p + (j + 1))
      simp only [receivedBytes, List.filterMap_cons] at this ⊢
      exact this

theorem sentBytes_recvFrames (peer : Nat → Bool) (n : Nat) : ∀ p,
    sentBytes (recvFrames peer p n) = [] := by
  induction n with
  | zero => intro p; simp [recvFrames, sentBytes]
  | succ n ih =>
    intro p
    have := ih (p + 8)
    simp only [recvFrames, sentBytes, List.filterMap_cons] at this ⊢
    exact this

theorem map_mod_byte (bs : List Nat) (h : ∀ x ∈ bs, x < 256) :
    bs.map (fun b => b % 256) = bs := by
  induction bs with
  | nil => rfl
  | cons b bs ih =>
    simp only [List.map_cons, List.cons.injEq]
    exact ⟨Nat.mod_eq_of_lt (h b (by simp)), ih (fun x hx => h x (by simp [hx]))⟩

theorem dataBytes_eq_take (buf : List Nat) (len : Nat) (h : len ≤ buf.length) :
    dataBytes buf 0 len = buf.take len := by
  apply List.ext_getElem
  · simp [dataBytes, h]
  · intro i h1 h2
    simp only [dataBytes, List.length_map, List.length_range'] at h1
    simp [dataBytes, List.getD_eq_getElem?_getD, List.getElem?_eq_getElem (show i < buf.length by omega)]

/-! ### Reports on whole operations -/

/-- The report on a write, entered with the bus idle. -/
theorem decode_write_form (peer : Nat → Bool) (p : Nat) (b : Nat) (bs : List Nat) :
    decode Line.idle (startEv ++ (xmit peer p (b :: bs)).2.2 ++ stopEv)
      = [Frame.start] ++ xmitFrames peer p (b :: bs)
          ++ (if (xmit peer p (b :: bs)).1 then [Frame.stop]
              else [Frame.start, Frame.stop]) := by
  rw [decode, Mon.init, run_write_form _ _ _ _ _ _ rfl]
  simp

/-- The report on a read from the read address on, entered with the bus
idle. -/
theorem decode_readTail (peer : Nat → Bool) (p rd : Nat) (buf : List Nat) (len : Nat) :
    decode Line.idle (readTail peer p rd buf len).2.2.2
      = [Frame.start] ++ xmitFrames peer p [rd]
          ++ (if (xmit peer p [rd]).1 then
                recvFrames peer (p + (xmit peer p [rd]).2.1) len ++ [Frame.stop]
              else [Frame.start, Frame.stop]) := by
  rw [decode, Mon.init, run_readTail _ _ _ _ _ _ _ rfl]
  simp

/-- The report on a read, entered with the bus idle. -/
theorem decode_readForm (peer : Nat → Bool) (p : Nat) (b : Nat) (pre : List Nat) (rd : Nat)
    (buf : List Nat) (len : Nat) :
    decode Line.idle (readForm peer p (b :: pre) rd buf len).2.2.2
      = [Frame.start] ++ xmitFrames peer p (b :: pre)
          ++ (if (xmit peer p (b :: pre)).1 then
                [Frame.start] ++ xmitFrames peer (p + (xmit peer p (b :: pre)).2.1) [rd]
                ++ (if (xmit peer (p + (xmit peer p (b :: pre)).2.1) [rd]).1 then
                      recvFrames peer (p + (xmit peer p (b :: pre)).2.1
                        + (xmit peer (p + (xmit peer p (b :: pre)).2.1) [rd]).2.1) len
                        ++ [Frame.stop]
                    else [Frame.start, Frame.stop])
              else [Frame.start, Frame.stop]) := by
  rw [decode, Mon.init, run_readForm _ _ _ _ _ _ _ _ _ rfl]
  simp

theorem sentBytes_nil : sentBytes [] = [] := rfl

theorem sentBytes_start (fs : List Frame) : sentBytes (Frame.start :: fs) = sentBytes fs := rfl

theorem sentBytes_stop (fs : List Frame) : sentBytes (Frame.stop :: fs) = sentBytes fs := rfl

theorem sentBytes_tx (b : Nat) (fs : List Frame) :
    sentBytes (Frame.tx b :: fs) = b :: sentBytes fs := rfl

theorem sentBytes_rx (b : Nat) (a : Bool) (fs : List Frame) :
    sentBytes (Frame.rx b a :: fs) = sentBytes fs := rfl

theorem receivedBytes_nil : receivedBytes [] = [] := rfl

theorem receivedBytes_start (fs : List Frame) :
    receivedBytes (Frame.start :: fs) = receivedBytes fs := rfl

theorem receivedBytes_stop (fs : List Frame) :
    receivedBytes (Frame.stop :: fs) = receivedBytes fs := rfl

theorem receivedBytes_tx (b : Nat) (fs : List Frame) :
    receivedBytes (Frame.tx b :: fs) = receivedBytes fs := rfl

theorem receivedBytes_rx (b : Nat) (a : Bool) (fs : List Frame) :
    receivedBytes (Frame.rx b a :: fs) = (b, a) :: receivedBytes fs := rfl

theorem status_eq_zero_iff (ok : Bool) : status ok = 0 ↔ ok = true := by
  cases ok <;> simp [status]

theorem status_eq_one_iff (ok : Bool) : status ok = 1 ↔ ok = false := by
  cases ok <;> simp [status]

theorem readTail_status (peer : Nat → Bool) (p rd : Nat) (buf : List Nat) (len : Nat) :
    (readTail peer p rd buf len).1 = status (xmit peer p [rd]).1 := by
  unfold readTail
  cases h : (xmit peer p [rd]).1 <;> simp [h, status]

theorem readForm_status (peer : Nat → Bool) (p : Nat) (pre : List Nat) (rd : Nat)
    (buf : List Nat) (len : Nat) :
    (readForm peer p pre rd buf len).1 = status (xmit peer p (pre ++ [rd])).1 := by
  unfold readForm
  rw [xmit_append_ok]
  cases h : (xmit peer p pre).1
  · simp [h, status]
  · simp [h, readTail_status]

theorem readTail_buf (peer : Nat → Bool) (p rd : Nat) (buf : List Nat) (len : Nat)
    (h : (readTail peer p rd buf len).1 ≠ 0) : (readTail peer p rd buf len).2.1 = buf := by
  unfold readTail at h ⊢
  cases hx : (xmit peer p [rd]).1 <;> simp_all

theorem readForm_buf (peer : Nat → Bool) (p : Nat) (pre : List Nat) (rd : Nat)
    (buf : List Nat) (len : Nat) (h : (readForm peer p pre rd buf len).1 ≠ 0) :
    (readForm peer p pre rd buf len).2.1 = buf := by
  unfold readForm at h ⊢
  cases hx : (xmit peer p pre).1
  · simp [hx]
  · simp only [hx, if_true] at h ⊢
    exact readTail_buf _ _ _ _ _ h

theorem sentBytes_readTail (peer : Nat → Bool) (p rd : Nat) (buf : List Nat) (len : Nat) :
    sentBytes (decode Line.idle (readTail peer p rd buf len).2.2.2)
      = sentBytes (xmitFrames peer p [rd]) := by
  rw [decode_readTail]
  cases h : (xmit peer p [rd]).1 <;>
    simp only [Bool.false_eq_true, if_false, if_true, sentBytes_append, sentBytes_nil,
      sentBytes_start, sentBytes_stop, sentBytes_tx, sentBytes_rx, sentBytes_recvFrames,
      List.append_nil, List.nil_append, List.cons_append, List.singleton_append]

theorem sentBytes_readForm (peer : Nat → Bool) (p : Nat) (b : Nat) (pre : List Nat) (rd : Nat)
    (buf : List Nat) (len : Nat) :
    sentBytes (decode Line.idle (readForm peer p (b :: pre) rd buf len).2.2.2)
      = sentBytes (xmitFrames peer p ((b :: pre) ++ [rd])) := by
  rw [decode_readForm, xmitFrames_append]
  cases h : (xmit peer p (b :: pre)).1
  · simp only [Bool.false_eq_true, if_false, sentBytes_append, sentBytes_nil, sentBytes_start,
    sentBytes_stop, sentBytes_tx, sentBytes_rx, sentBytes_recvFrames, List.append_nil,
    List.nil_append, List.cons_append, List.singleton_append]
  · cases h2 : (xmit peer (p + (xmit peer p (b :: pre)).2.1) [rd]).1 <;>
      simp only [Bool.false_eq_true, if_false, if_true, sentBytes_append, sentBytes_nil,
        sentBytes_start, sentBytes_stop, sentBytes_tx, sentBytes_rx, sentBytes_recvFrames,
        List.append_nil, List.nil_append, List.cons_append, List.singleton_append]

theorem receivedBytes_readTail (peer : Nat → Bool) (p rd : Nat) (buf : List Nat) (len : Nat)
    (h : (xmit peer p [rd]).1 = false) :
    receivedBytes (decode Line.idle (readTail peer p rd buf len).2.2.2) = [] := by
  rw [decode_readTail]
  simp only [h, Bool.false_eq_true, if_false, receivedBytes_append, receivedBytes_nil,
    receivedBytes_start, receivedBytes_stop, receivedBytes_tx, receivedBytes_rx,
    receivedBytes_xmitFrames, List.append_nil, List.nil_append, List.cons_append,
    List.singleton_append]

theorem receivedBytes_readForm (peer : Nat → Bool) (p : Nat) (b : Nat) (pre : List Nat)
    (rd : Nat) (buf : List Nat) (len : Nat)
    (h : (xmit peer p ((b :: pre) ++ [rd])).1 = false) :
    receivedBytes (decode Line.idle (readForm peer p (b :: pre) rd buf len).2.2.2) = [] := by
  rw [decode_readForm]
  rw [xmit_append_ok] at h
  cases h1 : (xmit peer p (b :: pre)).1
  · simp only [Bool.false_eq_true, if_false, receivedBytes_append, receivedBytes_nil,
    receivedBytes_start, receivedBytes_stop, receivedBytes_tx, receivedBytes_rx,
    receivedBytes_xmitFrames, List.append_nil, List.nil_append, List.cons_append,
    List.singleton_append]
  · rw [h1, Bool.true_and] at h
    simp only [h, Bool.false_eq_true, if_false, if_true, receivedBytes_append, receivedBytes_nil,
      receivedBytes_start, receivedBytes_stop, receivedBytes_tx, receivedBytes_rx,
      receivedBytes_xmitFrames, List.append_nil, List.nil_append, List.cons_append,
      List.singleton_append]

/-- The abort policy on a write in closed form. -/
theorem aborts_write_form (peer : Nat → Bool) (p : Nat) (b : Nat) (bs : List Nat)
    (hb : ∀ x ∈ b :: bs, x < 256) :
    AbortsAtFirstNack peer p (b :: bs) (status (xmit peer p (b :: bs)).1)
      (decode Line.idle (startEv ++ (xmit peer p (b :: bs)).2.2 ++ stopEv)) := by
  refine ⟨status_le _, ?_, ?_⟩
  · rw [status_eq_zero_iff, xmit_ok_iff]
  · intro hlt
    have hne : (xmit peer p (b :: bs)).1 = false := by
      cases h : (xmit peer p (b :: bs)).1
      · rfl
      · rw [xmit_ok_iff] at h; omega
    refine ⟨(status_eq_one_iff _).2 hne, ?_, ?_⟩
    · rw [decode_write_form, hne]
      simp only [Bool.false_eq_true, if_false, sentBytes_xmitFrames, sentBytes_append,
        sentBytes_nil, sentBytes_start, sentBytes_stop, sentBytes_tx, sentBytes_rx,
        sentBytes_recvFrames, List.append_nil, List.nil_append, List.cons_append,
        List.singleton_append]
      rw [map_mod_byte _ (fun x hx => hb x (List.mem_of_mem_take hx))]
    · rw [decode_write_form, hne]
      simp only [Bool.false_eq_true, if_false, receivedBytes_append, receivedBytes_nil,
        receivedBytes_start, receivedBytes_stop, receivedBytes_tx, receivedBytes_rx,
        receivedBytes_xmitFrames, List.append_nil, List.nil_append, List.cons_append,
        List.singleton_append]

/-- The abort policy on a read in closed form. -/
theorem aborts_readForm (peer : Nat → Bool) (p : Nat) (b : Nat) (pre : List Nat) (rd : Nat)
    (buf : List Nat) (len : Nat) (hb : ∀ x ∈ (b :: pre) ++ [rd], x < 256) :
    AbortsAtFirstNack peer p ((b :: pre) ++ [rd]) (readForm peer p (b :: pre) rd buf len).1
      (decode Line.idle (readForm peer p (b :: pre) rd buf len).2.2.2) := by
  rw [readForm_status]
  refine ⟨status_le _, ?_, ?_⟩
  · rw [status_eq_zero_iff, xmit_ok_iff]
  · intro hlt
    have hne : (xmit peer p ((b :: pre) ++ [rd])).1 = false := by
      cases h : (xmit peer p ((b :: pre) ++ [rd])).1
      · rfl
      · rw [xmit_ok_iff] at h; omega
    refine ⟨(status_eq_one_iff _).2 hne, ?_, receivedBytes_readForm _ _ _ _ _ _ _ hne⟩
    rw [sentBytes_readForm, sentBytes_xmitFrames,
      map_mod_byte _ (fun x hx => hb x (List.mem_of_mem_take hx))]

/-- The abort policy on a read without register phase, in closed form. -/
theorem aborts_readTail (peer : Nat → Bool) (p rd : Nat) (buf : List Nat) (len : Nat)
    (hb : rd < 256) :
    AbortsAtFirstNack peer p [rd] (readTail peer p rd buf len).1
      (decode Line.idle (readTail peer p rd buf len).2.2.2) := by
  rw [readTail_status]
  refine ⟨status_le _, ?_, ?_⟩
  · rw [status_eq_zero_iff, xmit_ok_iff]
  · intro hlt
    have hne : (xmit peer p [rd]).1 = false := by
      cases h : (xmit peer p [rd]).1
      · rfl
      · rw [xmit_ok_iff] at h; omega
    refine ⟨(status_eq_one_iff _).2 hne, ?_, receivedBytes_readTail _ _ _ _ _ hne⟩
    rw [sentBytes_readTail, sentBytes_xmitFrames,
      map_mod_byte _ (fun x hx => by
        have := List.mem_of_mem_take hx
        simp at this
        omega)]

/-- C2: each of the six register-protocol operations returns 0 exactly when
every byte of its send sequence is acknowledged; when the first byte not
acknowledged comes after `k - 1` acknowledged ones the operation returns 1,
the bytes the analyser sees sent from the idle bus are exactly the first `k`
bytes of the send sequence, and no byte is received. -/
theorem first_nack_aborts (s : Bus) (addr reg reg16 len : Nat) (buf : List Nat)
    (haddr : addr < 256) (hreg : reg < 256) (hlen : len ≤ buf.length)
    (hbuf : ∀ x ∈ buf, x < 256) :
    AbortsAtFirstNack s.peer s.polls (addr :: buf.take len)
      (iic_write_cmd addr buf len s).1
      (decode Line.idle (produced s (iic_write_cmd addr buf len s).2)) ∧
    AbortsAtFirstNack s.peer s.polls (addr :: reg :: buf.take len)
      (iic_write addr reg buf len s).1
      (decode Line.idle (produced s (iic_write addr reg buf len s).2)) ∧
    AbortsAtFirstNack s.peer s.polls
      (addr :: ((reg16 >>> 8) &&& 0xFF) :: (reg16 &&& 0xFF) :: buf.take len)
      (iic_write_address16 addr reg16 buf len s).1
      (decode Line.idle (produced s (iic_write_address16 addr reg16 buf len s).2)) ∧
    AbortsAtFirstNack s.peer s.polls [addr, reg, (addr + 1) % 256]
      (iic_read addr reg buf len s).1
      (decode Line.idle (produced s (iic_read addr reg buf len s).2.2)) ∧
    AbortsAtFirstNack s.peer s.polls
      [addr, (reg16 >>> 8) &&& 0xFF, reg16 &&& 0xFF, (addr + 1) % 256]
      (iic_read_address16 addr reg16 buf len s).1
      (decode Line.idle (produced s (iic_read_address16 addr reg16 buf len s).2.2)) ∧
    AbortsAtFirstNack s.peer s.polls [(addr + 1) % 256]
      (iic_read_cmd addr buf len s).1
      (decode Line.idle (produced s (iic_read_cmd addr buf len s).2.2)) := by
  have hhi : (reg16 >>> 8) &&& 0xFF < 256 := Nat.lt_of_le_of_lt Nat.and_le_right (by decide)
  have hlo : reg16 &&& 0xFF < 256 := Nat.lt_of_le_of_lt Nat.and_le_right (by decide)
  have hrd : (addr + 1) % 256 < 256 := Nat.mod_lt _ (by decide)
  have htake : ∀ x ∈ buf.take len, x < 256 := fun x hx => hbuf x (List.mem_of_mem_take hx)
  refine ⟨?_, ?_, ?_, ?_, ?_, ?_⟩
  · rw [iic_write_cmd_eq, dataBytes_eq_take buf len hlen]
    simp only [produced_adv]
    apply aborts_write_form
    intro x hx
    rcases List.mem_cons.1 hx with h | h
    · omega
    · exact htake x h
  · rw [iic_write_eq, dataBytes_eq_take buf len hlen]
    simp only [produced_adv]
    apply aborts_write_form
    intro x hx
    simp only [List.mem_cons] at hx
    rcases hx with h | h | h
    · omega
    · omega
    · exact htake x h
  · rw [iic_write_address16_eq, dataBytes_eq_take buf len hlen]
    simp only [produced_adv]
    apply aborts_write_form
    intro x hx
    simp only [List.mem_cons] at hx
    rcases hx with h | h | h | h
    · omega
    · omega
    · omega
    · exact htake x h
  · rw [iic_read_eq]
    simp only [produced_adv]
    apply aborts_readForm _ _ addr [reg]
    intro x hx
    simp at hx
    omega
  · rw [iic_read_address16_eq]
    simp only [produced_adv]
    apply aborts_readForm _ _ addr [(reg16 >>> 8) &&& 0xFF, reg16 &&& 0xFF]
    intro x hx
    simp at hx
    omega
  · rw [iic_read_cmd_eq]
    simp only [produced_adv]
    exact aborts_readTail _ _ _ _ _ hrd

/-- Instance of C2: `iic_write(0x50, 0x10, [0x01], 1)` against a peer that
acknowledges the address byte and never the register byte returns 1, and only
0x50 and 0x10 are sent. -/
theorem first_nack_aborts_witness :
    (iic_write 0x50 0x10 [0x01] 1 (Bus.fresh peerAckFirstOnly)).1 = 1 ∧
    sentBytes (decode Line.idle (produced (Bus.fresh peerAckFirstOnly)
      (iic_write 0x50 0x10 [0x01] 1 (Bus.fresh peerAckFirstOnly)).2)) = [0x50, 0x10] ∧
    receivedBytes (decode Line.idle (produced (Bus.fresh peerAckFirstOnly)
      (iic_write 0x50 0x10 [0x01] 1 (Bus.fresh peerAckFirstOnly)).2)) = [] := by
  have hf0 : firstLow peerAckFirstOnly 0 501 = some 0 := rfl
  have hf1 : firstLow peerAckFirstOnly (0 + (0 + 1)) 501 = none :=
    (firstLow_eq_none_iff _ _ _).2 (fun j _ => by simp [peerAckFirstOnly])
  have ha : ackedCount peerAckFirstOnly 0 3 = 1 := by
    rw [ackedCount, hf0]
    simp only
    rw [ackedCount, hf1]
    rfl
  have h : ackedCount peerAckFirstOnly 0 3 < 3 →
      (iic_write 0x50 0x10 [0x01] 1 (Bus.fresh peerAckFirstOnly)).1 = 1 ∧
      sentBytes (decode Line.idle (produced (Bus.fresh peerAckFirstOnly)
        (iic_write 0x50 0x10 [0x01] 1 (Bus.fresh peerAckFirstOnly)).2))
        = List.take (ackedCount peerAckFirstOnly 0 3 + 1) [0x50, 0x10, 0x01] ∧
      receivedBytes (decode Line.idle (produced (Bus.fresh peerAckFirstOnly)
        (iic_write 0x50 0x10 [0x01] 1 (Bus.fresh peerAckFirstOnly)).2)) = [] :=
    (first_nack_aborts (Bus.fresh peerAckFirstOnly) 0x50 0x10 0 1 [0x01]
      (by decide) (by decide) (by decide) (by decide)).2.1.2.2
  rw [ha] at h
  exact h (by decide)

theorem xmitFrames_ok (peer : Nat → Bool) (bs : List Nat) : ∀ p, (xmit peer p bs).1 = true →
    xmitFrames peer p bs = bs.map (fun b => Frame.tx (b % 256)) := by
  induction bs with
  | nil => intro p _; rfl
  | cons b bs ih =>
    intro p
    rw [xmit, xmitFrames]
    cases firstLow peer p 501 with
    | none => simp
    | some j =>
      intro h
      simp only [List.map_cons, List.cons.injEq, true_and]
      exact ih _ h

theorem map_tx_mod (bs : List Nat) (h : ∀ x ∈ bs, x < 256) :
    bs.map (fun b => Frame.tx (b % 256)) = bs.map Frame.tx := by
  apply List.map_congr_left
  intro x hx
  rw [Nat.mod_eq_of_lt (h x hx)]

/-- C4: when the peer acknowledges every byte, `iic_write_cmd(addr, buf, len)`
returns 0 and what the analyser sees from the idle bus is one START, the bytes
`addr, buf[0], ..., buf[len-1]` in this order, one STOP; `iic_write(addr, reg,
buf, len)` returns 0 and shows one START, the bytes `addr, reg, buf[0], ...,
buf[len-1]`, one STOP. -/
theorem write_sends_bytes_in_order (s : Bus) (addr reg len : Nat) (buf : List Nat)
    (haddr : addr < 256) (hreg : reg < 256) (hlen : len ≤ buf.length)
    (hbuf : ∀ x ∈ buf, x < 256) :
    (ackedCount s.peer s.polls (len + 1) = len + 1 →
      (iic_write_cmd addr buf len s).1 = 0 ∧
      decode Line.idle (produced s (iic_write_cmd addr buf len s).2)
        = [Frame.start] ++ (addr :: buf.take len).map Frame.tx ++ [Frame.stop]) ∧
    (ackedCount s.peer s.polls (len + 2) = len + 2 →
      (iic_write addr reg buf len s).1 = 0 ∧
      decode Line.idle (produced s (iic_write addr reg buf len s).2)
        = [Frame.start] ++ (addr :: reg :: buf.take len).map Frame.tx ++ [Frame.stop]) := by
  have htake : ∀ x ∈ buf.take len, x < 256 := fun x hx => hbuf x (List.mem_of_mem_take hx)
  have hl : (buf.take len).length = len := by simp [hlen]
  constructor
  · intro hack
    have hok : (xmit s.peer s.polls (addr :: buf.take len)).1 = true := by
      rw [xmit_ok_iff, List.length_cons, hl]
      exact hack
    rw [iic_write_cmd_eq, dataBytes_eq_take buf len hlen]
    simp only [produced_adv]
    rw [decode_write_form, hok, xmitFrames_ok _ _ _ hok, map_tx_mod]
    · exact ⟨rfl, rfl⟩
    · intro x hx
      rcases List.mem_cons.1 hx with h | h
      · omega
      · exact htake x h
  · intro hack
    have hok : (xmit s.peer s.polls (addr :: reg :: buf.take len)).1 = true := by
      rw [xmit_ok_iff, List.length_cons, List.length_cons, hl]
      exact hack
    rw [iic_write_eq, dataBytes_eq_take buf len hlen]
    simp only [produced_adv]
    rw [decode_write_form, hok, xmitFrames_ok _ _ _ hok, map_tx_mod]
    · exact ⟨rfl, rfl⟩
    · intro x hx
      simp only [List.mem_cons] at hx
      rcases hx with h | h | h
      · omega
      · omega
      · exact htake x h

/-- Instance of C4: `iic_write(0x50, 0x10, [0x01, 0x02], 2)` against a peer
that acknowledges every byte. -/
theorem write_sends_bytes_in_order_witness :
    (iic_write 0x50 0x10 [0x01, 0x02] 2 (Bus.fresh peerAckAlways)).1 = 0 ∧
    decode Line.idle (produced (Bus.fresh peerAckAlways)
        (iic_write 0x50 0x10 [0x01, 0x02] 2 (Bus.fresh peerAckAlways)).2)
      = [Frame.start, Frame.tx 0x50, Frame.tx 0x10, Frame.tx 0x01, Frame.tx 0x02,
         Frame.stop] :=
  (write_sends_bytes_in_order (Bus.fresh peerAckAlways) 0x50 0x10 2 [0x01, 0x02]
    (by decide) (by decide) (by decide) (by decide)).2 rfl

/-- C9: if `iic_read`, `iic_read_address16` or `iic_read_cmd` returns 1, the
caller's buffer is unchanged and the analyser sees no byte received; and once
every byte of the address and register phase is acknowledged the operation
returns 0, the levels the peer presents afterwards playing no part. -/
theorem read_failure_only_from_address_phase (s : Bus) (addr reg reg16 len : Nat)
    (buf : List Nat) :
    ((iic_read addr reg buf len s).1 = 1 →
      (iic_read addr reg buf len s).2.1 = buf ∧
      receivedBytes (decode Line.idle (produced s (iic_read addr reg buf len s).2.2)) = []) ∧
    (ackedCount s.peer s.polls 3 = 3 → (iic_read addr reg buf len s).1 = 0) ∧
    ((iic_read_address16 addr reg16 buf len s).1 = 1 →
      (iic_read_address16 addr reg16 buf len s).2.1 = buf ∧
      receivedBytes
        (decode Line.idle (produced s (iic_read_address16 addr reg16 buf len s).2.2)) = []) ∧
    (ackedCount s.peer s.polls 4 = 4 → (iic_read_address16 addr reg16 buf len s).1 = 0) ∧
    ((iic_read_cmd addr buf len s).1 = 1 →
      (iic_read_cmd addr buf len s).2.1 = buf ∧
      receivedBytes (decode Line.idle (produced s (iic_read_cmd addr buf len s).2.2)) = []) ∧
    (ackedCount s.peer s.polls 1 = 1 → (iic_read_cmd addr buf len s).1 = 0) := by
  refine ⟨?_, ?_, ?_, ?_, ?_, ?_⟩
  · rw [iic_read_eq]
    simp only [produced_adv]
    intro h
    refine ⟨readForm_buf _ _ _ _ _ _ (by omega), ?_⟩
    rw [readForm_status, status_eq_one_iff] at h
    exact receivedBytes_readForm _ _ addr [reg] _ _ _ h
  · rw [iic_read_eq]
    simp only
    intro h
    rw [readForm_status, status_eq_zero_iff, xmit_ok_iff]
    exact h
  · rw [iic_read_address16_eq]
    simp only [produced_adv]
    intro h
    refine ⟨readForm_buf _ _ _ _ _ _ (by omega), ?_⟩
    rw [readForm_status, status_eq_one_iff] at h
    exact receivedBytes_readForm _ _ addr [(reg16 >>> 8) &&& 0xFF, reg16 &&& 0xFF] _ _ _ h
  · rw [iic_read_address16_eq]
    simp only
    intro h
    rw [readForm_status, status_eq_zero_iff, xmit_ok_iff]
    exact h
  · rw [iic_read_cmd_eq]
    simp only [produced_adv]
    intro h
    refine ⟨readTail_buf _ _ _ _ _ (by omega), ?_⟩
    rw [readTail_status, status_eq_one_iff] at h
    exact receivedBytes_readTail _ _ _ _ _ h
  · rw [iic_read_cmd_eq]
    simp only
    intro h
    rw [readTail_status, status_eq_zero_iff, xmit_ok_iff]
    exact h

/-- Instance of C9: against a peer that acknowledges the address phase of
`iic_read_cmd(0x50, buf, 2)` the operation returns 0 although the peer holds
SDA high through the whole data phase. -/
theorem read_failure_only_from_address_phase_witness :
    (iic_read_cmd 0x50 [0, 0] 2 (Bus.fresh peerAckFirstOnly)).1 = 0 :=
  (read_failure_only_from_address_phase (Bus.fresh peerAckFirstOnly) 0x50 0 0 2
    [0, 0]).2.2.2.2.2 rfl

theorem and_ff_eq_mod (x : Nat) : x &&& 0xFF = x % 256 := by
  have := Nat.and_pow_two_sub_one_eq_mod x 8
  simpa using this

theorem hi_byte_eq (reg : Nat) (h : reg < 65536) : (reg >>> 8) &&& 0xFF = reg / 256 := by
  rw [and_ff_eq_mod, Nat.shiftRight_eq_div_pow]
  simp
  omega

theorem acked_two (peer : Nat → Bool) (p : Nat) (h : ackedCount peer p 2 = 2) :
    ∃ j1 j2, firstLow peer p 501 = some j1 ∧ firstLow peer (p + (j1 + 1)) 501 = some j2 := by
  rw [ackedCount] at h
  cases h1 : firstLow peer p 501 with
  | none => rw [h1] at h; simp at h
  | some j1 =>
    rw [h1] at h
    simp only at h
    rw [ackedCount] at h
    cases h2 : firstLow peer (p + (j1 + 1)) 501 with
    | none => rw [h2] at h; simp at h
    | some j2 => exact ⟨j1, j2, rfl, h2⟩

/-- After two acknowledged bytes `xmit` goes on to the third. -/
theorem xmit_three (peer : Nat → Bool) (p a b c : Nat) (bs : List Nat)
    (h : ackedCount peer p 2 = 2) :
    ∃ j1 j2 rest,
      (xmit peer p (a :: b :: c :: bs)).2.2
        = (sendEv a ++ (waitPre ++ ackedEv j1)) ++ ((sendEv b ++ (waitPre ++ ackedEv j2))
            ++ (sendEv c ++ (waitPre ++ rest))) ∧
      xmitFrames peer p (a :: b :: c :: bs)
        = Frame.tx (a % 256) :: Frame.tx (b % 256) :: Frame.tx (c % 256)
            :: (xmitFrames peer p (a :: b :: c :: bs)).drop 3 := by
  obtain ⟨j1, j2, h1, h2⟩ := acked_two peer p h
  rw [xmit, xmitFrames, h1]
  simp only
  rw [xmit, xmitFrames, h2]
  simp only
  rw [xmit, xmitFrames]
  cases firstLow peer (p + (j1 + 1) + (j2 + 1)) 501 with
  | none => exact ⟨j1, j2, timeoutEv 501, rfl, rfl⟩
  | some j3 =>
    refine ⟨j1, j2, ackedEv j3 ++ (xmit peer (p + (j1 + 1) + (j2 + 1) + (j3 + 1)) bs).2.2, ?_,
      rfl⟩
    simp only [List.append_assoc]

/-- C5: for every 16-bit register address `reg`, once the device address and
the high register byte are acknowledged, `iic_write_address16` and
`iic_read_address16` send `reg >> 8` and then `reg & 0xFF` right after the
device address, each byte followed by its own wait for acknowledge, and
`high * 256 + low = reg`; with `len = 0` and all three bytes acknowledged
`iic_write_address16` returns 0 and the analyser sees START, the three bytes,
STOP. -/
theorem address16_high_byte_first (s : Bus) (addr reg len : Nat) (buf : List Nat)
    (haddr : addr < 256) (hreg : reg < 65536)
    (hack : ackedCount s.peer s.polls 2 = 2) :
    ((reg >>> 8) &&& 0xFF) * 256 + (reg &&& 0xFF) = reg ∧
    (reg >>> 8) &&& 0xFF = reg / 256 ∧ reg &&& 0xFF = reg % 256 ∧
    (sentBytes (decode Line.idle (produced s (iic_write_address16 addr reg buf len s).2))).take 3
      = [addr, (reg >>> 8) &&& 0xFF, reg &&& 0xFF] ∧
    (sentBytes
        (decode Line.idle (produced s (iic_read_address16 addr reg buf len s).2.2))).take 3
      = [addr, (reg >>> 8) &&& 0xFF, reg &&& 0xFF] ∧
    (∃ j1 j2 rest, produced s (iic_write_address16 addr reg buf len s).2
      = startEv ++ (sendEv addr ++ (waitPre ++ ackedEv j1))
          ++ (sendEv ((reg >>> 8) &&& 0xFF) ++ (waitPre ++ ackedEv j2))
          ++ (sendEv (reg &&& 0xFF) ++ (waitPre ++ rest))) ∧
    (∃ j1 j2 rest, produced s (iic_read_address16 addr reg buf len s).2.2
      = startEv ++ (sendEv addr ++ (waitPre ++ ackedEv j1))
          ++ (sendEv ((reg >>> 8) &&& 0xFF) ++ (waitPre ++ ackedEv j2))
          ++ (sendEv (reg &&& 0xFF) ++ (waitPre ++ rest))) ∧
    (len = 0 → ackedCount s.peer s.polls 3 = 3 →
      (iic_write_address16 addr reg buf len s).1 = 0 ∧
      decode Line.idle (produced s (iic_write_address16 addr reg buf len s).2)
        = [Frame.start, Frame.tx addr, Frame.tx ((reg >>> 8) &&& 0xFF),
           Frame.tx (reg &&& 0xFF), Frame.stop]) := by
  have hhi := hi_byte_eq reg hreg
  have hlo := and_ff_eq_mod reg
  have hhi2 : (reg >>> 8) &&& 0xFF < 256 := by rw [hhi]; omega
  have hlo2 : reg &&& 0xFF < 256 := by rw [hlo]; omega
  have m1 : addr % 256 = addr := Nat.mod_eq_of_lt haddr
  have m2 := Nat.mod_eq_of_lt hhi2
  have m3 := Nat.mod_eq_of_lt hlo2
  refine ⟨by rw [hhi, hlo]; omega, hhi, hlo, ?_, ?_, ?_, ?_, ?_⟩
  · obtain ⟨j1, j2, rest, _, hfr⟩ := xmit_three s.peer s.polls addr ((reg >>> 8) &&& 0xFF)
      (reg &&& 0xFF) (dataBytes buf 0 len) hack
    rw [iic_write_address16_eq]
    simp only [produced_adv]
    rw [decode_write_form, hfr, m1, m2, m3]
    simp only [sentBytes_append, sentBytes_start, sentBytes_tx, sentBytes_nil, List.nil_append,
      List.cons_append, List.take_succ_cons, List.take_zero]
  · obtain ⟨j1, j2, rest, _, hfr⟩ := xmit_three s.peer s.polls addr ((reg >>> 8) &&& 0xFF)
      (reg &&& 0xFF) [(addr + 1) % 256] hack
    rw [iic_read_address16_eq]
    simp only [produced_adv]
    rw [sentBytes_readForm]
    simp only [List.cons_append, List.nil_append]
    rw [hfr, m1, m2, m3]
    simp only [sentBytes_tx, List.take_succ_cons, List.take_zero]
  · obtain ⟨j1, j2, rest, htr, _⟩ := xmit_three s.peer s.polls addr ((reg >>> 8) &&& 0xFF)
      (reg &&& 0xFF) (dataBytes buf 0 len) hack
    rw [iic_write_address16_eq]
    simp only [produced_adv]
    rw [htr]
    exact ⟨j1, j2, rest ++ stopEv, by simp only [List.append_assoc]⟩
  · obtain ⟨j1, j2, h1, h2⟩ := acked_two s.peer s.polls hack
    rw [iic_read_address16_eq]
    simp only [produced_adv]
    unfold readForm
    rw [xmit, h1]
    simp only
    rw [xmit, h2]
    simp only
    rw [xmit]
    cases h3 : firstLow s.peer (s.polls + (j1 + 1) + (j2 + 1)) 501 with
    | none =>
      exact ⟨j1, j2, timeoutEv 501 ++ stopEv, by simp [List.append_assoc]⟩
    | some j3 =>
      simp only [xmit]
      exact ⟨j1, j2, _, by simp only [List.append_assoc, List.append_nil]; rfl⟩
  · intro hl h3
    subst hl
    have hok : (xmit s.peer s.polls
        (addr :: ((reg >>> 8) &&& 0xFF) :: (reg &&& 0xFF) :: dataBytes buf 0 0)).1 = true := by
      rw [xmit_ok_iff]
      exact h3
    rw [iic_write_address16_eq]
    simp only [produced_adv]
    rw [decode_write_form, hok, xmitFrames_ok _ _ _ hok]
    simp [status, dataBytes, m1, m2, m3]

/-- Instance of C5: `iic_write_address16(0x50, 0x1234, buf, 0)` against a peer
that acknowledges every byte sends 0x12 and then 0x34 after the device
address and returns 0. -/
theorem address16_high_byte_first_witness :
    (iic_write_address16 0x50 0x1234 [] 0 (Bus.fresh peerAckAlways)).1 = 0 ∧
    decode Line.idle (produced (Bus.fresh peerAckAlways)
        (iic_write_address16 0x50 0x1234 [] 0 (Bus.fresh peerAckAlways)).2)
      = [Frame.start, Frame.tx 0x50, Frame.tx 0x12, Frame.tx 0x34, Frame.stop] :=
  (address16_high_byte_first (Bus.fresh peerAckAlways) 0x50 0x1234 0 [] (by decide)
    (by decide) rfl).2.2.2.2.2.2.2 rfl rfl

/-! ### The data phase of a read -/

theorem xmit_append_polls (peer : Nat → Bool) (a b : List Nat) : ∀ p,
    (xmit peer p a).1 = true →
    (xmit peer p (a ++ b)).2.1 = (xmit peer p a).2.1 + (xmit peer (p + (xmit peer p a).2.1) b).2.1 := by
  induction a with
  | nil => intro p _; simp [xmit]
  | cons x a ih =>
    intro p
    rw [List.cons_append, xmit, xmit]
    cases firstLow peer p 501 with
    | none => simp
    | some j =>
      intro h
      simp only at h ⊢
      rw [ih _ h]
      simp only [Nat.add_assoc]

theorem recvFrames_eq_map (peer : Nat → Bool) (n : Nat) : ∀ p,
    recvFrames peer p n
      = (List.range n).map
          (fun i => Frame.rx (readVal peer (p + 8 * i) 8 0) (decide (i + 1 < n))) := by
  induction n with
  | zero => intro p; rfl
  | succ n ih =>
    intro p
    rw [recvFrames, ih, List.range_succ_eq_map, List.map_cons, List.map_map]
    congr 1
    · rw [Nat.mul_zero, Nat.add_zero]
      congr 1
      exact decide_eq_decide.2 (by omega)
    · apply List.map_congr_left
      intro i _
      simp only [Function.comp, Nat.succ_eq_add_one]
      have e : p + 8 + 8 * i = p + 8 * (i + 1) := by omega
      rw [e]
      congr 1
      exact decide_eq_decide.2 (by omega)

theorem recvMem_length (peer : Nat → Bool) (n : Nat) : ∀ (p ptr : Nat) (mem : List Nat),
    (recvMem peer p n ptr mem).length = mem.length := by
  induction n with
  | zero => intro p ptr mem; rfl
  | succ n ih => intro p ptr mem; rw [recvMem, ih, List.length_set]

theorem recvMem_getElem_opt (peer : Nat → Bool) (n : Nat) : ∀ (p ptr : Nat) (mem : List Nat)
    (i : Nat), ptr + n ≤ mem.length →
    (recvMem peer p n ptr mem)[i]?
      = if ptr ≤ i ∧ i < ptr + n then some (readVal peer (p + 8 * (i - ptr)) 8 0)
        else mem[i]? := by
  induction n with
  | zero =>
    intro p ptr mem i _
    have : ¬ (ptr ≤ i ∧ i < ptr + 0) := by omega
    rw [recvMem, if_neg this]
  | succ n ih =>
    intro p ptr mem i h
    rw [recvMem, ih _ _ _ _ (by rw [List.length_set]; omega), List.getElem?_set]
    by_cases h1 : ptr + 1 ≤ i ∧ i < ptr + 1 + n
    · have h2 : ptr ≤ i ∧ i < ptr + (n + 1) := by omega
      have e : p + 8 + 8 * (i - (ptr + 1)) = p + 8 * (i - ptr) := by omega
      rw [if_pos h1, if_pos h2, e]
    · rw [if_neg h1]
      by_cases h3 : ptr = i
      · have h2 : ptr ≤ i ∧ i < ptr + (n + 1) := by omega
        have h4 : ptr < mem.length := by omega
        have e : i - ptr = 0 := by omega
        rw [if_pos h3, if_pos h4, if_pos h2, e]
        simp
      · have h2 : ¬ (ptr ≤ i ∧ i < ptr + (n + 1)) := by omega
        rw [if_neg h3, if_neg h2]

/-- The buffer after the data loop: the received bytes, then what was there
beyond `n`. -/
theorem recvMem_eq (peer : Nat → Bool) (n p : Nat) (mem : List Nat) (h : n ≤ mem.length) :
    recvMem peer p n 0 mem
      = (List.range n).map (fun i => readVal peer (p + 8 * i) 8 0) ++ mem.drop n := by
  apply List.ext_getElem?
  intro i
  rw [recvMem_getElem_opt _ _ _ _ _ _ (by omega), List.getElem?_append]
  simp only [Nat.zero_le, true_and, Nat.zero_add, Nat.sub_zero, List.length_map,
    List.length_range]
  by_cases hi : i < n
  · rw [if_pos hi, if_pos hi, List.getElem?_map, List.getElem?_range hi]
    rfl
  · rw [if_neg hi, if_neg hi, List.getElem?_drop]
    congr 1
    omega

theorem readVal_of_bits (peer : Nat → Bool) (p x : Nat) (hx : x < 256)
    (h : ∀ j, j < 8 → peer (p + j) = x.testBit (7 - j)) : readVal peer p 8 0 = x := by
  rw [readVal_eight, ← assemble_bitsMsbFirst x hx, bitsMsbFirst]
  have h0 := h 0 (by decide)
  rw [Nat.add_zero] at h0
  rw [h0, h 1 (by decide), h 2 (by decide), h 3 (by decide), h 4 (by decide), h 5 (by decide),
    h 6 (by decide), h 7 (by decide)]

theorem range_map_getD (d : List Nat) : (List.range d.length).map (fun i => d.getD i 0) = d := by
  apply List.ext_getElem
  · simp
  · intro i h1 h2
    simp [List.getD_eq_getElem?_getD, List.getElem?_eq_getElem h2]

/-- C3: for every `addr`, `reg` and `len` (so for every `len ≥ 1`), against a
peer that acknowledges the three address and register bytes and then presents
the bytes
`d[0..len-1]` most significant bit first, `iic_read(addr, reg, buf, len)`
returns 0 and stores `d` in the first `len` places of the buffer; what the
analyser sees from the idle bus is START, `addr`, `reg`, a second START, the
read address `addr + 1` (as a `uint8_t`), then each received byte answered
with ACK except the last, answered with NACK, then STOP.  A one-byte read
answers NACK only. -/
theorem read_stores_and_acknowledges (s : Bus) (addr reg len : Nat) (buf d : List Nat)
    (haddr : addr < 256) (hreg : reg < 256) (hlen : len ≤ buf.length)
    (hd : d.length = len) (hdb : ∀ x ∈ d, x < 256)
    (hack : ackedCount s.peer s.polls 3 = 3)
    (hdata : ∀ i, i < len → ∀ j, j < 8 →
      s.peer (pollsAfter s.peer s.polls 3 + 8 * i + j) = (d.getD i 0).testBit (7 - j)) :
    (iic_read addr reg buf len s).1 = 0 ∧
    (iic_read addr reg buf len s).2.1 = d ++ buf.drop len ∧
    decode Line.idle (produced s (iic_read addr reg buf len s).2.2)
      = [Frame.start, Frame.tx addr, Frame.tx reg, Frame.start, Frame.tx ((addr + 1) % 256)]
        ++ (List.range len).map (fun i => Frame.rx (d.getD i 0) (decide (i + 1 < len)))
        ++ [Frame.stop] ∧
    (addr + 1 < 256 → (addr + 1) % 256 = addr + 1) ∧
    (len = 1 →
      receivedBytes (decode Line.idle (produced s (iic_read addr reg buf len s).2.2))
        = [(d.getD 0 0, false)]) := by
  have hok : (xmit s.peer s.polls ([addr, reg] ++ [(addr + 1) % 256])).1 = true := by
    rw [xmit_ok_iff]
    exact hack
  have hok12 := hok
  rw [xmit_append_ok, Bool.and_eq_true] at hok12
  obtain ⟨hok1, hok2⟩ := hok12
  have hq : s.polls + (xmit s.peer s.polls [addr, reg]).2.1
      + (xmit s.peer (s.polls + (xmit s.peer s.polls [addr, reg]).2.1)
          [(addr + 1) % 256]).2.1 = pollsAfter s.peer s.polls 3 := by
    have := xmit_polls s.peer ([addr, reg] ++ [(addr + 1) % 256]) s.polls hok
    rw [xmit_append_polls _ _ _ _ hok1] at this
    have e : ([addr, reg] ++ [(addr + 1) % 256]).length = 3 := rfl
    rw [e] at this
    rw [← this]
    simp only [Nat.add_assoc]
  have hval : ∀ i, i < len →
      readVal s.peer (pollsAfter s.peer s.polls 3 + 8 * i) 8 0 = d.getD i 0 := by
    intro i hi
    apply readVal_of_bits
    · apply hdb
      rw [List.getD_eq_getElem?_getD, List.getElem?_eq_getElem (by omega)]
      exact List.getElem_mem _
    · intro j hj
      exact hdata i hi j hj
  have hfr : decode Line.idle (readForm s.peer s.polls [addr, reg] ((addr + 1) % 256) buf
      len).2.2.2
      = [Frame.start, Frame.tx addr, Frame.tx reg, Frame.start, Frame.tx ((addr + 1) % 256)]
        ++ (List.range len).map (fun i => Frame.rx (d.getD i 0) (decide (i + 1 < len)))
        ++ [Frame.stop] := by
    rw [decode_readForm, hok1, hok2, xmitFrames_ok _ _ _ hok1, xmitFrames_ok _ _ _ hok2, hq,
      recvFrames_eq_map]
    have e : (List.range len).map (fun i =>
          Frame.rx (readVal s.peer (pollsAfter s.peer s.polls 3 + 8 * i) 8 0)
            (decide (i + 1 < len)))
        = (List.range len).map (fun i => Frame.rx (d.getD i 0) (decide (i + 1 < len))) := by
      apply List.map_congr_left
      intro i hi
      rw [hval i (List.mem_range.1 hi)]
    rw [e]
    simp [Nat.mod_eq_of_lt haddr, Nat.mod_eq_of_lt hreg]
  rw [iic_read_eq]
  simp only [produced_adv]
  refine ⟨?_, ?_, hfr, fun h => Nat.mod_eq_of_lt h, ?_⟩
  · rw [readForm_status, status_eq_zero_iff]
    exact hok
  · unfold readForm readTail
    simp only [hok1, hok2, if_true, hq]
    rw [recvMem_eq _ _ _ _ hlen]
    have e : (List.range len).map (fun i =>
          readVal s.peer (pollsAfter s.peer s.polls 3 + 8 * i) 8 0)
        = (List.range len).map (fun i => d.getD i 0) := by
      apply List.map_congr_left
      intro i hi
      rw [hval i (List.mem_range.1 hi)]
    rw [e, ← hd, range_map_getD]
  · intro h1
    rw [hfr, h1]
    rfl

/-- Instance of C3: `iic_read(0x50, 0x10, buf, 3)` against a peer that
acknowledges the address and register phases and returns 0xAA, 0xBB, 0xCC. -/
theorem read_stores_and_acknowledges_witness :
    (iic_read 0x50 0x10 [0, 0, 0] 3 (Bus.fresh (peerServing [0xAA, 0xBB, 0xCC]))).1 = 0 ∧
    (iic_read 0x50 0x10 [0, 0, 0] 3 (Bus.fresh (peerServing [0xAA, 0xBB, 0xCC]))).2.1
      = [0xAA, 0xBB, 0xCC] ∧
    decode Line.idle (produced (Bus.fresh (peerServing [0xAA, 0xBB, 0xCC]))
        (iic_read 0x50 0x10 [0, 0, 0] 3 (Bus.fresh (peerServing [0xAA, 0xBB, 0xCC]))).2.2)
      = [Frame.start, Frame.tx 0x50, Frame.tx 0x10, Frame.start, Frame.tx 0x51,
         Frame.rx 0xAA true, Frame.rx 0xBB true, Frame.rx 0xCC false, Frame.stop] :=
  have h := read_stores_and_acknowledges (Bus.fresh (peerServing [0xAA, 0xBB, 0xCC]))
    0x50 0x10 3 [0, 0, 0] [0xAA, 0xBB, 0xCC] (by decide) (by decide) (by decide)
    rfl (by decide) rfl (by decide)
  ⟨h.1, h.2.1, h.2.2.1⟩

/-! ### Empty data phase and read address -/

theorem xmit_one_frames (peer : Nat → Bool) (p b : Nat) :
    ∃ rest, xmitFrames peer p [b] = Frame.tx (b % 256) :: rest := by
  rw [xmitFrames]
  cases firstLow peer p 501 with
  | none => exact ⟨_, rfl⟩
  | some j => exact ⟨_, rfl⟩

/-- C11: called with `len = 0` against a peer that acknowledges every byte,
each of the six register-protocol operations returns 0; from the idle bus the
analyser sees its whole address and register handshake and the STOP, with no
data byte sent and none received (`iic_read_cmd` sends only the read
address); the read operations leave the buffer as it was. -/
theorem zero_length_transfer (s : Bus) (addr reg reg16 : Nat) (buf : List Nat)
    (haddr : addr < 256) (hreg : reg < 256) :
    (ackedCount s.peer s.polls 1 = 1 →
      (iic_write_cmd addr buf 0 s).1 = 0 ∧
      decode Line.idle (produced s (iic_write_cmd addr buf 0 s).2)
        = [Frame.start, Frame.tx addr, Frame.stop]) ∧
    (ackedCount s.peer s.polls 2 = 2 →
      (iic_write addr reg buf 0 s).1 = 0 ∧
      decode Line.idle (produced s (iic_write addr reg buf 0 s).2)
        = [Frame.start, Frame.tx addr, Frame.tx reg, Frame.stop]) ∧
    (ackedCount s.peer s.polls 3 = 3 →
      (iic_write_address16 addr reg16 buf 0 s).1 = 0 ∧
      decode Line.idle (produced s (iic_write_address16 addr reg16 buf 0 s).2)
        = [Frame.start, Frame.tx addr, Frame.tx ((reg16 >>> 8) &&& 0xFF),
           Frame.tx (reg16 &&& 0xFF), Frame.stop]) ∧
    (ackedCount s.peer s.polls 3 = 3 →
      (iic_read addr reg buf 0 s).1 = 0 ∧ (iic_read addr reg buf 0 s).2.1 = buf ∧
      decode Line.idle (produced s (iic_read addr reg buf 0 s).2.2)
        = [Frame.start, Frame.tx addr, Frame.tx reg, Frame.start,
           Frame.tx ((addr + 1) % 256), Frame.stop]) ∧
    (ackedCount s.peer s.polls 4 = 4 →
      (iic_read_address16 addr reg16 buf 0 s).1 = 0 ∧
      (iic_read_address16 addr reg16 buf 0 s).2.1 = buf ∧
      decode Line.idle (produced s (iic_read_address16 addr reg16 buf 0 s).2.2)
        = [Frame.start, Frame.tx addr, Frame.tx ((reg16 >>> 8) &&& 0xFF),
           Frame.tx (reg16 &&& 0xFF), Frame.start, Frame.tx ((addr + 1) % 256),
           Frame.stop]) ∧
    (ackedCount s.peer s.polls 1 = 1 →
      (iic_read_cmd addr buf 0 s).1 = 0 ∧ (iic_read_cmd addr buf 0 s).2.1 = buf ∧
      decode Line.idle (produced s (iic_read_cmd addr buf 0 s).2.2)
        = [Frame.start, Frame.tx ((addr + 1) % 256), Frame.stop]) := by
  have hhi : (reg16 >>> 8) &&& 0xFF < 256 := Nat.lt_of_le_of_lt Nat.and_le_right (by decide)
  have hlo : reg16 &&& 0xFF < 256 := Nat.lt_of_le_of_lt Nat.and_le_right (by decide)
  have m1 : addr % 256 = addr := Nat.mod_eq_of_lt haddr
  have m2 : reg % 256 = reg := Nat.mod_eq_of_lt hreg
  have m3 := Nat.mod_eq_of_lt hhi
  have m4 := Nat.mod_eq_of_lt hlo
  have hd : dataBytes buf 0 0 = [] := rfl
  refine ⟨?_, ?_, ?_, ?_, ?_, ?_⟩
  · intro h
    have hok : (xmit s.peer s.polls [addr]).1 = true := (xmit_ok_iff _ _ _).2 h
    rw [iic_write_cmd_eq, hd]
    simp only [produced_adv]
    rw [decode_write_form, hok, xmitFrames_ok _ _ _ hok]
    simp [status, m1]
  · intro h
    have hok : (xmit s.peer s.polls [addr, reg]).1 = true := (xmit_ok_iff _ _ _).2 h
    rw [iic_write_eq, hd]
    simp only [produced_adv]
    rw [decode_write_form, hok, xmitFrames_ok _ _ _ hok]
    simp [status, m1, m2]
  · intro h
    have hok : (xmit s.peer s.polls
        [addr, (reg16 >>> 8) &&& 0xFF, reg16 &&& 0xFF]).1 = true := (xmit_ok_iff _ _ _).2 h
    rw [iic_write_address16_eq, hd]
    simp only [produced_adv]
    rw [decode_write_form, hok, xmitFrames_ok _ _ _ hok]
    simp [status, m1, m3, m4]
  · intro h
    have hok : (xmit s.peer s.polls ([addr, reg] ++ [(addr + 1) % 256])).1 = true :=
      (xmit_ok_iff _ _ _).2 h
    have hok12 := hok
    rw [xmit_append_ok, Bool.and_eq_true] at hok12
    obtain ⟨hok1, hok2⟩ := hok12
    rw [iic_read_eq]
    simp only [produced_adv]
    refine ⟨by rw [readForm_status, status_eq_zero_iff]; exact hok, ?_, ?_⟩
    · unfold readForm readTail
      simp only [hok1, hok2, if_true, recvMem]
    · rw [decode_readForm, hok1, hok2, xmitFrames_ok _ _ _ hok1, xmitFrames_ok _ _ _ hok2]
      simp [recvFrames, m1, m2]
  · intro h
    have hok : (xmit s.peer s.polls
        ([addr, (reg16 >>> 8) &&& 0xFF, reg16 &&& 0xFF] ++ [(addr + 1) % 256])).1 = true :=
      (xmit_ok_iff _ _ _).2 h
    have hok12 := hok
    rw [xmit_append_ok, Bool.and_eq_true] at hok12
    obtain ⟨hok1, hok2⟩ := hok12
    rw [iic_read_address16_eq]
    simp only [produced_adv]
    refine ⟨by rw [readForm_status, status_eq_zero_iff]; exact hok, ?_, ?_⟩
    · unfold readForm readTail
      simp only [hok1, hok2, if_true, recvMem]
    · rw [decode_readForm, hok1, hok2, xmitFrames_ok _ _ _ hok1, xmitFrames_ok _ _ _ hok2]
      simp [recvFrames, m1, m3, m4]
  · intro h
    have hok : (xmit s.peer s.polls [(addr + 1) % 256]).1 = true := (xmit_ok_iff _ _ _).2 h
    rw [iic_read_cmd_eq]
    simp only [produced_adv]
    refine ⟨by rw [readTail_status, status_eq_zero_iff]; exact hok, ?_, ?_⟩
    · unfold readTail
      simp only [hok, if_true, recvMem]
    · rw [decode_readTail, hok, xmitFrames_ok _ _ _ hok]
      simp [recvFrames]

/-- Instance of C11: `iic_read_cmd(0x50, buf, 0)` against a peer that
acknowledges every byte. -/
theorem zero_length_transfer_witness :
    (iic_read_cmd 0x50 [7] 0 (Bus.fresh peerAckAlways)).1 = 0 ∧
    (iic_read_cmd 0x50 [7] 0 (Bus.fresh peerAckAlways)).2.1 = [7] ∧
    decode Line.idle (produced (Bus.fresh peerAckAlways)
        (iic_read_cmd 0x50 [7] 0 (Bus.fresh peerAckAlways)).2.2)
      = [Frame.start, Frame.tx 0x51, Frame.stop] :=
  (zero_length_transfer (Bus.fresh peerAckAlways) 0x50 0 0 [7] (by decide)
    (by decide)).2.2.2.2.2 rfl

theorem even_lor_one : ∀ addr, addr < 256 → addr % 2 = 0 → addr + 1 = addr ||| 1 := by
  intro addr h1 h2
  apply Nat.eq_of_testBit_eq
  intro i
  rw [Nat.testBit_lor]
  cases i with
  | zero =>
    simp only [Nat.testBit_zero]
    have : (addr + 1) % 2 = 1 := by omega
    simp [this]
  | succ i =>
    have e : (1 : Nat).testBit (i + 1) = false := by
      rw [Nat.testBit_to_div_mod]
      have : 1 / 2 ^ (i + 1) = 0 := Nat.div_eq_of_lt (Nat.one_lt_two_pow (by omega))
      simp [this]
    rw [e, Bool.or_false, Nat.testBit_succ, Nat.testBit_succ]
    have : (addr + 1) / 2 = addr / 2 := by omega
    rw [this]

theorem read_address_arith (addr : Nat) (h1 : addr < 256) (h2 : addr % 2 = 0) :
    (addr + 1) % 256 = addr + 1 ∧ addr + 1 = addr ||| 1 ∧ (addr + 1) / 2 = addr / 2 ∧
      (addr + 1) % 2 = 1 :=
  ⟨by omega, even_lor_one addr h1 h2, by omega, by omega⟩

/-- C12: for every 8-bit write address `addr` with the direction bit clear,
the read address `addr + 1` does not wrap: as a `uint8_t` it is `addr + 1`,
which is `addr | 1`, has the upper seven bits of `addr` and the direction bit
set.  It is the byte `iic_read` and `iic_read_address16` send after the
repeated START, and the only byte `iic_read_cmd` sends, whatever the peer
does. -/
theorem read_address_is_write_address_plus_one (s : Bus) (addr reg reg16 len : Nat)
    (buf : List Nat) (haddr : addr < 256) (heven : addr % 2 = 0) (hreg : reg < 256) :
    (addr + 1) % 256 = addr + 1 ∧ addr + 1 = addr ||| 1 ∧ (addr + 1) / 2 = addr / 2 ∧
    (addr + 1) % 2 = 1 ∧
    (ackedCount s.peer s.polls 2 = 2 →
      (decode Line.idle (produced s (iic_read addr reg buf len s).2.2)).take 5
        = [Frame.start, Frame.tx addr, Frame.tx reg, Frame.start, Frame.tx (addr + 1)]) ∧
    (ackedCount s.peer s.polls 3 = 3 →
      (decode Line.idle (produced s (iic_read_address16 addr reg16 buf len s).2.2)).take 6
        = [Frame.start, Frame.tx addr, Frame.tx ((reg16 >>> 8) &&& 0xFF),
           Frame.tx (reg16 &&& 0xFF), Frame.start, Frame.tx (addr + 1)]) ∧
    (decode Line.idle (produced s (iic_read_cmd addr buf len s).2.2)).take 2
      = [Frame.start, Frame.tx (addr + 1)] ∧
    sentBytes (decode Line.idle (produced s (iic_read_cmd addr buf len s).2.2))
      = [addr + 1] := by
  obtain ⟨a1, a2, a3, a4⟩ := read_address_arith addr haddr heven
  have hhi : (reg16 >>> 8) &&& 0xFF < 256 := Nat.lt_of_le_of_lt Nat.and_le_right (by decide)
  have hlo : reg16 &&& 0xFF < 256 := Nat.lt_of_le_of_lt Nat.and_le_right (by decide)
  have m1 : addr % 256 = addr := Nat.mod_eq_of_lt haddr
  have m2 : reg % 256 = reg := Nat.mod_eq_of_lt hreg
  have m3 := Nat.mod_eq_of_lt hhi
  have m4 := Nat.mod_eq_of_lt hlo
  have m5 : (addr + 1) % 256 % 256 = addr + 1 := by rw [Nat.mod_mod, a1]
  refine ⟨a1, a2, a3, a4, ?_, ?_, ?_, ?_⟩
  · intro h
    have hok1 : (xmit s.peer s.polls [addr, reg]).1 = true := (xmit_ok_iff _ _ _).2 h
    obtain ⟨rest, hr⟩ := xmit_one_frames s.peer
      (s.polls + (xmit s.peer s.polls [addr, reg]).2.1) ((addr + 1) % 256)
    rw [iic_read_eq]
    simp only [produced_adv]
    rw [decode_readForm, hok1, xmitFrames_ok _ _ _ hok1, hr, m5]
    simp [m1, m2]
  · intro h
    have hok1 : (xmit s.peer s.polls [addr, (reg16 >>> 8) &&& 0xFF, reg16 &&& 0xFF]).1
        = true := (xmit_ok_iff _ _ _).2 h
    obtain ⟨rest, hr⟩ := xmit_one_frames s.peer
      (s.polls + (xmit s.peer s.polls [addr, (reg16 >>> 8) &&& 0xFF, reg16 &&& 0xFF]).2.1)
      ((addr + 1) % 256)
    rw [iic_read_address16_eq]
    simp only [produced_adv]
    rw [decode_readForm, hok1, xmitFrames_ok _ _ _ hok1, hr, m5]
    simp [m1, m3, m4]
  · obtain ⟨rest, hr⟩ := xmit_one_frames s.peer s.polls ((addr + 1) % 256)
    rw [iic_read_cmd_eq]
    simp only [produced_adv]
    rw [decode_readTail, hr, m5]
    simp
  · rw [iic_read_cmd_eq]
    simp only [produced_adv]
    rw [sentBytes_readTail, sentBytes_xmitFrames]
    have hle := ackedCount_le s.peer 1 s.polls
    have e : ([(addr + 1) % 256] : List Nat).length = 1 := rfl
    rw [e]
    have : List.take (ackedCount s.peer s.polls 1 + 1) [(addr + 1) % 256]
        = [(addr + 1) % 256] := by
      rw [List.take_of_length_le]
      simp
    rw [this]
    simp [m5]

/-- Instance of C12 at the write address 0xAE: the read address is 0xAF. -/
theorem read_address_is_write_address_plus_one_witness :
    sentBytes (decode Line.idle (produced (Bus.fresh peerNever)
        (iic_read_cmd 0xAE [] 0 (Bus.fresh peerNever)).2.2)) = [0xAF] :=
  (read_address_is_write_address_plus_one (Bus.fresh peerNever) 0xAE 0 0 0 [] (by decide)
    (by decide) (by decide)).2.2.2.2.2.2.2

/-! ### Debug print -/

/-- C13, what the code does: for every message of `n` characters, `1 ≤ n ≤
255`, whose print call reports `n` characters written,
`max30102_interface_debug_print` returns 0, not `n`. -/
theorem debug_print_returns_zero_on_success (printf : List Nat → Nat → Int) (msg : List Nat)
    (h1 : 1 ≤ msg.length) (h255 : msg.length ≤ 255) (hnz : ∀ c ∈ msg, c ≠ 0)
    (hprint : printf (msg.take 255) (strlen (msg.take 255) % 256) = msg.length) :
    strlen (msg.take 255) = msg.length ∧
    max30102_interface_debug_print printf msg = 0 ∧
    max30102_interface_debug_print printf msg ≠ msg.length := by
  have hlen : strlen (msg.take 255) = msg.length := by
    rw [List.take_of_length_le h255, strlen]
    have : msg.takeWhile (fun c => c != 0) = msg := by
      rw [List.takeWhile_eq_self_iff]
      intro c hc
      simpa using hnz c hc
    rw [this]
  have hne : printf (msg.take 255) (strlen (msg.take 255) % 256) ≠ 0 := by
    rw [hprint]
    omega
  have h0 : max30102_interface_debug_print printf msg = 0 := by
    simp only [max30102_interface_debug_print]
    rw [if_pos hne]
  exact ⟨hlen, h0, by rw [h0]; omega⟩

/-- Instance of C13: the one-character message "a", printed in full, makes
`max30102_interface_debug_print` return 0 although one character was sent. -/
theorem debug_print_returns_zero_on_success_witness :
    max30102_interface_debug_print printfWritesAll [0x61] = 0 ∧
    max30102_interface_debug_print printfWritesAll [0x61] ≠ 1 :=
  (debug_print_returns_zero_on_success printfWritesAll [0x61] (by decide) (by decide)
    (by decide) rfl).2

/-! ### Timing of the acknowledge poll -/

theorem delaySum_append (a b : List Ev) : delaySum (a ++ b) = delaySum a + delaySum b := by
  induction a with
  | nil => simp [delaySum]
  | cons e es ih => cases e <;> simp [delaySum, ih, Nat.add_assoc]

theorem delaySum_replicate_read (n : Nat) (v : Bool) :
    delaySum (List.replicate n (Ev.readSda v)) = 0 := by
  induction n with
  | zero => rfl
  | succ n ih => simpa [List.replicate_succ, delaySum] using ih

/-- C14 (amended): on the timeout path of `_iic_wait_ack` (SDA high at each
of the 501 polls) the accesses are the two `delay_us(20)` before the first
poll, then 501 polls with no delay between them, then `_iic_stop`; the
`delay_us` durations requested sum to 85 microseconds. -/
theorem wait_ack_timeout_delays (s : Bus)
    (hhigh : ∀ j, j < 501 → s.peer (s.polls + j) = true) :
    (_iic_wait_ack s).1 = 1 ∧
    produced s (_iic_wait_ack s).2
      = waitPre ++ (List.replicate 501 (Ev.readSda true) ++ stopEv) ∧
    delaySum waitPre = 40 ∧
    delaySum (List.replicate 501 (Ev.readSda true)) = 0 ∧
    delaySum stopEv = 45 ∧
    delaySum (produced s (_iic_wait_ack s).2) = 85 := by
  have hf : firstLow s.peer s.polls 501 = none := (firstLow_eq_none_iff _ _ _).2 hhigh
  have hp : produced s (_iic_wait_ack s).2
      = waitPre ++ (List.replicate 501 (Ev.readSda true) ++ stopEv) := by
    rw [iic_wait_ack_eq, hf]
    exact produced_adv _ _ _
  refine ⟨by rw [iic_wait_ack_eq, hf], hp, rfl, delaySum_replicate_read _ _, rfl, ?_⟩
  rw [hp, delaySum_append, delaySum_append, delaySum_replicate_read]
  rfl

/-- Instance of C14 with a peer that never pulls SDA low. -/
theorem wait_ack_timeout_delays_witness :
    delaySum (produced (Bus.fresh peerNever) (_iic_wait_ack (Bus.fresh peerNever)).2) = 85 :=
  (wait_ack_timeout_delays (Bus.fresh peerNever) (fun _ _ => rfl)).2.2.2.2.2

/-- C14 as stated fails: with a peer that never pulls SDA low
`_iic_wait_ack` reports "not acknowledged" after requesting 85 microseconds of
delay in all, two orders of magnitude short of 500 x 20 = 10000. -/
theorem wait_ack_timeout_not_ten_ms :
    (_iic_wait_ack (Bus.fresh peerNever)).1 = 1 ∧
    delaySum (produced (Bus.fresh peerNever) (_iic_wait_ack (Bus.fresh peerNever)).2) = 85 ∧
    delaySum (produced (Bus.fresh peerNever) (_iic_wait_ack (Bus.fresh peerNever)).2)
      ≠ 500 * 20 ∧
    100 * delaySum (produced (Bus.fresh peerNever) (_iic_wait_ack (Bus.fresh peerNever)).2)
      < 500 * 20 := by
  have hf : firstLow (Bus.fresh peerNever).peer (Bus.fresh peerNever).polls 501 = none :=
    (firstLow_eq_none_iff _ _ _).2 (fun _ _ => rfl)
  have hd : delaySum (waitPre ++ timeoutEv 501) = 85 := by
    rw [timeoutEv, delaySum_append, delaySum_append, delaySum_replicate_read]
    rfl
  have hp : delaySum (produced (Bus.fresh peerNever) (_iic_wait_ack (Bus.fresh peerNever)).2)
      = 85 := by
    rw [iic_wait_ack_eq, hf]
    exact (congrArg delaySum (produced_adv _ _ _)).trans hd
  rw [hp]
  exact ⟨by rw [iic_wait_ack_eq, hf], rfl, by decide, by decide⟩

/-! ### The START sequence -/

/-- C15 (amended): `_iic_start` makes these accesses, in this order: switch
SDA to output, set SCL high, set SDA low while SCL is high, set SCL low, set
SDA high while SCL is low, each followed by `delay_us(15)` except the switch
to output.  It never writes SDA high before it writes SDA low, so it emits a
START exactly when the SDA latch is high at entry; it returns with SCL low,
the SDA latch high and SDA in output mode. -/
theorem iic_start_sequence (s : Bus) (l : Line) :
    produced s (_iic_start s)
      = [Ev.sdaOut, Ev.scl true, Ev.delay 15, Ev.sda false, Ev.delay 15, Ev.scl false,
         Ev.delay 15, Ev.sda true, Ev.delay 15] ∧
    sdaWrites (produced s (_iic_start s)) = [false, true] ∧
    startCount l (produced s (_iic_start s)) = (if l.sda then 1 else 0) ∧
    stopCount l (produced s (_iic_start s)) = 0 ∧
    replay l (produced s (_iic_start s)) = ⟨false, true, true⟩ := by
  rw [iic_start_eq, produced_adv]
  refine ⟨rfl, rfl, ?_, stopCount_startEv l, replay_startEv l⟩
  rcases l with ⟨a, b, c⟩
  cases a <;> cases b <;> cases c <;> rfl

/-- C15 as stated fails: the first level `_iic_start` writes to SDA is low,
not high, and entered with the SDA latch low (SCL high, SDA in output mode) it
emits no START at all. -/
theorem iic_start_writes_low_first :
    sdaWrites (produced (Bus.fresh peerNever) (_iic_start (Bus.fresh peerNever)))
      = [false, true] ∧
    (sdaWrites (produced (Bus.fresh peerNever) (_iic_start (Bus.fresh peerNever)))).head?
      ≠ some true ∧
    startCount ⟨true, false, true⟩
      (produced (Bus.fresh peerNever) (_iic_start (Bus.fresh peerNever))) = 0 := by
  rw [iic_start_eq, produced_adv]
  exact ⟨rfl, by decide, rfl⟩

/-! ### Termination -/

theorem firstLow_lt (peer : Nat → Bool) (p n j : Nat) (h : firstLow peer p n = some j) :
    j < n :=
  ((firstLow_eq_some_iff peer n p j).1 h).1

theorem highPolls_append (a b : List Ev) : highPolls (a ++ b) = highPolls a + highPolls b := by
  induction a with
  | nil => simp [highPolls]
  | cons e es ih =>
    cases e with
    | readSda v => cases v <;> simp [highPolls, ih, Nat.add_assoc]
    | _ => simp [highPolls, ih]

theorem highPolls_replicate (n : Nat) : highPolls (List.replicate n (Ev.readSda true)) = n := by
  induction n with
  | zero => rfl
  | succ n ih => rw [List.replicate_succ, highPolls, ih, Nat.add_comm]

theorem length_sendEv (txd : Nat) : (sendEv txd).length = 50 := by
  simp [sendEv, sendBits]

theorem length_readBits (peer : Nat → Bool) (n : Nat) : ∀ p,
    (readBits peer p n).length = 5 * n := by
  induction n with
  | zero => intro p; rfl
  | succ n ih => intro p; rw [readBits, List.length_append, ih]; simp; omega

theorem length_readEv (peer : Nat → Bool) (p ack : Nat) : (readEv peer p ack).length = 50 := by
  rw [readEv, List.length_append, List.length_append, length_readBits]
  by_cases h : ack = 0 <;> simp [h, ackEv, nackEv]

theorem length_recvEv (peer : Nat → Bool) (n : Nat) : ∀ p,
    (recvEv peer p n).length = 50 * n := by
  induction n with
  | zero => intro p; rfl
  | succ n ih => intro p; rw [recvEv, List.length_append, ih, length_readEv]; omega

theorem length_timeoutEv (n : Nat) : (timeoutEv n).length = n + 7 := by
  simp [timeoutEv, stopEv]

theorem length_ackedEv (j : Nat) : (ackedEv j).length = j + 3 := by
  simp [ackedEv]

theorem xmit_bounds (peer : Nat → Bool) (bs : List Nat) : ∀ p,
    (xmit peer p bs).2.1 ≤ 501 * bs.length ∧
    (xmit peer p bs).2.2.length ≤ 563 * bs.length := by
  induction bs with
  | nil => intro p; simp [xmit]
  | cons b bs ih =>
    intro p
    rw [xmit]
    cases hf : firstLow peer p 501 with
    | none =>
      have e : waitPre.length = 5 := rfl
      simp only [List.length_append, length_sendEv, List.length_cons, length_timeoutEv, e]
      constructor <;> omega
    | some j =>
      have hj := firstLow_lt _ _ _ _ hf
      obtain ⟨h1, h2⟩ := ih (p + (j + 1))
      have e : waitPre.length = 5 := rfl
      simp only [List.length_append, length_sendEv, List.length_cons, length_ackedEv, e]
      constructor <;> omega

theorem length_dataBytes (buf : List Nat) (i n : Nat) : (dataBytes buf i n).length = n := by
  simp [dataBytes]

theorem write_form_bounds (peer : Nat → Bool) (p : Nat) (bs : List Nat) :
    (xmit peer p bs).2.1 ≤ 501 * bs.length ∧
    (startEv ++ (xmit peer p bs).2.2 ++ stopEv).length ≤ 563 * bs.length + 16 := by
  obtain ⟨h1, h2⟩ := xmit_bounds peer bs p
  refine ⟨h1, ?_⟩
  simp only [List.length_append]
  have e1 : startEv.length = 9 := rfl
  have e2 : stopEv.length = 7 := rfl
  omega

theorem readTail_bounds (peer : Nat → Bool) (p rd : Nat) (buf : List Nat) (len : Nat) :
    (readTail peer p rd buf len).2.2.1 ≤ 501 + 8 * len ∧
    (readTail peer p rd buf len).2.2.2.length ≤ 563 + 50 * len + 16 := by
  obtain ⟨h1, h2⟩ := xmit_bounds peer [rd] p
  have e1 : startEv.length = 9 := rfl
  have e2 : stopEv.length = 7 := rfl
  simp only [List.length_cons, List.length_nil] at h1 h2
  unfold readTail
  cases h : (xmit peer p [rd]).1
  · simp only [h, Bool.false_eq_true, if_false, List.length_append]
    omega
  · simp only [h, if_true, List.length_append, length_recvEv]
    omega

theorem readForm_bounds (peer : Nat → Bool) (p : Nat) (pre : List Nat) (rd : Nat)
    (buf : List Nat) (len : Nat) :
    (readForm peer p pre rd buf len).2.2.1 ≤ 501 * (pre.length + 1) + 8 * len ∧
    (readForm peer p pre rd buf len).2.2.2.length
      ≤ 563 * (pre.length + 1) + 50 * len + 25 := by
  obtain ⟨h1, h2⟩ := xmit_bounds peer pre p
  have e1 : startEv.length = 9 := rfl
  have e2 : stopEv.length = 7 := rfl
  unfold readForm
  cases h : (xmit peer p pre).1
  · simp only [h, Bool.false_eq_true, if_false, List.length_append]
    omega
  · obtain ⟨h3, h4⟩ := readTail_bounds peer (p + (xmit peer p pre).2.1) rd buf len
    simp only [h, if_true, List.length_append]
    omega

/-- C17: for every peer `_iic_wait_ack` returns after at least one and at
most 501 polls of SDA; its counter `uc_err_time`, which counts the polls that
read high, never exceeds 501, so the increment never wraps in 16 bits; when it
reports "not acknowledged" its accesses end with those of `_iic_stop`.  Hence
each of the six register-protocol operations makes a number of polls and of
line accesses bounded in terms of `len` alone, for every peer. -/
theorem operations_terminate (s : Bus) (addr reg len : Nat) (buf : List Nat) :
    (s.polls < (_iic_wait_ack s).2.polls ∧ (_iic_wait_ack s).2.polls ≤ s.polls + 501) ∧
    highPolls (produced s (_iic_wait_ack s).2) ≤ 501 ∧
    (∀ u, u ≤ 500 → (u + 1) % 65536 = u + 1 ∧
      wait_ack_loop u s
        = if (READ_SDA s).1 = true then
            (if 500 < u + 1 then (1, _iic_stop (READ_SDA s).2)
             else wait_ack_loop (u + 1) (READ_SDA s).2)
          else (0, delay_us 20 (IIC_SCL 0 (READ_SDA s).2))) ∧
    ((_iic_wait_ack s).1 = 1 → ∃ t, produced s (_iic_wait_ack s).2 = t ++ stopEv) ∧
    ((iic_write_cmd addr buf len s).2.polls ≤ s.polls + 501 * (len + 1) ∧
      (produced s (iic_write_cmd addr buf len s).2).length ≤ 563 * (len + 1) + 16) ∧
    ((iic_write addr reg buf len s).2.polls ≤ s.polls + 501 * (len + 2) ∧
      (produced s (iic_write addr reg buf len s).2).length ≤ 563 * (len + 2) + 16) ∧
    ((iic_write_address16 addr reg buf len s).2.polls ≤ s.polls + 501 * (len + 3) ∧
      (produced s (iic_write_address16 addr reg buf len s).2).length
        ≤ 563 * (len + 3) + 16) ∧
    ((iic_read addr reg buf len s).2.2.polls ≤ s.polls + (501 * 3 + 8 * len) ∧
      (produced s (iic_read addr reg buf len s).2.2).length ≤ 563 * 3 + 50 * len + 25) ∧
    ((iic_read_address16 addr reg buf len s).2.2.polls ≤ s.polls + (501 * 4 + 8 * len) ∧
      (produced s (iic_read_address16 addr reg buf len s).2.2).length
        ≤ 563 * 4 + 50 * len + 25) ∧
    ((iic_read_cmd addr buf len s).2.2.polls ≤ s.polls + (501 + 8 * len) ∧
      (produced s (iic_read_cmd addr buf len s).2.2).length ≤ 563 + 50 * len + 16) := by
  refine ⟨?_, ?_, ?_, ?_, ?_, ?_, ?_, ?_, ?_, ?_⟩
  · rw [iic_wait_ack_eq]
    cases hf : firstLow s.peer s.polls 501 with
    | none => simp
    | some j =>
      have := firstLow_lt _ _ _ _ hf
      simp only [adv_polls]
      omega
  · rw [iic_wait_ack_eq]
    cases hf : firstLow s.peer s.polls 501 with
    | none =>
      simp only [produced_adv, timeoutEv, highPolls_append, highPolls_replicate]
      exact Nat.le_of_eq rfl
    | some j =>
      have := firstLow_lt _ _ _ _ hf
      simp only [produced_adv, ackedEv, highPolls_append, highPolls_replicate]
      have e1 : highPolls waitPre = 0 := rfl
      have e2 : highPolls [Ev.readSda false, Ev.scl false, Ev.delay 20] = 0 := rfl
      omega
  · intro u hu
    have hm : (u + 1) % 65536 = u + 1 := Nat.mod_eq_of_lt (by omega)
    refine ⟨hm, ?_⟩
    conv => lhs; rw [wait_ack_loop]
    simp only [hm]
  · rw [iic_wait_ack_eq]
    cases hf : firstLow s.peer s.polls 501 with
    | none =>
      intro _
      exact ⟨waitPre ++ List.replicate 501 (Ev.readSda true), by
        simp only [produced_adv, timeoutEv, List.append_assoc]⟩
    | some j => intro h; simp at h
  · rw [iic_write_cmd_eq]
    simp only [produced_adv, adv_polls]
    have := write_form_bounds s.peer s.polls (addr :: dataBytes buf 0 len)
    simp only [List.length_cons, length_dataBytes] at this
    omega
  · rw [iic_write_eq]
    simp only [produced_adv, adv_polls]
    have := write_form_bounds s.peer s.polls (addr :: reg :: dataBytes buf 0 len)
    simp only [List.length_cons, length_dataBytes] at this
    omega
  · rw [iic_write_address16_eq]
    simp only [produced_adv, adv_polls]
    have := write_form_bounds s.peer s.polls
      (addr :: ((reg >>> 8) &&& 0xFF) :: (reg &&& 0xFF) :: dataBytes buf 0 len)
    simp only [List.length_cons, length_dataBytes] at this
    omega
  · rw [iic_read_eq]
    simp only [produced_adv, adv_polls]
    have := readForm_bounds s.peer s.polls [addr, reg] ((addr + 1) % 256) buf len
    simp only [List.length_cons, List.length_nil] at this
    omega
  · rw [iic_read_address16_eq]
    simp only [produced_adv, adv_polls]
    have := readForm_bounds s.peer s.polls [addr, (reg >>> 8) &&& 0xFF, reg &&& 0xFF]
      ((addr + 1) % 256) buf len
    simp only [List.length_cons, List.length_nil] at this
    omega
  · rw [iic_read_cmd_eq]
    simp only [produced_adv, adv_polls]
    have := readTail_bounds s.peer s.polls ((addr + 1) % 256) buf len
    omega

/-- Instance of C17: against a peer that holds SDA high for ever
`iic_write_cmd(0x50, buf, 65535)` makes no more than `501 * 65536` polls. -/
theorem operations_terminate_witness :
    (iic_write_cmd 0x50 [] 65535 (Bus.fresh peerNever)).2.polls
      ≤ (Bus.fresh peerNever).polls + 501 * (65535 + 1) :=
  (operations_terminate (Bus.fresh peerNever) 0x50 0 65535 []).2.2.2.2.1.1

/-! ### The lines after each part of an operation -/

theorem step_line (m : Mon) (e : Ev) : (m.step e).line = m.line.step e := by
  unfold Mon.step
  split
  · rfl
  · split
    · rfl
    · split
      · split <;> rfl
      · cases e <;> simp [Line.step]
        split <;> rfl

theorem run_line (es : List Ev) : ∀ m : Mon, (m.run es).line = replay m.line es := by
  induction es with
  | nil => intro m; rfl
  | cons e es ih =>
    intro m
    have : m.run (e :: es) = (m.step e).run es := rfl
    rw [this, ih, step_line]
    rfl

/-- The lines after `xmit`, entered with SCL low. -/
theorem replay_xmit (peer : Nat → Bool) (p : Nat) (b : Nat) (bs : List Nat) (d o : Bool) :
    replay ⟨false, d, o⟩ (xmit peer p (b :: bs)).2.2
      = if (xmit peer p (b :: bs)).1 then ⟨false, true, false⟩ else Line.idle := by
  have h := run_xmit peer (b :: bs) p d o []
  have h2 := congrArg Mon.line h
  rw [run_line] at h2
  rw [h2]
  cases (xmit peer p (b :: bs)).1 <;> simp

/-- The lines after the data loop of a read, entered with SCL low. -/
theorem replay_recvEv (peer : Nat → Bool) (n p : Nat) (d o : Bool) :
    ∃ d2 o2, replay ⟨false, d, o⟩ (recvEv peer p n) = ⟨false, d2, o2⟩ := by
  obtain ⟨d2, o2, h⟩ := run_recvEv peer n p d o []
  have h2 := congrArg Mon.line h
  rw [run_line] at h2
  exact ⟨d2, o2, h2⟩

/-! ### Genuine START conditions -/

theorem dropsGenuine_append (a b : List Ev) : ∀ l : Line,
    dropsGenuine l (a ++ b) = (dropsGenuine l a && dropsGenuine (replay l a) b) := by
  induction a with
  | nil => intro l; simp [dropsGenuine, replay]
  | cons e es ih =>
    intro l
    simp [dropsGenuine, replay, ih, Bool.and_assoc]

theorem dropsGenuine_startEv (l : Line) : dropsGenuine l startEv = l.sda := by
  rcases l with ⟨a, b, c⟩
  cases a <;> cases b <;> cases c <;> rfl

theorem dropsGenuine_stopEv (l : Line) : dropsGenuine l stopEv = (!l.scl || l.sda) := by
  rcases l with ⟨a, b, c⟩
  cases a <;> cases b <;> cases c <;> rfl

theorem dropsGenuine_sendBits (n : Nat) : ∀ (txd : Nat) (l : Line), l.scl = false →
    dropsGenuine l (sendBits n txd) = true := by
  induction n with
  | zero => intro txd l _; rfl
  | succ n ih =>
    intro txd l h
    rw [sendBits, dropsGenuine_append, ih _ _ (by simp [replay, Line.step])]
    cases hm : msb txd <;> simp [dropsGenuine, dropAllowed, Line.step, h]

theorem dropsGenuine_sendEv (txd : Nat) (l : Line) : dropsGenuine l (sendEv txd) = true := by
  rw [sendEv, dropsGenuine_append, dropsGenuine_sendBits 8 txd _ (by simp [replay, Line.step])]
  rfl

theorem dropsGenuine_replicate_read (l : Line) (n : Nat) (v : Bool) :
    dropsGenuine l (List.replicate n (Ev.readSda v)) = true := by
  induction n with
  | zero => rfl
  | succ n ih => simpa [List.replicate_succ, dropsGenuine, dropAllowed, Line.step] using ih

theorem replay_waitPre (l : Line) : replay l waitPre = ⟨true, true, false⟩ := by
  rcases l with ⟨a, b, c⟩
  cases a <;> cases b <;> cases c <;> rfl

theorem dropsGenuine_waitPre (l : Line) : dropsGenuine l waitPre = true := by
  rcases l with ⟨a, b, c⟩
  cases a <;> cases b <;> cases c <;> rfl

theorem dropsGenuine_wait_acked (j : Nat) (l : Line) :
    dropsGenuine l (waitPre ++ ackedEv j) = true := by
  rw [dropsGenuine_append, dropsGenuine_waitPre, ackedEv, dropsGenuine_append,
    dropsGenuine_replicate_read]
  rfl

theorem dropsGenuine_wait_timeout (n : Nat) (l : Line) :
    dropsGenuine l (waitPre ++ timeoutEv n) = true := by
  rw [dropsGenuine_append, dropsGenuine_waitPre, replay_waitPre, timeoutEv,
    dropsGenuine_append, dropsGenuine_replicate_read, replay_replicate_read,
    dropsGenuine_stopEv]
  rfl

theorem dropsGenuine_readBits (peer : Nat → Bool) (n : Nat) : ∀ (p : Nat) (l : Line),
    dropsGenuine l (readBits peer p n) = true := by
  induction n with
  | zero => intro p l; rfl
  | succ n ih =>
    intro p l
    rw [readBits, dropsGenuine_append, ih]
    rfl

theorem dropsGenuine_readEv (peer : Nat → Bool) (p ack : Nat) (l : Line) :
    dropsGenuine l (readEv peer p ack) = true := by
  rw [readEv, dropsGenuine_append, dropsGenuine_append, dropsGenuine_readBits]
  by_cases h : ack = 0
  · simp [h, dropsGenuine, dropAllowed, nackEv]
  · simp [h, dropsGenuine, dropAllowed, ackEv, Line.step]

theorem dropsGenuine_xmit (peer : Nat → Bool) (bs : List Nat) : ∀ (p : Nat) (l : Line),
    dropsGenuine l (xmit peer p bs).2.2 = true := by
  induction bs with
  | nil => intro p l; rfl
  | cons b bs ih =>
    intro p l
    rw [xmit]
    cases firstLow peer p 501 with
    | none =>
      simp only
      rw [dropsGenuine_append, dropsGenuine_sendEv, dropsGenuine_wait_timeout]
      rfl
    | some j =>
      simp only
      rw [dropsGenuine_append, dropsGenuine_append, dropsGenuine_sendEv,
        dropsGenuine_wait_acked, ih]
      rfl

theorem dropsGenuine_recvEv (peer : Nat → Bool) (n : Nat) : ∀ (p : Nat) (l : Line),
    dropsGenuine l (recvEv peer p n) = true := by
  induction n with
  | zero => intro p l; rfl
  | succ n ih =>
    intro p l
    rw [recvEv, dropsGenuine_append, dropsGenuine_readEv, ih]
    rfl

theorem dropsGenuine_write_form (peer : Nat → Bool) (p b : Nat) (bs : List Nat) (l : Line)
    (h : l.sda = true) :
    dropsGenuine l (startEv ++ (xmit peer p (b :: bs)).2.2 ++ stopEv) = true := by
  rw [dropsGenuine_append, dropsGenuine_append, dropsGenuine_startEv, h, dropsGenuine_xmit,
    replay_append, replay_startEv, replay_xmit, dropsGenuine_stopEv]
  cases (xmit peer p (b :: bs)).1 <;> rfl

theorem dropsGenuine_readTail (peer : Nat → Bool) (p rd : Nat) (buf : List Nat) (len : Nat)
    (l : Line) (h : l.sda = true) :
    dropsGenuine l (readTail peer p rd buf len).2.2.2 = true := by
  unfold readTail
  cases hx : (xmit peer p [rd]).1
  · simp only [hx, Bool.false_eq_true, if_false]
    rw [dropsGenuine_append, dropsGenuine_append, dropsGenuine_startEv, h, dropsGenuine_xmit,
      replay_append, replay_startEv, replay_xmit, hx, dropsGenuine_stopEv]
    rfl
  · simp only [hx, if_true]
    obtain ⟨d2, o2, hr⟩ := replay_recvEv peer len (p + (xmit peer p [rd]).2.1) true false
    rw [dropsGenuine_append, dropsGenuine_append, dropsGenuine_append, dropsGenuine_startEv, h,
      dropsGenuine_xmit, dropsGenuine_recvEv, replay_append, replay_append, replay_startEv,
      replay_xmit, hx, if_pos rfl, hr, dropsGenuine_stopEv]
    rfl

theorem dropsGenuine_readForm (peer : Nat → Bool) (p b : Nat) (pre : List Nat) (rd : Nat)
    (buf : List Nat) (len : Nat) (l : Line) (h : l.sda = true) :
    dropsGenuine l (readForm peer p (b :: pre) rd buf len).2.2.2 = true := by
  unfold readForm
  cases hx : (xmit peer p (b :: pre)).1
  · simp only [hx, Bool.false_eq_true, if_false]
    rw [dropsGenuine_append, dropsGenuine_append, dropsGenuine_startEv, h, dropsGenuine_xmit,
      replay_append, replay_startEv, replay_xmit, hx, dropsGenuine_stopEv]
    rfl
  · simp only [hx, if_true]
    rw [dropsGenuine_append, dropsGenuine_append, dropsGenuine_startEv, h, dropsGenuine_xmit,
      replay_append, replay_startEv, replay_xmit, hx, if_pos rfl,
      dropsGenuine_readTail _ _ _ _ _ _ rfl]
    rfl

/-- Every call entered with the SDA latch high makes no write of SDA low
onto a latch already low with SCL high, and leaves the lines idle. -/
theorem call_run_genuine (c : Call) (s : Bus) :
    ∃ k es, c.run s = s.adv k es ∧
      (∀ l : Line, l.sda = true → dropsGenuine l es = true) ∧
      ∀ l, replay l es = Line.idle := by
  cases c with
  | write_cmd addr buf len =>
    exact ⟨_, _, by rw [Call.run, iic_write_cmd_eq],
      fun l h => dropsGenuine_write_form _ _ _ _ l h, fun l => write_form_idle _ _ _ l⟩
  | write addr reg buf len =>
    exact ⟨_, _, by rw [Call.run, iic_write_eq],
      fun l h => dropsGenuine_write_form _ _ _ _ l h, fun l => write_form_idle _ _ _ l⟩
  | write_address16 addr reg buf len =>
    exact ⟨_, _, by rw [Call.run, iic_write_address16_eq],
      fun l h => dropsGenuine_write_form _ _ _ _ l h, fun l => write_form_idle _ _ _ l⟩
  | read addr reg buf len =>
    exact ⟨_, _, by rw [Call.run, iic_read_eq],
      fun l h => dropsGenuine_readForm _ _ _ _ _ _ _ l h,
      fun l => readForm_idle _ _ _ _ _ _ l⟩
  | read_address16 addr reg buf len =>
    exact ⟨_, _, by rw [Call.run, iic_read_address16_eq],
      fun l h => dropsGenuine_readForm _ _ _ _ _ _ _ l h,
      fun l => readForm_idle _ _ _ _ _ _ l⟩
  | read_cmd addr buf len =>
    exact ⟨_, _, by rw [Call.run, iic_read_cmd_eq],
      fun l h => dropsGenuine_readTail _ _ _ _ _ l h, fun l => readTail_idle _ _ _ _ _ l⟩

theorem runCalls_genuine (l : Line) (s : Bus) (cs : List Call) : ∀ (s0 : Bus),
    (∃ k es, s0 = s.adv k es ∧ dropsGenuine l es = true ∧ replay l es = Line.idle) →
    ∃ k es, runCalls cs s0 = s.adv k es ∧ dropsGenuine l es = true ∧
      replay l es = Line.idle := by
  induction cs with
  | nil => intro s0 h; simpa [runCalls] using h
  | cons c cs ih =>
    intro s0 h
    obtain ⟨k, es, hs0, hg, hi⟩ := h
    obtain ⟨k2, es2, hc, hg2, hidle⟩ := call_run_genuine c s0
    have : runCalls (c :: cs) s0 = runCalls cs (c.run s0) := rfl
    rw [this]
    apply ih
    refine ⟨k + k2, es ++ es2, ?_, ?_, ?_⟩
    · rw [hc, hs0, adv_adv]
    · rw [dropsGenuine_append, hg, hi, hg2 _ rfl]
      rfl
    · rw [replay_append, hidle]

/-- C18: after `iic_init`, in any finite sequence of calls of the six
register-protocol operations against any peer, wherever the accesses of
`_iic_start` occur the SDA latch is high just before them; so the write of SDA
low that `_iic_start` makes with SCL high is a high-to-low transition, and
each `_iic_start` emits exactly one START, although it never writes SDA high
before dropping it. -/
theorem start_always_finds_sda_high (s : Bus) (l : Line) (cs : List Call)
    (front back : List Ev)
    (h : produced s (runCalls cs (iic_init s).2) = front ++ (startEv ++ back)) :
    (replay l front).sda = true ∧
    startCount (replay l front) startEv = 1 ∧
    isStart (replay (replay l front) [Ev.sdaOut, Ev.scl true, Ev.delay 15]) (Ev.sda false)
      = true := by
  have hinit : dropsGenuine l [Ev.sdaOut, Ev.sda true, Ev.scl true] = true ∧
      replay l [Ev.sdaOut, Ev.sda true, Ev.scl true] = Line.idle := by
    rcases l with ⟨a, b, c⟩
    cases a <;> cases b <;> cases c <;> exact ⟨rfl, rfl⟩
  obtain ⟨k, es, hr, hg, _⟩ := runCalls_genuine l s cs (iic_init s).2
    ⟨0, [Ev.sdaOut, Ev.sda true, Ev.scl true], by rw [iic_init_eq], hinit.1, hinit.2⟩
  rw [hr, produced_adv] at h
  rw [h, dropsGenuine_append, dropsGenuine_append, dropsGenuine_startEv] at hg
  simp only [Bool.and_eq_true] at hg
  have hs : (replay l front).sda = true := hg.2.1
  refine ⟨hs, ?_, ?_⟩
  · generalize replay l front = m at hs
    rcases m with ⟨a, b, c⟩
    simp only at hs
    subst hs
    cases a <;> cases c <;> rfl
  · generalize replay l front = m at hs
    rcases m with ⟨a, b, c⟩
    simp only at hs
    subst hs
    cases a <;> cases c <;> rfl

/-- Instance of C18: `iic_init` followed by `iic_write_cmd(0x50, buf, 0)`
against an acknowledging peer; the accesses of `_iic_start` come right after
those of `iic_init`. -/
theorem start_always_finds_sda_high_witness :
    (replay ⟨false, false, false⟩ [Ev.sdaOut, Ev.sda true, Ev.scl true]).sda = true ∧
    startCount (replay ⟨false, false, false⟩ [Ev.sdaOut, Ev.sda true, Ev.scl true]) startEv
      = 1 :=
  have h := start_always_finds_sda_high (Bus.fresh peerAckAlways) ⟨false, false, false⟩
    [Call.write_cmd 0x50 [] 0] [Ev.sdaOut, Ev.sda true, Ev.scl true]
    ((xmit peerAckAlways 0 [0x50]).2.2 ++ stopEv)
    (by
      have e : runCalls [Call.write_cmd 0x50 [] 0] (iic_init (Bus.fresh peerAckAlways)).2
          = (iic_write_cmd 0x50 [] 0 (iic_init (Bus.fresh peerAckAlways)).2).2 := rfl
      rw [e, iic_init_eq, iic_write_cmd_eq]
      simp only [adv_adv, produced_adv, adv_peer, adv_polls, List.append_assoc]
      rfl)
  ⟨h.1, h.2.1⟩

/-! ### Changes of SDA while SCL is high -/

theorem highChanges_append (a b : List Ev) : ∀ l : Line,
    highChanges l (a ++ b) = highChanges l a ++ highChanges (replay l a) b := by
  induction a with
  | nil => intro l; simp [highChanges, replay]
  | cons e es ih =>
    intro l
    cases h : highChange l e <;> simp [highChanges, replay, ih, h]

theorem highChanges_startEv (l : Line) (h : l.sda = true)
    (h2 : l.out = true ∨ l.scl = false) : highChanges l startEv = [HighChange.fall] := by
  rcases l with ⟨a, b, c⟩
  simp only at h h2
  subst h
  cases a <;> cases c <;> simp at h2 <;> rfl

theorem highChanges_stopEv (l : Line) (h : l.scl = false) :
    highChanges l stopEv = [HighChange.rise] := by
  rcases l with ⟨a, b, c⟩
  simp only at h
  subst h
  cases b <;> cases c <;> rfl

theorem highChanges_sendBits (n : Nat) : ∀ (txd : Nat) (l : Line), l.scl = false →
    highChanges l (sendBits n txd) = [] := by
  induction n with
  | zero => intro txd l _; rfl
  | succ n ih =>
    intro txd l h
    rw [sendBits, highChanges_append, ih _ _ (by simp [replay, Line.step])]
    simp [highChanges, highChange, Line.step, h]

theorem highChanges_sendEv (txd : Nat) (l : Line) (h : l.scl = false) :
    highChanges l (sendEv txd) = [] := by
  rw [sendEv, highChanges_append, highChanges_sendBits 8 txd _ (by simp [replay, Line.step])]
  simp [highChanges, highChange, Line.step, h]

theorem highChanges_replicate_read (l : Line) (n : Nat) (v : Bool) :
    highChanges l (List.replicate n (Ev.readSda v)) = [] := by
  induction n with
  | zero => rfl
  | succ n ih => simpa [List.replicate_succ, highChanges, highChange, Line.step] using ih

theorem highChanges_wait_acked (j : Nat) (l : Line) (h : l.scl = false) :
    highChanges l (waitPre ++ ackedEv j) = [] ∧
    replay l (waitPre ++ ackedEv j) = ⟨false, true, false⟩ := by
  have h1 : highChanges l waitPre = [] := by
    rcases l with ⟨a, b, c⟩
    simp only at h
    subst h
    cases b <;> cases c <;> rfl
  constructor
  · rw [highChanges_append, h1, replay_waitPre, ackedEv, highChanges_append,
      highChanges_replicate_read, replay_replicate_read]
    rfl
  · rw [replay_append, replay_waitPre, ackedEv, replay_append, replay_replicate_read]
    rfl

theorem highChanges_readBits (peer : Nat → Bool) (n : Nat) : ∀ (p : Nat) (l : Line),
    highChanges l (readBits peer p n) = [] := by
  induction n with
  | zero => intro p l; rfl
  | succ n ih =>
    intro p l
    rw [readBits, highChanges_append, ih]
    rfl

theorem replay_readBits (peer : Nat → Bool) (n : Nat) : ∀ (p : Nat) (l : Line),
    (replay l (readBits peer p n)).sda = l.sda ∧ (replay l (readBits peer p n)).out = l.out := by
  induction n with
  | zero => intro p l; exact ⟨rfl, rfl⟩
  | succ n ih =>
    intro p l
    rw [readBits, replay_append]
    obtain ⟨h1, h2⟩ := ih (p + 1)
      (replay l [Ev.scl false, Ev.delay 10, Ev.scl true, Ev.readSda (peer p), Ev.delay 10])
    rw [h1, h2]
    exact ⟨rfl, rfl⟩

theorem highChanges_readEv (peer : Nat → Bool) (p ack : Nat) (l : Line) (h : l.scl = false) :
    highChanges l (readEv peer p ack) = [] ∧ (replay l (readEv peer p ack)).scl = false := by
  have h0 : highChanges l [Ev.sdaIn] = [] := by
    simp [highChanges, highChange, h]
  have hack : ∀ m : Line, highChanges m (if ack = 0 then nackEv else ackEv) = [] ∧
      (replay m (if ack = 0 then nackEv else ackEv)).scl = false := by
    intro m
    rcases m with ⟨a, b, c⟩
    by_cases hz : ack = 0
    · simp only [hz, if_true]
      cases a <;> cases b <;> cases c <;> exact ⟨rfl, rfl⟩
    · simp only [hz, if_false]
      cases a <;> cases b <;> cases c <;> exact ⟨rfl, rfl⟩
  constructor
  · rw [readEv, highChanges_append, highChanges_append, h0, highChanges_readBits,
      (hack _).1]
    rfl
  · rw [readEv, replay_append]
    exact (hack _).2

theorem highChanges_recvEv (peer : Nat → Bool) (n : Nat) : ∀ (p : Nat) (l : Line),
    l.scl = false →
    highChanges l (recvEv peer p n) = [] ∧ (replay l (recvEv peer p n)).scl = false := by
  induction n with
  | zero => intro p l h; exact ⟨rfl, h⟩
  | succ n ih =>
    intro p l h
    obtain ⟨h1, h2⟩ := highChanges_readEv peer p (if n + 1 = 1 then 0 else 1) l h
    obtain ⟨h3, h4⟩ := ih (p + 8) _ h2
    rw [recvEv, highChanges_append, replay_append, h1, h3]
    exact ⟨rfl, h4⟩

theorem highChanges_xmit (peer : Nat → Bool) (bs : List Nat) : ∀ (p : Nat) (l : Line),
    l.scl = false → (xmit peer p bs).1 = true →
    highChanges l (xmit peer p bs).2.2 = [] ∧ (replay l (xmit peer p bs).2.2).scl = false ∧
      (bs ≠ [] → (replay l (xmit peer p bs).2.2).sda = true) := by
  induction bs with
  | nil => intro p l h _; exact ⟨rfl, h, fun h => absurd rfl h⟩
  | cons b bs ih =>
    intro p l h
    rw [xmit]
    cases firstLow peer p 501 with
    | none => intro hok; simp at hok
    | some j =>
      simp only
      intro hok
      have hs := highChanges_sendEv b l h
      have hs2 := replay_sendEv_scl b l
      obtain ⟨hw, hw2⟩ := highChanges_wait_acked j (replay l (sendEv b)) hs2
      obtain ⟨hx, hx2, hx3⟩ := ih (p + (j + 1)) ⟨false, true, false⟩ rfl hok
      have e1 : replay l (sendEv b ++ (waitPre ++ ackedEv j)) = ⟨false, true, false⟩ := by
        rw [replay_append l (sendEv b), hw2]
      have e2 : replay l (sendEv b ++ (waitPre ++ ackedEv j) ++ (xmit peer (p + (j + 1)) bs).2.2)
          = replay ⟨false, true, false⟩ (xmit peer (p + (j + 1)) bs).2.2 := by
        rw [replay_append l (sendEv b ++ (waitPre ++ ackedEv j)), e1]
      rw [highChanges_append (sendEv b ++ (waitPre ++ ackedEv j)),
        highChanges_append (sendEv b), hs, hw, e1, hx, e2]
      refine ⟨rfl, hx2, fun _ => ?_⟩
      by_cases hb : bs = []
      · subst hb
        rfl
      · exact hx3 hb

/-- Changes of SDA with SCL high in a write in closed form, every byte
acknowledged. -/
theorem highChanges_write_form (peer : Nat → Bool) (p : Nat) (bs : List Nat)
    (hok : (xmit peer p bs).1 = true) :
    highChanges Line.idle (startEv ++ (xmit peer p bs).2.2 ++ stopEv)
      = [HighChange.fall, HighChange.rise] := by
  obtain ⟨hx, hx2, _⟩ := highChanges_xmit peer bs p ⟨false, true, true⟩ rfl hok
  have e1 : replay Line.idle (startEv ++ (xmit peer p bs).2.2)
      = replay ⟨false, true, true⟩ (xmit peer p bs).2.2 := by
    rw [replay_append, replay_startEv]
  rw [highChanges_append (startEv ++ (xmit peer p bs).2.2), highChanges_append startEv,
    highChanges_startEv _ rfl (Or.inl rfl), replay_startEv, hx, e1, highChanges_stopEv _ hx2]
  rfl

/-- Changes of SDA with SCL high in a read in closed form from the read
address on, every byte acknowledged. -/
theorem highChanges_readTail (peer : Nat → Bool) (p rd : Nat) (buf : List Nat) (len : Nat)
    (l : Line) (h : l.sda = true) (h2 : l.out = true ∨ l.scl = false)
    (hok : (xmit peer p [rd]).1 = true) :
    highChanges l (readTail peer p rd buf len).2.2.2
      = [HighChange.fall, HighChange.rise] := by
  obtain ⟨hx, hx2, _⟩ := highChanges_xmit peer [rd] p ⟨false, true, true⟩ rfl hok
  obtain ⟨hr, hr2⟩ := highChanges_recvEv peer len (p + (xmit peer p [rd]).2.1)
    (replay ⟨false, true, true⟩ (xmit peer p [rd]).2.2) hx2
  have e1 : replay l (startEv ++ (xmit peer p [rd]).2.2)
      = replay ⟨false, true, true⟩ (xmit peer p [rd]).2.2 := by
    rw [replay_append, replay_startEv]
  have e2 : replay l (startEv ++ (xmit peer p [rd]).2.2
        ++ recvEv peer (p + (xmit peer p [rd]).2.1) len)
      = replay (replay ⟨false, true, true⟩ (xmit peer p [rd]).2.2)
          (recvEv peer (p + (xmit peer p [rd]).2.1) len) := by
    rw [replay_append, e1]
  unfold readTail
  simp only [hok, if_true]
  rw [highChanges_append (startEv ++ (xmit peer p [rd]).2.2
        ++ recvEv peer (p + (xmit peer p [rd]).2.1) len),
    highChanges_append (startEv ++ (xmit peer p [rd]).2.2), highChanges_append startEv,
    highChanges_startEv _ h h2, replay_startEv, hx, e1, hr, e2, highChanges_stopEv _ hr2]
  rfl

/-- C19: started from the idle bus against a peer that acknowledges every
byte, each of the six register-protocol operations changes what it drives on
SDA while SCL is high only by the high-to-low transition of each `_iic_start`
(one, or two in `iic_read` and `iic_read_address16`) and by the low-to-high
transition of the one final `_iic_stop`; every other change of the driven
level, and every switch of direction, happens with SCL low. -/
theorem sda_stable_while_scl_high (s : Bus) (addr reg len : Nat) (buf : List Nat) :
    (ackedCount s.peer s.polls (len + 1) = len + 1 →
      highChanges Line.idle (produced s (iic_write_cmd addr buf len s).2)
        = [HighChange.fall, HighChange.rise]) ∧
    (ackedCount s.peer s.polls (len + 2) = len + 2 →
      highChanges Line.idle (produced s (iic_write addr reg buf len s).2)
        = [HighChange.fall, HighChange.rise]) ∧
    (ackedCount s.peer s.polls (len + 3) = len + 3 →
      highChanges Line.idle (produced s (iic_write_address16 addr reg buf len s).2)
        = [HighChange.fall, HighChange.rise]) ∧
    (ackedCount s.peer s.polls 3 = 3 →
      highChanges Line.idle (produced s (iic_read addr reg buf len s).2.2)
        = [HighChange.fall, HighChange.fall, HighChange.rise]) ∧
    (ackedCount s.peer s.polls 4 = 4 →
      highChanges Line.idle (produced s (iic_read_address16 addr reg buf len s).2.2)
        = [HighChange.fall, HighChange.fall, HighChange.rise]) ∧
    (ackedCount s.peer s.polls 1 = 1 →
      highChanges Line.idle (produced s (iic_read_cmd addr buf len s).2.2)
        = [HighChange.fall, HighChange.rise]) := by
  have rf : ∀ (b : Nat) (pre : List Nat) (rd : Nat),
      (xmit s.peer s.polls ((b :: pre) ++ [rd])).1 = true →
      highChanges Line.idle (readForm s.peer s.polls (b :: pre) rd buf len).2.2.2
        = [HighChange.fall, HighChange.fall, HighChange.rise] := by
    intro b pre rd hok
    have hok12 := hok
    rw [xmit_append_ok, Bool.and_eq_true] at hok12
    obtain ⟨hok1, hok2⟩ := hok12
    obtain ⟨hx, hx2, hx3⟩ := highChanges_xmit s.peer (b :: pre) s.polls ⟨false, true, true⟩
      rfl hok1
    have e1 : replay Line.idle (startEv ++ (xmit s.peer s.polls (b :: pre)).2.2)
        = replay ⟨false, true, true⟩ (xmit s.peer s.polls (b :: pre)).2.2 := by
      rw [replay_append, replay_startEv]
    unfold readForm
    simp only [hok1, if_true]
    rw [highChanges_append (startEv ++ (xmit s.peer s.polls (b :: pre)).2.2),
      highChanges_append startEv, highChanges_startEv _ rfl (Or.inl rfl), replay_startEv, hx,
      e1, highChanges_readTail _ _ _ _ _ _ (hx3 (by simp)) (Or.inr hx2) hok2]
    rfl
  refine ⟨?_, ?_, ?_, ?_, ?_, ?_⟩
  · intro h
    rw [iic_write_cmd_eq]
    simp only [produced_adv]
    apply highChanges_write_form
    rw [xmit_ok_iff, List.length_cons, length_dataBytes]
    exact h
  · intro h
    rw [iic_write_eq]
    simp only [produced_adv]
    apply highChanges_write_form
    rw [xmit_ok_iff, List.length_cons, List.length_cons, length_dataBytes]
    exact h
  · intro h
    rw [iic_write_address16_eq]
    simp only [produced_adv]
    apply highChanges_write_form
    rw [xmit_ok_iff, List.length_cons, List.length_cons, List.length_cons, length_dataBytes]
    exact h
  · intro h
    rw [iic_read_eq]
    simp only [produced_adv]
    exact rf addr [reg] _ ((xmit_ok_iff _ _ _).2 h)
  · intro h
    rw [iic_read_address16_eq]
    simp only [produced_adv]
    exact rf addr [(reg >>> 8) &&& 0xFF, reg &&& 0xFF] _ ((xmit_ok_iff _ _ _).2 h)
  · intro h
    rw [iic_read_cmd_eq]
    simp only [produced_adv]
    exact highChanges_readTail _ _ _ _ _ _ rfl (Or.inl rfl) ((xmit_ok_iff _ _ _).2 h)

/-- Instance of C19: `iic_read(0x50, 0x10, buf, 2)` against a peer that
acknowledges every byte. -/
theorem sda_stable_while_scl_high_witness :
    highChanges Line.idle (produced (Bus.fresh peerAckAlways)
        (iic_read 0x50 0x10 [0, 0] 2 (Bus.fresh peerAckAlways)).2.2)
      = [HighChange.fall, HighChange.fall, HighChange.rise] :=
  (sda_stable_while_scl_high (Bus.fresh peerAckAlways) 0x50 0x10 2 [0, 0]).2.2.2.1 rfl

/-! ### Direction discipline -/

theorem dirRun_append (d : Dir) (a b : List Ev) : d.run (a ++ b) = (d.run a).run b := by
  simp [Dir.run, List.foldl_append]

theorem dirStrict_append (a b : List Ev) : ∀ d : Dir,
    dirStrict d (a ++ b) = (dirStrict d a && dirStrict (d.run a) b) := by
  induction a with
  | nil => intro d; simp [dirStrict, Dir.run]
  | cons e es ih =>
    intro d
    simp [dirStrict, Dir.run, ih, Bool.and_assoc]

theorem strictAllowed_accessAllowed (d : Dir) (rest : List Ev) (e : Ev)
    (h : strictAllowed d e = true) : accessAllowed d rest e = true := by
  cases e <;> simp_all [strictAllowed, accessAllowed]

/-- A run that respects the strict discipline needs no look at what follows. -/
theorem dirOk_strict_append (a b : List Ev) : ∀ d : Dir, dirStrict d a = true →
    dirOk d (a ++ b) = dirOk (d.run a) b := by
  induction a with
  | nil => intro d _; rfl
  | cons e es ih =>
    intro d h
    simp only [dirStrict, Bool.and_eq_true] at h
    show (accessAllowed d (es ++ b) e && dirOk (d.step e) (es ++ b)) = dirOk (d.run (e :: es)) b
    rw [strictAllowed_accessAllowed d _ e h.1, Bool.true_and, ih _ h.2]
    rfl

theorem dirOk_of_strict (a : List Ev) (d : Dir) (h : dirStrict d a = true) :
    dirOk d a = true := by
  have e := dirOk_strict_append a [] d h
  rw [List.append_nil] at e
  rw [e]
  rfl

theorem dirStrict_startEv (d : Dir) :
    dirStrict d startEv = true ∧ d.run startEv = Dir.output := by
  cases d <;> exact ⟨rfl, rfl⟩

theorem dirStrict_stopEv (d : Dir) :
    dirStrict d stopEv = true ∧ d.run stopEv = Dir.output := by
  cases d <;> exact ⟨rfl, rfl⟩

theorem dirStrict_ackEv (d : Dir) :
    dirStrict d ackEv = true ∧ d.run ackEv = Dir.output := by
  cases d <;> exact ⟨rfl, rfl⟩

theorem dirStrict_nackEv (d : Dir) :
    dirStrict d nackEv = true ∧ d.run nackEv = Dir.output := by
  cases d <;> exact ⟨rfl, rfl⟩

theorem dirStrict_sendBits (n : Nat) : ∀ txd : Nat,
    dirStrict Dir.output (sendBits n txd) = true ∧
    Dir.run Dir.output (sendBits n txd) = Dir.output := by
  induction n with
  | zero => intro txd; exact ⟨rfl, rfl⟩
  | succ n ih =>
    intro txd
    obtain ⟨h1, h2⟩ := ih ((txd <<< 1) % 256)
    rw [sendBits, dirStrict_append, dirRun_append]
    exact ⟨by simpa [dirStrict, strictAllowed, Dir.step, Dir.run] using h1,
      by simpa [Dir.step, Dir.run] using h2⟩

theorem dirStrict_sendEv (txd : Nat) (d : Dir) :
    dirStrict d (sendEv txd) = true ∧ d.run (sendEv txd) = Dir.output := by
  obtain ⟨h1, h2⟩ := dirStrict_sendBits 8 txd
  rw [sendEv, dirStrict_append, dirRun_append]
  have e : d.run [Ev.sdaOut, Ev.scl false] = Dir.output := rfl
  have e2 : dirStrict d [Ev.sdaOut, Ev.scl false] = true := rfl
  rw [e, e2, h1, h2]
  exact ⟨rfl, rfl⟩

theorem dirStrict_polls (n : Nat) (v : Bool) :
    dirStrict Dir.input (List.replicate n (Ev.readSda v)) = true ∧
    Dir.run Dir.input (List.replicate n (Ev.readSda v)) = Dir.input := by
  induction n with
  | zero => exact ⟨rfl, rfl⟩
  | succ n ih =>
    obtain ⟨h1, h2⟩ := ih
    rw [List.replicate_succ]
    exact ⟨by simpa [dirStrict, strictAllowed, Dir.step] using h1,
      by simpa [Dir.step, Dir.run] using h2⟩

theorem dirStrict_ackedEv (j : Nat) :
    dirStrict Dir.input (ackedEv j) = true ∧ Dir.run Dir.input (ackedEv j) = Dir.input := by
  obtain ⟨h1, h2⟩ := dirStrict_polls j true
  rw [ackedEv, dirStrict_append, dirRun_append, h1, h2]
  exact ⟨rfl, rfl⟩

theorem dirStrict_timeoutEv (n : Nat) :
    dirStrict Dir.input (timeoutEv n) = true ∧ Dir.run Dir.input (timeoutEv n) = Dir.output := by
  obtain ⟨h1, h2⟩ := dirStrict_polls n true
  rw [timeoutEv, dirStrict_append, dirRun_append, h1, h2]
  exact ⟨rfl, rfl⟩

theorem dirStrict_readBits (peer : Nat → Bool) (n : Nat) : ∀ p : Nat,
    dirStrict Dir.input (readBits peer p n) = true ∧
    Dir.run Dir.input (readBits peer p n) = Dir.input := by
  induction n with
  | zero => intro p; exact ⟨rfl, rfl⟩
  | succ n ih =>
    intro p
    obtain ⟨h1, h2⟩ := ih (p + 1)
    rw [readBits, dirStrict_append, dirRun_append]
    exact ⟨by simpa [dirStrict, strictAllowed, Dir.step, Dir.run] using h1,
      by simpa [Dir.step, Dir.run] using h2⟩

theorem dirStrict_readEv (peer : Nat → Bool) (p ack : Nat) (d : Dir) :
    dirStrict d (readEv peer p ack) = true ∧ d.run (readEv peer p ack) = Dir.output := by
  obtain ⟨h1, h2⟩ := dirStrict_readBits peer 8 p
  have e : d.run [Ev.sdaIn] = Dir.input := rfl
  have e2 : dirStrict d [Ev.sdaIn] = true := rfl
  rw [readEv, dirStrict_append, dirStrict_append, dirRun_append, dirRun_append, e, e2, h1, h2]
  by_cases h : ack = 0
  · rw [if_pos h, (dirStrict_nackEv Dir.input).1]
    exact ⟨rfl, (dirStrict_nackEv _).2⟩
  · rw [if_neg h, (dirStrict_ackEv Dir.input).1]
    exact ⟨rfl, (dirStrict_ackEv _).2⟩

/-- The accesses of `_iic_wait_ack` when it reports an acknowledge: after
`SDA_IN()` and the load of the latch, every access respects the strict
discipline, and the master samples SDA next. -/
theorem waitAcked_shape (j : Nat) :
    (waitPre ++ ackedEv j).take 2 = [Ev.sdaIn, Ev.sda true] ∧
    sampledNext ((waitPre ++ ackedEv j).drop 2) = true ∧
    dirStrict Dir.input ((waitPre ++ ackedEv j).drop 2) = true ∧
    Dir.run Dir.input ((waitPre ++ ackedEv j).drop 2) = Dir.input := by
  obtain ⟨h1, h2⟩ := dirStrict_ackedEv j
  have e : (waitPre ++ ackedEv j).drop 2 =
      [Ev.delay 20, Ev.scl true, Ev.delay 20] ++ ackedEv j := rfl
  refine ⟨rfl, ?_, ?_, ?_⟩
  · rw [e]
    cases j <;> rfl
  · rw [e, dirStrict_append]
    simpa [dirStrict, strictAllowed, Dir.step, Dir.run] using h1
  · rw [e, dirRun_append]
    simpa [Dir.step, Dir.run] using h2

/-- The accesses of `_iic_wait_ack` when it gives up after `n + 1` polls. -/
theorem waitTimeout_shape (n : Nat) :
    (waitPre ++ timeoutEv (n + 1)).take 2 = [Ev.sdaIn, Ev.sda true] ∧
    sampledNext ((waitPre ++ timeoutEv (n + 1)).drop 2) = true ∧
    dirStrict Dir.input ((waitPre ++ timeoutEv (n + 1)).drop 2) = true ∧
    Dir.run Dir.input ((waitPre ++ timeoutEv (n + 1)).drop 2) = Dir.output := by
  obtain ⟨h1, h2⟩ := dirStrict_timeoutEv (n + 1)
  have e : (waitPre ++ timeoutEv (n + 1)).drop 2 =
      [Ev.delay 20, Ev.scl true, Ev.delay 20] ++ timeoutEv (n + 1) := rfl
  refine ⟨rfl, ?_, ?_, ?_⟩
  · rw [e]
    rfl
  · rw [e, dirStrict_append]
    simpa [dirStrict, strictAllowed, Dir.step, Dir.run] using h1
  · rw [e, dirRun_append]
    simpa [Dir.step, Dir.run] using h2

theorem sampledNext_append (a b : List Ev) (h : sampledNext a = true) :
    sampledNext (a ++ b) = true := by
  induction a with
  | nil => simp [sampledNext] at h
  | cons e es ih =>
    cases e with
    | readSda v => rfl
    | delay n => exact ih h
    | scl v =>
      cases v
      · simp [sampledNext] at h
      · exact ih h
    | sda v => simp [sampledNext] at h
    | sdaIn => simp [sampledNext] at h
    | sdaOut => simp [sampledNext] at h

/-- A run made of `SDA_IN()`, a load of 1 into the latch, and accesses that
sample SDA next and respect the strict discipline, followed by `rest`. -/
theorem dirOk_latch_append (w rest : List Ev) (d : Dir)
    (h1 : w.take 2 = [Ev.sdaIn, Ev.sda true])
    (h2 : sampledNext (w.drop 2) = true)
    (h3 : dirStrict Dir.input (w.drop 2) = true) :
    dirOk d (w ++ rest) = dirOk (Dir.run Dir.input (w.drop 2)) rest := by
  have e : w = [Ev.sdaIn, Ev.sda true] ++ w.drop 2 := by
    rw [← h1]; exact (List.take_append_drop 2 w).symm
  have e2 : w ++ rest = Ev.sdaIn :: Ev.sda true :: (w.drop 2 ++ rest) := by
    conv_lhs => rw [e]
    rfl
  rw [e2]
  simp only [dirOk, accessAllowed, Dir.step, sampledNext_append _ rest h2, Bool.true_and,
    Bool.and_self, Bool.or_true]
  exact dirOk_strict_append _ _ _ h3

theorem dirOk_wait_acked (j : Nat) (rest : List Ev) (h : ∀ d, dirOk d rest = true) (d : Dir) :
    dirOk d ((waitPre ++ ackedEv j) ++ rest) = true := by
  obtain ⟨h1, h2, h3, _⟩ := waitAcked_shape j
  rw [dirOk_latch_append _ rest d h1 h2 h3]
  exact h _

theorem dirOk_wait_timeout (n : Nat) (rest : List Ev) (h : ∀ d, dirOk d rest = true)
    (d : Dir) : dirOk d ((waitPre ++ timeoutEv (n + 1)) ++ rest) = true := by
  obtain ⟨h1, h2, h3, _⟩ := waitTimeout_shape n
  rw [dirOk_latch_append _ rest d h1 h2 h3]
  exact h _

theorem dirOk_strict_then (a rest : List Ev) (ha : ∀ d, dirStrict d a = true)
    (h : ∀ d, dirOk d rest = true) (d : Dir) : dirOk d (a ++ rest) = true := by
  rw [dirOk_strict_append a rest d (ha d)]
  exact h _

theorem dirOk_nil (d : Dir) : dirOk d [] = true := rfl

theorem dirOk_xmit (peer : Nat → Bool) (bs : List Nat) : ∀ (p : Nat) (rest : List Ev),
    (∀ d, dirOk d rest = true) → ∀ d, dirOk d ((xmit peer p bs).2.2 ++ rest) = true := by
  induction bs with
  | nil => intro p rest h d; exact h d
  | cons b bs ih =>
    intro p rest h d
    rw [xmit]
    cases firstLow peer p 501 with
    | none =>
      simp only
      rw [List.append_assoc]
      exact dirOk_strict_then _ _ (fun d => (dirStrict_sendEv b d).1)
        (dirOk_wait_timeout 500 rest h) d
    | some j =>
      simp only
      rw [List.append_assoc, List.append_assoc]
      exact dirOk_strict_then _ _ (fun d => (dirStrict_sendEv b d).1)
        (dirOk_wait_acked j _ (ih _ rest h)) d

theorem dirOk_recvEv (peer : Nat → Bool) (n : Nat) : ∀ (p : Nat) (rest : List Ev),
    (∀ d, dirOk d rest = true) → ∀ d, dirOk d (recvEv peer p n ++ rest) = true := by
  induction n with
  | zero => intro p rest h d; exact h d
  | succ n ih =>
    intro p rest h d
    rw [recvEv, List.append_assoc]
    exact dirOk_strict_then _ _ (fun d => (dirStrict_readEv peer p _ d).1) (ih _ rest h) d

theorem dirOk_stop (d : Dir) : dirOk d stopEv = true :=
  dirOk_of_strict _ _ (dirStrict_stopEv d).1

theorem dirOk_write_form (peer : Nat → Bool) (p : Nat) (bs : List Nat) (d : Dir) :
    dirOk d (startEv ++ (xmit peer p bs).2.2 ++ stopEv) = true := by
  rw [List.append_assoc]
  exact dirOk_strict_then _ _ (fun d => (dirStrict_startEv d).1)
    (dirOk_xmit peer bs p stopEv dirOk_stop) d

theorem dirOk_readTail (peer : Nat → Bool) (p rd : Nat) (buf : List Nat) (len : Nat)
    (d : Dir) : dirOk d (readTail peer p rd buf len).2.2.2 = true := by
  unfold readTail
  cases h : (xmit peer p [rd]).1
  · simp only [h, Bool.false_eq_true, if_false]
    exact dirOk_write_form peer p [rd] d
  · simp only [h, if_true]
    rw [List.append_assoc, List.append_assoc]
    exact dirOk_strict_then _ _ (fun d => (dirStrict_startEv d).1)
      (dirOk_xmit peer [rd] p _ (dirOk_recvEv peer len _ stopEv dirOk_stop)) d

theorem dirOk_readForm (peer : Nat → Bool) (p : Nat) (pre : List Nat) (rd : Nat)
    (buf : List Nat) (len : Nat) (d : Dir) :
    dirOk d (readForm peer p pre rd buf len).2.2.2 = true := by
  unfold readForm
  cases h : (xmit peer p pre).1
  · simp only [h, Bool.false_eq_true, if_false]
    exact dirOk_write_form peer p pre d
  · simp only [h, if_true]
    rw [List.append_assoc]
    exact dirOk_strict_then _ _ (fun d => (dirStrict_startEv d).1)
      (dirOk_xmit peer pre p _ (fun d => dirOk_readTail peer _ rd buf len d)) d

/-- The discipline tells a bit the master drives from a bit it listens to: a
sample in output mode, a low level written in input mode, and the accesses of
an acknowledge or a not-acknowledge bit made with SDA switched to input
instead of output, are all violations, also when the write comes right after
`SDA_IN()`. -/
theorem dirOk_violations :
    dirOk Dir.output [Ev.readSda true] = false ∧
    dirOk Dir.input [Ev.sda false, Ev.delay 20, Ev.scl true, Ev.readSda false] = false ∧
    dirOk Dir.output [Ev.scl false, Ev.delay 20, Ev.sdaIn, Ev.sda true, Ev.delay 20,
      Ev.scl true, Ev.delay 20, Ev.scl false, Ev.delay 20] = false ∧
    dirOk Dir.input [Ev.scl false, Ev.delay 20, Ev.sda true, Ev.delay 20,
      Ev.scl true, Ev.delay 20, Ev.scl false, Ev.delay 20] = false ∧
    dirOk Dir.output [Ev.sdaIn, Ev.sda true, Ev.delay 15, Ev.scl true, Ev.delay 15] = false :=
  ⟨rfl, rfl, rfl, rfl, rfl⟩

/-- C16: direction switches bracket every sample of SDA and every level the
master drives, for every input, every peer and either direction of SDA at
entry.

In the accesses of each of the six register-protocol operations every
`READ_SDA` is made in input mode and every `IIC_SDA = v` in output mode, the
only write made in input mode being a 1 in a clock period in which the master
goes on to sample SDA (`dirOk`).  As the direction at entry is arbitrary, a
sample is preceded by an `SDA_IN()` later than the last `SDA_OUT()`, and a
driven level by an `SDA_OUT()` later than the last `SDA_IN()`.

Function by function, without any exception (`dirStrict`): `_iic_start`,
`_iic_stop`, `_iic_send_byte` (address, register and data bits), `_iic_ack` and
`_iic_nack` write SDA in output mode only, also when entered in input mode;
`_iic_read_byte` samples in input mode only and drives its ACK or NACK in
output mode only.  `_iic_wait_ack` begins with `SDA_IN()` and a load of 1 into
the latch, samples SDA next, and from there on samples in input mode only and
writes in output mode only. -/
theorem sda_direction_brackets_reads (s : Bus) (d : Dir) (addr reg len txd ack : Nat)
    (buf : List Nat) :
    (dirOk d (produced s (iic_write_cmd addr buf len s).2) = true ∧
     dirOk d (produced s (iic_write addr reg buf len s).2) = true ∧
     dirOk d (produced s (iic_write_address16 addr reg buf len s).2) = true ∧
     dirOk d (produced s (iic_read addr reg buf len s).2.2) = true ∧
     dirOk d (produced s (iic_read_address16 addr reg buf len s).2.2) = true ∧
     dirOk d (produced s (iic_read_cmd addr buf len s).2.2) = true) ∧
    (dirStrict d (produced s (_iic_start s)) = true ∧
     dirStrict d (produced s (_iic_stop s)) = true ∧
     dirStrict d (produced s (_iic_send_byte txd s)) = true ∧
     dirStrict d (produced s (_iic_ack s)) = true ∧
     dirStrict d (produced s (_iic_nack s)) = true ∧
     dirStrict d (produced s (_iic_read_byte ack s).2) = true) ∧
    ((produced s (_iic_wait_ack s).2).take 2 = [Ev.sdaIn, Ev.sda true] ∧
     sampledNext ((produced s (_iic_wait_ack s).2).drop 2) = true ∧
     dirStrict Dir.input ((produced s (_iic_wait_ack s).2).drop 2) = true) := by
  refine ⟨⟨?_, ?_, ?_, ?_, ?_, ?_⟩, ⟨?_, ?_, ?_, ?_, ?_, ?_⟩, ?_⟩
  · rw [iic_write_cmd_eq]; simp only [produced_adv]; exact dirOk_write_form _ _ _ _
  · rw [iic_write_eq]; simp only [produced_adv]; exact dirOk_write_form _ _ _ _
  · rw [iic_write_address16_eq]; simp only [produced_adv]; exact dirOk_write_form _ _ _ _
  · rw [iic_read_eq]; simp only [produced_adv]; exact dirOk_readForm _ _ _ _ _ _ _
  · rw [iic_read_address16_eq]; simp only [produced_adv]; exact dirOk_readForm _ _ _ _ _ _ _
  · rw [iic_read_cmd_eq]; simp only [produced_adv]; exact dirOk_readTail _ _ _ _ _ _
  · rw [iic_start_eq, produced_adv]; exact (dirStrict_startEv d).1
  · rw [iic_stop_eq, produced_adv]; exact (dirStrict_stopEv d).1
  · rw [iic_send_byte_eq, produced_adv]; exact (dirStrict_sendEv txd d).1
  · rw [iic_ack_eq, produced_adv]; exact (dirStrict_ackEv d).1
  · rw [iic_nack_eq, produced_adv]; exact (dirStrict_nackEv d).1
  · rw [iic_read_byte_eq, produced_adv]; exact (dirStrict_readEv _ _ ack d).1
  · rw [iic_wait_ack_eq]
    cases firstLow s.peer s.polls 501 with
    | none =>
      simp only [produced_adv]
      obtain ⟨h1, h2, h3, _⟩ := waitTimeout_shape 500
      exact ⟨h1, h2, h3⟩
    | some j =>
      simp only [produced_adv]
      obtain ⟨h1, h2, h3, _⟩ := waitAcked_shape j
      exact ⟨h1, h2, h3⟩

end IIC
